import Mathlib

/-!
# Verification of the script-bisect core against its specification

This file gives a shallow embedding, in Lean, of the core components of the
script-bisect program (a tool that binary-searches a dependency's git history
for the first commit changing a test script's outcome), and proves or refutes
the specification claims about them.

Embedded components (each definition is translated from the named Python
source):

* `extract_package_name` — from `src/script_bisect/utils.py`;
* the PEP 723 metadata block finder, the TOML-subset reader/writer and
  `update_git_reference` — from `src/script_bisect/parser.py` (the TOML
  reader/writer models the behaviour of `tomllib.loads` / `tomli_w.dumps` on
  the flat string / string-list documents that PEP 723 metadata consists of);
* `detect_missing_dependencies` and `apply_dependency_fixes` — from
  `src/script_bisect/auto_dependency_fixer.py`;
* the test runner `test_commit` / `_run_test` with its retry loop, modelled as
  explicit state passing over a file-system map — from
  `src/script_bisect/runner.py`;
* the binary-search engine `_binary_search_commits` and `_run_binary_search` —
  from `src/script_bisect/bisector.py`, and the duplicate
  `binary_search_commits` — from `src/script_bisect/binary_bisector.py`.

Text is modelled as lists of characters (`Str`) and documents as lists of
lines (`Doc`); a document denotes the string obtained by interleaving `"\n"`
between lines, so a line is newline-terminated exactly when it is not the last
entry of the list.  External effects (the spawned test process, fresh
temporary-file names) are parameters: a process oracle indexed by invocation
number, and a stream of temporary path names.
-/

namespace ScriptBisect

/-! ## Text primitives (Python string operations) -/

/-- Text as a list of characters (the model of a Python `str` without
newlines). -/
abbrev Str := List Char

/-- A document as a list of lines (the model of a Python `str` split on
`"\n"`). -/
abbrev Doc := List Str

/-- Python's notion of whitespace for `str.strip()` and the regex class
`\s` (restricted to the ASCII whitespace characters). -/
def isPySpace (c : Char) : Bool :=
  c == ' ' || c == '\t' || c == '\n' || c == '\r' || c == '\x0b' || c == '\x0c'

/-- Python `s.strip()`. -/
def pyStrip (s : Str) : Str :=
  ((s.dropWhile isPySpace).reverse.dropWhile isPySpace).reverse

/-- Python `s.rstrip()` (used for the trailing edge of `str.strip()` on a
block of lines). -/
def pyStripRight (s : Str) : Str :=
  (s.reverse.dropWhile isPySpace).reverse

/-- Python `s.lstrip(' ')` — strips spaces only, not general whitespace. -/
def lstripSpaces (s : Str) : Str :=
  s.dropWhile (· == ' ')

/-- Python `pat in s` (substring containment). -/
def occursSub (pat : Str) : Str → Bool
  | [] => pat.isPrefixOf []
  | c :: t => pat.isPrefixOf (c :: t) || occursSub pat t

/-- The part of `s` before the first occurrence of `pat`
(Python `s.split(pat)[0]` for a nonempty separator); all of `s` when `pat`
does not occur. -/
def takeUntilSub (pat : Str) : Str → Str
  | [] => []
  | c :: t => if pat.isPrefixOf (c :: t) then [] else c :: takeUntilSub pat t

/-! ## `extract_package_name` (utils.py) -/

/-- The separator strings stripped by `extract_package_name`, in the order the
source lists them. -/
def packageSeps : List Str :=
  [">=".toList, "<=".toList, "==".toList, "!=".toList, ">".toList,
   "<".toList, "~=".toList, "[".toList, ";".toList]

/-- `extract_package_name` from `utils.py`: the part before the first `@` if
any, then iteratively the part before each version/extras separator, then
stripped of whitespace. -/
def extract_package_name (dependency : Str) : Str :=
  let name := if dependency.contains '@' then dependency.takeWhile (· ≠ '@') else dependency
  let name := packageSeps.foldl
    (fun n sep => if occursSub sep n then takeUntilSub sep n else n) name
  pyStrip name

/-! ## The bisection engine (`bisector.py` / `binary_bisector.py`)

`GitBisector._binary_search_commits` keeps a commit list, integer bounds
`left`/`right`, the best `first_bad` seen, and a step counter.  The external
test (`self._test_commit`) is modelled as an oracle `v : Nat → α → Verdict`
giving the verdict of the probe with a given step counter value on a given
commit; the per-iteration state is `BisectState`, extended with a ghost
`trace` of the probes performed (the Python code only prints them).  The
`while` loop is modelled with a fuel parameter; `binary_search_commits`
supplies fuel `commits.length + 1`, which is shown below to be enough for the
loop to reach its exit condition `left > right`. -/

/-- The tri-state outcome of probing one commit. -/
inductive Verdict : Type where
  | good
  | bad
  | untestable
deriving DecidableEq

/-- Loop state of `_binary_search_commits`, plus a ghost trace of probes. -/
structure BisectState (α : Type) where
  commits : List α
  left : Int
  right : Int
  firstBad : Option α
  steps : Nat
  trace : List (α × Verdict)
deriving DecidableEq

/-- One run of the `while left <= right` loop of
`GitBisector._binary_search_commits` (bisector.py lines 332-368), driven by
the probe oracle `v`.  `mid = (left + right) // 2` is Python floor division,
`Int.fdiv`.  An out-of-range index (impossible from the entry state, proved
below) returns the current state where Python would raise `IndexError`. -/
def bisectLoop (v : Nat → α → Verdict) : Nat → BisectState α → BisectState α
  | 0, st => st
  | fuel + 1, st =>
    if st.left ≤ st.right then
      match st.commits[(Int.fdiv (st.left + st.right) 2).toNat]? with
      | none => st
      | some c =>
        match v st.steps c with
        | .untestable =>
          -- commits.pop(mid); if mid <= (left + right) // 2: right -= 1
          bisectLoop v fuel { st with
            commits := st.commits.eraseIdx (Int.fdiv (st.left + st.right) 2).toNat
            right := if Int.fdiv (st.left + st.right) 2 ≤ Int.fdiv (st.left + st.right) 2 then
                st.right - 1
              else st.right
            steps := st.steps + 1
            trace := st.trace ++ [(c, .untestable)] }
        | .good =>
          bisectLoop v fuel { st with
            left := Int.fdiv (st.left + st.right) 2 + 1
            steps := st.steps + 1
            trace := st.trace ++ [(c, .good)] }
        | .bad =>
          bisectLoop v fuel { st with
            right := Int.fdiv (st.left + st.right) 2 - 1
            firstBad := some c
            steps := st.steps + 1
            trace := st.trace ++ [(c, .bad)] }
    else st

/-- The entry state of `_binary_search_commits`: `left = 0`,
`right = len(commits) - 1`, no `first_bad`, step counter `0`. -/
def initState (commits : List α) : BisectState α :=
  ⟨commits, 0, (commits.length : Int) - 1, none, 0, []⟩

/-- `GitBisector._binary_search_commits` run to completion (the fuel
`commits.length + 1` is proved sufficient below). -/
def binarySearchFull (v : Nat → α → Verdict) (commits : List α) : BisectState α :=
  bisectLoop v (commits.length + 1) (initState commits)

/-- `GitBisector._binary_search_commits` (bisector.py lines 311-372): the
returned `first_bad` commit together with the number of probes taken. -/
def binary_search_commits (v : Nat → α → Verdict) (commits : List α) :
    Option α × Nat :=
  ((binarySearchFull v commits).firstBad, (binarySearchFull v commits).steps)

/-- The loop of `BinaryBisector.binary_search_commits`
(binary_bisector.py lines 118-148), translated independently of
`bisectLoop`. -/
def bisectLoopBB (v : Nat → α → Verdict) : Nat → BisectState α → BisectState α
  | 0, st => st
  | fuel + 1, st =>
    if st.left ≤ st.right then
      match st.commits[(Int.fdiv (st.left + st.right) 2).toNat]? with
      | none => st
      | some c =>
        match v st.steps c with
        | .untestable =>
          bisectLoopBB v fuel { st with
            commits := st.commits.eraseIdx (Int.fdiv (st.left + st.right) 2).toNat
            right := if Int.fdiv (st.left + st.right) 2 ≤ Int.fdiv (st.left + st.right) 2 then
                st.right - 1
              else st.right
            steps := st.steps + 1
            trace := st.trace ++ [(c, .untestable)] }
        | .good =>
          bisectLoopBB v fuel { st with
            left := Int.fdiv (st.left + st.right) 2 + 1
            steps := st.steps + 1
            trace := st.trace ++ [(c, .good)] }
        | .bad =>
          bisectLoopBB v fuel { st with
            right := Int.fdiv (st.left + st.right) 2 - 1
            firstBad := some c
            steps := st.steps + 1
            trace := st.trace ++ [(c, .bad)] }
    else st

/-- `BinaryBisector.binary_search_commits` (binary_bisector.py lines 97-152). -/
def binary_search_commitsBB (v : Nat → α → Verdict) (commits : List α) :
    Option α × Nat :=
  let final := bisectLoopBB v (commits.length + 1) (initState commits)
  (final.firstBad, final.steps)

/-- The commit of the most recent `.bad` entry of a probe trace (the value
`first_bad` tracks). -/
def lastBad (trace : List (α × Verdict)) : Option α :=
  trace.foldl (fun acc p => if p.2 = Verdict.bad then some p.1 else acc) none

/-- `GitBisector._test_commit` (bisector.py lines 224-243) applied to the
outcome of `TestRunner.test_commit`: a successful run gives `success`
(negated in inverse mode); any raised exception — including the
`ExecutionError` raised when the runner executable is missing — is caught and
becomes `none` (untestable). -/
def test_commit_verdict (inverse : Bool) (r : Except Str Bool) : Option Bool :=
  match r with
  | .ok success => some (if inverse then !success else success)
  | .error _ => none

/-- Bridging `_test_commit`'s `Option Bool` into the loop's tri-state verdict:
`True` is good, `False` is bad, `None` is untestable. -/
def engineVerdict (r : Option Bool) : Verdict :=
  match r with
  | some true => .good
  | some false => .bad
  | none => .untestable

/-- The outcome of one whole `_run_binary_search` run.  The constructors
`found`/`noResult` are the two results the code can produce
(a commit-info dict or `None`).  The constructor `invariantViolation` is
modelled from the spec's error taxonomy ("endpoint verification contradiction
aborts with `InvariantViolation`") so that the spec's claimed outcome is
expressible; the code below never constructs it. -/
inductive EngineOutcome (α : Type) : Type where
  | found (commit : α)
  | noResult
  | invariantViolation (goodEndpoint : Bool)
deriving DecidableEq

/-- `GitBisector._run_binary_search` (bisector.py lines 245-309), given the
resolved commit range and the per-commit probe `test` (the composition of the
runner with `_test_commit`).  Returns the outcome together with the number of
binary-search probes performed over the sequence (endpoint-verification
probes are not counted).  When the good ref probes `False` (bad), the code
prints an error and returns `None`; likewise when the bad ref probes `True`;
an untestable endpoint only warns. -/
def run_binary_search (test : α → Option Bool) (skip_verification : Bool)
    (good_ref bad_ref : α) (commits : List α) : EngineOutcome α × Nat :=
  if commits.isEmpty then (.noResult, 0)
  else if skip_verification = false ∧ test good_ref = some false then (.noResult, 0)
  else if skip_verification = false ∧ test bad_ref = some true then (.noResult, 0)
  else
    match binary_search_commits (fun _ c => engineVerdict (test c)) commits with
    | (some c, n) => (.found c, n)
    | (none, n) => (.noResult, n)

/-! ## The PEP 723 metadata parser (`parser.py`)

`ScriptParser` locates the first match of the multiline regex
`^# /// script\s*\n((?:^#.*\n)*?)^# ///\s*\n` in the script text.  At the
line level this is: the first line that is `# /// script` followed only by
whitespace, such that each following line starts with `#` up to the first
line that is `# ///` followed only by whitespace; every matched line must be
newline-terminated, i.e. must not be the final entry of the document.  The
decoded interior is a TOML document; the flat string / string-list TOML
subset that PEP 723 metadata uses is modelled by `parseToml` (reader,
`tomllib.loads`) and `dumpToml` (writer, `tomli_w.dumps`). -/

/-- Whether a line matches `^# /// script\s*$` (start marker of the block). -/
def isStartMarker (l : Str) : Bool :=
  "# /// script".toList.isPrefixOf l && (l.drop 12).all isPySpace

/-- Whether a line matches `^# ///\s*$` (end marker of the block). -/
def isEndMarker (l : Str) : Bool :=
  "# ///".toList.isPrefixOf l && (l.drop 5).all isPySpace

/-- Scan the line suffix starting at absolute index `k` for the end of the
block: each line up to the first end marker must start with `#`, and the end
marker must be newline-terminated (not the final document entry, so at least
one line must follow it).  Returns the absolute index of the end-marker
line.  This is the non-greedy interior `(?:^#.*\n)*?^# ///\s*\n` of the
regex. -/
def scanFrom : Doc → Nat → Option Nat
  | [], _ => none
  | [_], _ => none
  | l :: l' :: rest, k =>
    if isEndMarker l then some k
    else if l.head? = some '#' then scanFrom (l' :: rest) (k + 1)
    else none

/-- Try each line suffix (absolute index `i`) as the start of the block: a
newline-terminated start-marker line followed by a successful interior scan.
This is `re.search` trying every position in order. -/
def findBlockFrom : Doc → Nat → Option (Nat × Nat)
  | [], _ => none
  | l :: rest, i =>
    if isStartMarker l ∧ rest ≠ [] then
      match scanFrom rest (i + 1) with
      | some j => some (i, j)
      | none => findBlockFrom rest (i + 1)
    else findBlockFrom rest (i + 1)

/-- The first regex match of the metadata block pattern: returns the line
indices `(i, j)` of the start-marker and end-marker lines. -/
def findBlock (doc : Doc) : Option (Nat × Nat) :=
  findBlockFrom doc 0

/-- The interior lines of the block located by `findBlock`. -/
def blockInterior (doc : Doc) (i j : Nat) : Doc :=
  (doc.drop (i + 1)).take (j - (i + 1))

/-- `match.group(1).strip().split('\n')` on the joined interior lines: the
join of the interior lines starts with `#` (never whitespace), so the strip
only removes the final newline and trailing whitespace of the last line; an
empty interior gives the single empty line `[""]`. -/
def stripSplitInterior (inner : Doc) : Doc :=
  match inner.reverse with
  | [] => [[]]
  | last :: revInit => revInit.reverse ++ [pyStripRight last]

/-- The comment-prefix removal of `_parse_metadata` (parser.py lines 81-89):
a line starting with `#` becomes the rest with leading spaces stripped, a
blank line stays empty, anything else is a `ParseError`. -/
def cleanMetadataLine (l : Str) : Option Str :=
  if l.head? = some '#' then some (lstripSpaces (l.drop 1))
  else if pyStrip l = [] then some []
  else none

/-- Apply a fallible transformation to every element (`None` propagates). -/
def mapMOpt (f : α → Option β) : List α → Option (List β)
  | [] => some []
  | x :: t =>
    match f x, mapMOpt f t with
    | some y, some ys => some (y :: ys)
    | _, _ => none

/-- All interior lines cleaned; `none` if any line violates the comment
convention. -/
def cleanMetadataLines (inner : Doc) : Option Doc :=
  mapMOpt cleanMetadataLine (stripSplitInterior inner)

/-! ### The TOML subset

PEP 723 metadata is a flat table of string values (`requires-python`) and
string-list values (`dependencies`).  `parseToml` models `tomllib.loads` on
this subset: bare keys of `[A-Za-z0-9_-]`, basic strings without escapes or
embedded quotes, inline or multiline string arrays, comment and blank lines,
duplicate keys rejected.  `dumpToml` models `tomli_w.dumps`: one `key =
value` line per entry, arrays written multiline with four-space indent and a
trailing comma per item. -/

/-- A TOML value of the modelled subset. -/
inductive TomlVal : Type where
  | str (s : Str)
  | arr (xs : List Str)
deriving DecidableEq

/-- A flat TOML table, in document order. -/
abbrev TomlTable := List (Str × TomlVal)

/-- Characters allowed in a bare TOML key. -/
def isBareKeyChar (c : Char) : Bool :=
  c.isAlphanum || c == '_' || c == '-'

/-- Parse a basic string literal `"…"` (no escapes, no embedded quotes or
backslashes) making up the whole (trimmed) input. -/
def parseStrLit (s : Str) : Option Str :=
  if s.head? = some '"' then
    let rest := s.tail
    let body := rest.takeWhile (fun c => c ≠ '"' ∧ c ≠ '\\')
    if rest.drop body.length = ['"'] then some body else none
  else none

/-- Parse one item line of a multiline array: `"…"` with an optional trailing
comma. -/
def parseArrayItem (l : Str) : Option Str :=
  let t := pyStrip l
  if t.reverse.head? = some ',' then parseStrLit (t.reverse.tail.reverse)
  else parseStrLit t

/-- Split on commas (the items are plain string literals, so every comma is a
separator); `cur` accumulates the current item in reverse. -/
def splitCommasAux : Str → Str → List Str
  | [], cur => [cur.reverse]
  | c :: t, cur => if c = ',' then cur.reverse :: splitCommasAux t [] else splitCommasAux t (c :: cur)

/-- Parse the inline array `[ "a", "b" ]` (possibly with a trailing comma). -/
def parseInlineArr (body : Str) : Option (List Str) :=
  let items := splitCommasAux body []
  let items := match items.reverse with
    | last :: revInit => if pyStrip last = [] then revInit.reverse else items
    | [] => items
  mapMOpt (fun it => parseStrLit (pyStrip it)) items

/-- Consume the item lines of a multiline array up to (and including) the
closing `]` line: returns the parsed items and the remaining lines after the
close, `none` when an item is malformed or the close is missing. -/
def parseArrayBlock : Doc → Option (List Str × Doc)
  | [] => none
  | l :: rest =>
    if pyStrip l = [']'] then some ([], rest)
    else
      match parseArrayItem l, parseArrayBlock rest with
      | some x, some (xs, rem) => some (x :: xs, rem)
      | _, _ => none

/-- One pass of the TOML-subset reader over the lines (fuel-indexed so that
the multiline-array case, which consumes a variable number of lines, remains
structurally recursive; the entry point supplies `length + 1` fuel, which
always suffices because every step consumes at least one line). -/
def parseTomlGo : Nat → Doc → TomlTable → Option TomlTable
  | 0, _, _ => none
  | _ + 1, [], acc => some acc
  | fuel + 1, l :: rest, acc =>
    let t := pyStrip l
    if t = [] then parseTomlGo fuel rest acc
    else if t.head? = some '#' then parseTomlGo fuel rest acc
    else
      let key := pyStrip (t.takeWhile (· ≠ '='))
      let valText := pyStrip (t.drop ((t.takeWhile (· ≠ '=')).length + 1))
      if t.contains '=' ∧ key ≠ [] ∧ key.all isBareKeyChar ∧ acc.all (fun p => p.1 ≠ key) then
        if valText.head? = some '[' then
          let body := valText.tail
          if pyStrip body = [] then
            -- multiline array: items until a closing `]` line
            match parseArrayBlock rest with
            | some (xs, rem) => parseTomlGo fuel rem (acc ++ [(key, .arr xs)])
            | none => none
          else
            if body.reverse.head? = some ']' then
              match parseInlineArr (body.reverse.tail.reverse) with
              | some xs => parseTomlGo fuel rest (acc ++ [(key, .arr xs)])
              | none => none
            else none
        else
          match parseStrLit valText with
          | some s => parseTomlGo fuel rest (acc ++ [(key, .str s)])
          | none => none
      else none

/-- Parse TOML lines of the modelled subset into a table. -/
def parseToml (ls : Doc) : Option TomlTable :=
  parseTomlGo (ls.length + 1) ls []

/-- `tomli_w.dumps` on the modelled subset, as lines: strings inline, arrays
multiline with four-space indent and a trailing comma per item (`[]` for the
empty array). -/
def dumpToml (t : TomlTable) : Doc :=
  t.flatMap fun p =>
    match p.2 with
    | .str s => [p.1 ++ " = \"".toList ++ s ++ ['"']]
    | .arr [] => [p.1 ++ " = []".toList]
    | .arr xs =>
      [p.1 ++ " = [".toList] ++ xs.map (fun x => "    \"".toList ++ x ++ "\",".toList) ++ ["]".toList]

/-- Parse the metadata table of a script (`ScriptParser._parse_metadata`):
locate the block, strip the comment prefixes, decode the TOML. -/
def parseMetadataOf (doc : Doc) : Option TomlTable := do
  let (i, j) ← findBlock doc
  let cleaned ← cleanMetadataLines (blockInterior doc i j)
  parseToml cleaned

/-- `self._metadata.get("dependencies", [])`, restricted to the modelled
subset: the list value of the `dependencies` key, `[]` when the key is
absent.  A string-valued `dependencies` key (over which the Python code would
iterate character-wise) is outside the model and yields `none`. -/
def depsOf (t : TomlTable) : Option (List Str) :=
  match t.find? (fun p => p.1 = "dependencies".toList) with
  | some (_, .arr xs) => some xs
  | some (_, .str _) => none
  | none => some []

/-- `metadata_copy["dependencies"] = updated`: replace the value at the key
in place (the key exists whenever `update_git_reference` reaches this point). -/
def setDeps (t : TomlTable) (xs : List Str) : TomlTable :=
  t.map fun p => if p.1 = "dependencies".toList then (p.1, .arr xs) else p

/-- The extras of a dependency specifier: the first regex match of
`\[([^\]]+)\]` (a bracket group with a nonempty, `]`-free interior),
including the brackets; empty when there is no match. -/
def extrasOf : Str → Str
  | [] => []
  | c :: rest =>
    if c = '[' then
      let inner := rest.takeWhile (· ≠ ']')
      if inner ≠ [] ∧ rest.drop inner.length ≠ [] then
        '[' :: inner ++ [']']
      else extrasOf rest
    else extrasOf rest

/-- The pinned specifier `f"{package_name}{extras}@{repo_url}@{new_ref}"`
built by `update_git_reference` for a matching dependency `dep`. -/
def pinnedSpec (package url ref dep : Str) : Str :=
  package ++ extrasOf dep ++ '@' :: url ++ '@' :: ref

/-- Worker for `replaceSub`: with `skip = 0`, scan for an occurrence of
`pat` (emitting `repl` and then skipping the matched lines); a positive
`skip` consumes that many already-matched lines without re-searching, so
occurrences never overlap — exactly Python's left-to-right `str.replace`. -/
def replaceSubGo (pat repl : Doc) : Nat → Doc → Doc
  | _, [] => []
  | 0, l :: rest =>
    if pat ≠ [] ∧ pat.isPrefixOf (l :: rest) then
      repl ++ replaceSubGo pat repl (pat.length - 1) rest
    else l :: replaceSubGo pat repl 0 rest
  | skip + 1, _ :: rest => replaceSubGo pat repl skip rest

/-- Replace every occurrence of the (nonempty) line sequence `pat` by `repl`
(Python `str.replace` at the line level; the block pattern starts and ends at
line boundaries). -/
def replaceSub (pat repl doc : Doc) : Doc :=
  replaceSubGo pat repl 0 doc

/-- URL normalisation of `update_git_reference` (parser.py lines 170-172):
prepend `git+` when absent. -/
def normalizeUrl (repo_url : Str) : Str :=
  if "git+".toList.isPrefixOf repo_url then repo_url else "git+".toList ++ repo_url

/-- The rebuilt dependency list (parser.py lines 189-206): every entry whose
bare package name matches is replaced by the pinned specifier (keeping its
extras), the rest are kept. -/
def depsUpdate (deps : List Str) (package url ref : Str) : List Str :=
  deps.map fun dep =>
    if extract_package_name dep = package then pinnedSpec package url ref dep else dep

/-- The re-commented interior of the regenerated metadata block. -/
def updatedBlockInner (meta : TomlTable) (deps : List Str) (package repo_url new_ref : Str) : Doc :=
  (dumpToml (setDeps meta (depsUpdate deps package (normalizeUrl repo_url) new_ref))).map
    (fun l => "# ".toList ++ l)

/-- `ScriptParser.update_git_reference` (parser.py lines 153-232) as a
document transformation: parse the metadata (the constructor's
`_parse_metadata`), check the package is present, normalise the URL, rebuild
the dependency list with the matching entries pinned, re-serialise the whole
metadata table, re-comment it, and substitute the new block text for the old
one.  `none` models a raised `ParseError`. -/
def update_git_reference (doc : Doc) (package repo_url new_ref : Str) :
    Option Doc := do
  let meta ← parseMetadataOf doc
  let deps ← depsOf meta
  -- has_package
  if deps.any (fun d => extract_package_name d = package) then
    let (i, j) ← findBlock doc
    let commented := updatedBlockInner meta deps package repo_url new_ref
    match doc[i]?, doc[j]? with
    | some startLine, some endLine =>
      let newBlock := startLine :: commented ++ [endLine]
      let oldBlock := (doc.drop i).take (j - i + 1)
      some (replaceSub oldBlock newBlock doc)
    | _, _ => none
  else none

/-! ## The automatic dependency fixer (`auto_dependency_fixer.py`) -/

/-- A catalog entry: package to add and the (literal) error pattern that
triggers it.  The human-readable `reason` field is display-only and omitted. -/
structure DependencyFix : Type where
  package_name : Str
  error_pattern : Str
deriving DecidableEq

/-- The static `DEPENDENCY_FIXES` catalog
(auto_dependency_fixer.py lines 32-93). -/
def DEPENDENCY_FIXES : List DependencyFix :=
  [⟨"cftime".toList, "The cftime package is required for working with non-standard calendars".toList⟩,
   ⟨"dask[array]".toList, "chunk manager 'dask' is not available".toList⟩,
   ⟨"dask[array]".toList, "make sure 'dask' is installed".toList⟩,
   ⟨"netcdf4".toList, "No module named 'netCDF4'".toList⟩,
   ⟨"scipy".toList, "No module named 'scipy'".toList⟩,
   ⟨"matplotlib".toList, "No module named 'matplotlib'".toList⟩,
   ⟨"seaborn".toList, "No module named 'seaborn'".toList⟩,
   ⟨"zarr".toList, "No module named 'zarr'".toList⟩,
   ⟨"fsspec".toList, "No module named 'fsspec'".toList⟩,
   ⟨"h5py".toList, "No module named 'h5py'".toList⟩,
   ⟨"bottleneck".toList, "No module named 'bottleneck'".toList⟩,
   ⟨"numbagg".toList, "No module named 'numbagg'".toList⟩]

/-- `re.search(pattern, text, re.IGNORECASE)` for the catalog's literal
patterns: case-insensitive substring containment. -/
def matchesPattern (pat text : Str) : Bool :=
  occursSub (pat.map Char.toLower) (text.map Char.toLower)

/-- `AutoDependencyFixer.detect_missing_dependencies`
(auto_dependency_fixer.py lines 95-114). -/
def detect_missing_dependencies (error_output : Str) : List DependencyFix :=
  DEPENDENCY_FIXES.filter (fun f => matchesPattern f.error_pattern error_output)

/-- The marker scan of `apply_dependency_fixes`
(auto_dependency_fixer.py lines 140-149): walk the lines; a stripped
`# /// script` records (and re-records) `metadata_start`; the first stripped
`# ///` records `metadata_end` and stops; a stripped line starting with
`# dependencies = [` after the start marker records `dependencies_line`.
Returns `(metadata_start, metadata_end, dependencies_line)`. -/
def fixerScanGo : Doc → Nat → Option Nat → Option Nat → Option Nat × Option Nat × Option Nat
  | [], _, ms, dl => (ms, none, dl)
  | l :: rest, i, ms, dl =>
    let t := pyStrip l
    if t = "# /// script".toList then fixerScanGo rest (i + 1) (some i) dl
    else if t = "# ///".toList then (ms, some i, dl)
    else if ms.isSome ∧ "# dependencies = [".toList.isPrefixOf t then fixerScanGo rest (i + 1) ms (some i)
    else fixerScanGo rest (i + 1) ms dl

/-- The marker scan, started at line 0 with nothing recorded. -/
def fixerScan (lines : Doc) : Option Nat × Option Nat × Option Nat :=
  fixerScanGo lines 0 none none

/-- The dependency-line collection loop (auto_dependency_fixer.py lines
158-165) over the suffix of the lines starting at `dependencies_line`, with
`allowed = metadata_end + 1 - dependencies_line` line reads permitted: take
lines up to and including the first one containing `]`, staying at or before
the end marker. -/
def collectDepsGo : Nat → Doc → Doc
  | 0, _ => []
  | _ + 1, [] => []
  | allowed + 1, l :: rest =>
    if l.contains ']' then [l] else l :: collectDepsGo allowed rest

/-- `deps_content` of `apply_dependency_fixes`: the dependency lines from
index `dl` while the index stays at or before `me`. -/
def collectDepsLines (lines : Doc) (me dl : Nat) : Doc :=
  collectDepsGo (me + 1 - dl) (lines.drop dl)

/-- The first match of `\[(.*?)\]`: the contents between the first `[` and
the first `]` following it (`none` when absent). -/
def firstBracketInner (s : Str) : Option Str :=
  let t := s.dropWhile (· ≠ '[')
  if t.head? = some '[' then
    let rest := t.tail
    let inner := rest.takeWhile (· ≠ ']')
    if rest.drop inner.length ≠ [] then some inner else none
  else none

/-- State machine for `re.findall(r'"([^"]*)"', s)`: outside a quoted item
(`none`) or inside one with the accumulated characters reversed
(`some acc`); an unbalanced final quote yields no further item. -/
def extractQuotedGo : Option Str → Str → List Str
  | _, [] => []
  | none, c :: t => if c = '"' then extractQuotedGo (some []) t else extractQuotedGo none t
  | some acc, c :: t =>
    if c = '"' then acc.reverse :: extractQuotedGo none t
    else extractQuotedGo (some (c :: acc)) t

/-- `re.findall(r'"([^"]*)"', s)`: the contents of each balanced pair of
double quotes, left to right. -/
def extractQuoted (s : Str) : List Str :=
  extractQuotedGo none s

/-- First-occurrence deduplication; determinises
`list({fix.package_name for fix in fixes})`, whose enumeration order Python
leaves unspecified.  The properties proved about the fixer below do not
depend on the chosen order. -/
def dedupFirst (seen : List Str) : List Str → List Str
  | [] => []
  | x :: t => if seen.contains x then dedupFirst seen t else x :: dedupFirst (x :: seen) t

/-- Worker for the `skip_until` search: `allowed` reads remain, the current
absolute index is `i`, and the given suffix of the lines is left. -/
def findCloseGo : Nat → Nat → Doc → Option Nat
  | 0, _, _ => none
  | _ + 1, _, [] => none
  | allowed + 1, i, l :: rest =>
    if l.contains ']' then some i else findCloseGo allowed (i + 1) rest

/-- The `skip_until` search (auto_dependency_fixer.py lines 195-202): the
first line index in `[dl, me]` whose line contains `]`. -/
def findCloseFrom (lines : Doc) (me dl : Nat) : Option Nat :=
  findCloseGo (me + 1 - dl) dl (lines.drop dl)

/-- `AutoDependencyFixer.apply_dependency_fixes`
(auto_dependency_fixer.py lines 116-220) as a pure document transformation
(the caller decides where the result is written): extract the existing
quoted dependency entries, append the package names of the fixes that are
not already present verbatim, and rebuild the block with the script marker
and the line after it kept, the regenerated dependency lines, and the lines
from `skip_until` on. -/
def apply_dependency_fixes (lines : Doc) (fixes : List DependencyFix) : Doc :=
  if fixes = [] then lines
  else
    match fixerScan lines with
    | (some ms, some me, dlOpt) =>
      let existing := match dlOpt with
        | some dl =>
          match firstBracketInner (List.intercalate [' '] (collectDepsLines lines me dl)) with
          | some inner => extractQuoted inner
          | none => []
        | none => []
      let new_deps := dedupFirst [] (fixes.map (·.package_name))
      let all_deps := existing ++ new_deps.filter (fun d => ¬ existing.contains d)
      let n := all_deps.length
      let deps_lines := "# dependencies = [".toList ::
        (all_deps.zip (List.range n)).map
          (fun p => "#   \"".toList ++ p.1 ++ ['"'] ++ if p.2 < n - 1 then [','] else []) ++
        ["# ]".toList]
      let skip_until := match dlOpt with
        | some dl =>
          match findCloseFrom lines me dl with
          | some idx => idx + 1
          | none => ms + 2
        | none => ms + 2
      lines.take (ms + 2) ++ deps_lines ++ lines.drop skip_until
    | _ => lines

/-! ## The test runner (`runner.py`)

File-system effects are modelled by explicit state passing over a map from
path identifiers to document contents.  Two external sources are parameters:
`proc`, the outcome of the `n`-th `subprocess.run` invocation, and `tmps`,
the stream of fresh names produced by `tempfile.NamedTemporaryFile`. -/

/-- An abstract path name. -/
abbrev PathId := Nat

/-- The file-system state: contents by path. -/
abbrev FileMap := PathId → Option Doc

/-- Write (create or overwrite) a file. -/
def fsWrite (fs : FileMap) (p : PathId) (d : Doc) : FileMap :=
  fun q => if q = p then some d else fs q

/-- `Path.unlink()`. -/
def fsErase (fs : FileMap) (p : PathId) : FileMap :=
  fun q => if q = p then none else fs q

/-- `AutoDependencyFixer.cleanup_temp_script`
(auto_dependency_fixer.py lines 263-281): unlink `p` only when it differs
from the original and exists. -/
def cleanup_temp_script (fs : FileMap) (p orig : PathId) : FileMap :=
  if p ≠ orig ∧ (fs p).isSome then fsErase fs p else fs

/-- The outcome of one `subprocess.run` of the test command. -/
inductive ProcOutcome : Type where
  | completed (returncode : Nat) (stdout stderr : Str)
  | timedOut
  | launchFailure (msg : Str)
  | otherFailure
deriving DecidableEq

/-- `apply_dependency_fixes` at the file level (the tail of
auto_dependency_fixer.py lines 116-220): no fixes or no metadata block
returns the input path unchanged; otherwise the rebuilt script is written to
a fresh temporary path, which is returned.  Result:
`(result path, file system, next temp index)`. -/
def apply_dependency_fixes_fs (fs : FileMap) (tmps : Nat → PathId) (tIdx : Nat)
    (cur : PathId) (fixes : List DependencyFix) : PathId × FileMap × Nat :=
  if fixes = [] then (cur, fs, tIdx)
  else
    let content := (fs cur).getD []
    match fixerScan content with
    | (some _, some _, _) =>
      let t := tmps tIdx
      (t, fsWrite fs t (apply_dependency_fixes content fixes), tIdx + 1)
    | _ => (cur, fs, tIdx)

/-- `AutoDependencyFixer.fix_and_retry`
(auto_dependency_fixer.py lines 233-261): returns
`(fixed path if any, retry?, file system, next temp index)`. -/
def fix_and_retry_fs (fs : FileMap) (tmps : Nat → PathId) (tIdx : Nat)
    (cur : PathId) (error_output : Str) : Option PathId × Bool × FileMap × Nat :=
  let fixes := detect_missing_dependencies error_output
  if fixes = [] then (none, false, fs, tIdx)
  else
    match apply_dependency_fixes_fs fs tmps tIdx cur fixes with
    | (fixed, fs', tIdx') =>
      if fixed ≠ cur then (some fixed, true, fs', tIdx') else (none, false, fs', tIdx')

/-- The state carried out of the `while retries <= max_retries` loop of
`TestRunner._run_test`. -/
structure RunState : Type where
  result : Except Str Bool
  fs : FileMap
  invocations : Nat
  current : PathId
  prev : Option PathId
  tmpIdx : Nat

/-- The retry loop of `TestRunner._run_test` (runner.py lines 106-198),
driven by the invocation-indexed process oracle `proc`.  Exit code `0`
returns success; a nonzero exit consults the dependency fixer when retries
remain, re-running with the fixed script (after cleaning up the superseded
temporary) or returning failure; a timeout returns failure immediately; a
launch failure raises `ExecutionError` (the `Except.error` branch); any
other execution exception returns failure.  `max_retries = 3`; the fuel
argument is `max_retries + 1 - retries` at every call, so fuel `0` is
unreachable. -/
def runTestLoop (proc : Nat → ProcOutcome) (tmps : Nat → PathId) (script_path : PathId) :
    Nat → Nat → Nat → PathId → Option PathId → FileMap → Nat → RunState
  | 0, _, _, cur, prev, fs, tIdx => ⟨.ok false, fs, 0, cur, prev, tIdx⟩
  | fuel + 1, retries, invIdx, cur, prev, fs, tIdx =>
    if retries ≤ 3 then
      match proc invIdx with
      | .completed 0 _ _ => ⟨.ok true, fs, 1, cur, prev, tIdx⟩
      | .completed _ out err =>
        if retries < 3 then
          let error_output := out ++ '\n' :: err
          match fix_and_retry_fs fs tmps tIdx cur error_output with
          | (some f, true, fs₁, tIdx₁) =>
            let fs₂ := match prev with
              | some pv => if pv ≠ script_path then cleanup_temp_script fs₁ pv script_path else fs₁
              | none => fs₁
            let prev' := if cur ≠ script_path then some cur else prev
            let tail := runTestLoop proc tmps script_path fuel (retries + 1) (invIdx + 1) f prev' fs₂ tIdx₁
            { tail with invocations := tail.invocations + 1 }
          | (_, _, fs₁, tIdx₁) => ⟨.ok false, fs₁, 1, cur, prev, tIdx₁⟩
        else ⟨.ok false, fs, 1, cur, prev, tIdx⟩
      | .timedOut => ⟨.ok false, fs, 1, cur, prev, tIdx⟩
      | .launchFailure msg =>
        ⟨.error (if occursSub "uv".toList msg then
            "uv not found. Please install uv (https://docs.astral.sh/uv/)".toList
          else "Command not found: ".toList ++ msg), fs, 1, cur, prev, tIdx⟩
      | .otherFailure => ⟨.ok false, fs, 1, cur, prev, tIdx⟩
    else ⟨.ok false, fs, 0, cur, prev, tIdx⟩

/-- The `finally` cleanup of `TestRunner._run_test` (runner.py lines
200-207), which runs on the success, failure and exception paths alike:
remove the previous temporary script (when distinct from the script under
test) and the current one (when distinct from both). -/
def runTestFinalize (script_path : PathId) (st : RunState) : RunState :=
  let fs₁ := match st.prev with
    | some pv => if pv ≠ script_path then cleanup_temp_script st.fs pv script_path else st.fs
    | none => st.fs
  let fs₂ := if st.current ≠ script_path ∧ some st.current ≠ st.prev then
      cleanup_temp_script fs₁ st.current script_path
    else fs₁
  { st with fs := fs₂ }

/-- `TestRunner._run_test` (runner.py lines 91-209): the retry loop followed
by the `finally` cleanup. -/
def run_test (proc : Nat → ProcOutcome) (tmps : Nat → PathId) (script_path : PathId)
    (fs : FileMap) (tIdx₀ : Nat) : RunState :=
  runTestFinalize script_path (runTestLoop proc tmps script_path 4 0 0 script_path none fs tIdx₀)

/-- `TestRunner.test_commit` (runner.py lines 46-89): pin the dependency in
the parsed original content, write the modified script to a fresh temporary
path, run the test, and unlink the temporary in the `finally` block; any
exception (a `ParseError` from the pin, or an error raised by `_run_test`)
is re-raised as `ExecutionError`.  Returns
`(outcome, final file system, process invocations)`. -/
def test_commit (proc : Nat → ProcOutcome) (tmps : Nat → PathId)
    (orig_content : Doc) (package repo_url commit_hash : Str) (fs : FileMap) :
    Except Str Bool × FileMap × Nat :=
  match update_git_reference orig_content package repo_url commit_hash with
  | none => (.error "Failed to test commit: ParseError".toList, fs, 0)
  | some modified =>
    let t0 := tmps 0
    let fs₁ := fsWrite fs t0 modified
    let st := run_test proc tmps t0 fs₁ 1
    let fs₂ := fsErase st.fs t0
    (match st.result with
     | .ok b => Except.ok b
     | .error e => Except.error ("Failed to test commit: ".toList ++ e),
     fs₂, st.invocations)

/-! ## Concrete instances used by counterexamples and witnesses -/

/-- The number of probes an `n`-wide binary search can take: `0` for an empty
range, `⌊log₂ n⌋ + 1` otherwise. -/
def logB (m : Nat) : Nat :=
  if m = 0 then 0 else Nat.log 2 m + 1

/-- A monotone verdict assignment on commits `0..3` with the good→bad
transition at index `3` (commit `3`). -/
def vTransAt3 : Nat → Nat → Verdict :=
  fun _ c => if c < 3 then .good else .bad

/-- A monotone verdict assignment on the commits `10,20,30,40,50` with the
transition at index `2` (commit `30`). -/
def vTransAt30 : Nat → Nat → Verdict :=
  fun _ c => if c < 30 then .good else .bad

/-- A probe sequence for the termination witness: verdicts alternate by step
index, with an untestable probe first. -/
def vMixed : Nat → Nat → Verdict :=
  fun s _ => if s = 0 then .untestable else if s = 1 then .good else .bad

/-- A concrete PEP 723 script: metadata block with a `requires-python` line
and one dependency, followed by a script body. -/
def exScript : Doc :=
  ["# /// script".toList,
   "# requires-python = \">=3.11\"".toList,
   "# dependencies = [".toList,
   "#     \"mypkg>=1.0\",".toList,
   "# ]".toList,
   "# ///".toList,
   "print(1)".toList,
   [] ]

/-- The temporary-name stream used in concrete runner instances: path `100 + n`
for the `n`-th temporary file. -/
def tmpsEx : Nat → PathId := fun n => 100 + n

/-- A file system holding the original script at path `0`. -/
def fsEx : FileMap := fun p => if p = 0 then some exScript else none

/-- A process oracle whose every invocation times out. -/
def procTimeout : Nat → ProcOutcome := fun _ => .timedOut

/-- A process oracle whose every invocation fails to launch (`uv` missing). -/
def procLaunchFail : Nat → ProcOutcome :=
  fun _ => .launchFailure "[Errno 2] No such file or directory: 'uv'".toList

/-- Per-commit runner outcomes for the C3 counterexample: probing commit `1`
raises the launch-failure `ExecutionError`; commit `0` passes; the rest fail. -/
def probeC3 : Nat → Except Str Bool :=
  fun c =>
    if c = 1 then .error "uv not found. Please install uv (https://docs.astral.sh/uv/)".toList
    else if c = 0 then .ok true
    else .ok false

/-- The engine-level test function for the C3 counterexample: `_test_commit`
applied to the runner outcomes of `probeC3`. -/
def testC3 : Nat → Option Bool := fun c => test_commit_verdict false (probeC3 c)

/-- An engine test function under which every commit (including the good
ref) probes bad. -/
def testAllBad : Nat → Option Bool := fun _ => some false

/-- An error output matching the `dask[array]` fix trigger of the catalog. -/
def errChunkDask : Str :=
  "ValueError: chunk manager 'dask' is not available".toList

/-- A process oracle whose first invocation exits nonzero with a
missing-dask error and whose retry then passes: exercises one round of the
dependency-fix retry loop. -/
def procRetryEx : Nat → ProcOutcome :=
  fun n => if n = 0 then .completed 1 errChunkDask [] else .completed 0 [] []

/-- Decidable equality of runner outcomes, for evaluating the concrete
instances. -/
instance {ε α : Type} [DecidableEq ε] [DecidableEq α] : DecidableEq (Except ε α) := fun x y =>
  match x, y with
  | .ok a, .ok b => if h : a = b then .isTrue (by rw [h]) else .isFalse (by simp [h])
  | .error a, .error b => if h : a = b then .isTrue (by rw [h]) else .isFalse (by simp [h])
  | .ok _, .error _ => .isFalse (by simp)
  | .error _, .ok _ => .isFalse (by simp)

/-- A string free of double quotes and backslashes — exactly the strings the
modelled TOML writer renders verbatim (Python's `tomli_w` would escape the
rest; such documents are outside the modelled subset). -/
def noQuoteBackslash (s : Str) : Prop :=
  '"' ∉ s ∧ '\\' ∉ s

/-- Well-formedness of a TOML value of the modelled subset. -/
def wfVal : TomlVal → Prop
  | .str s => noQuoteBackslash s
  | .arr xs => ∀ x ∈ xs, noQuoteBackslash x

/-- Well-formedness of a table entry: a nonempty bare key and a clean value. -/
def wfEntry (p : Str × TomlVal) : Prop :=
  p.1 ≠ [] ∧ p.1.all isBareKeyChar = true ∧ wfVal p.2

instance (s : Str) : Decidable (noQuoteBackslash s) :=
  inferInstanceAs (Decidable ('"' ∉ s ∧ '\\' ∉ s))

instance : ∀ v : TomlVal, Decidable (wfVal v)
  | .str s => inferInstanceAs (Decidable (noQuoteBackslash s))
  | .arr xs => inferInstanceAs (Decidable (∀ x ∈ xs, noQuoteBackslash x))

instance (p : Str × TomlVal) : Decidable (wfEntry p) :=
  inferInstanceAs (Decidable (_ ∧ _ ∧ _))

/-- The TOML lines as the parser re-reads them after comment-stripping: the
comment prefix removal strips all leading spaces of each line, so the dumped
lines reappear with their indentation removed. -/
def cleanedDump (t : TomlTable) : Doc :=
  (dumpToml t).map lstripSpaces

/-- A script whose metadata block carries a TOML comment line. -/
def exCommentScript : Doc :=
  ["# /// script".toList,
   "# # pinned for reproduction".toList,
   "# dependencies = [\"mypkg\"]".toList,
   "# ///".toList,
   "x = 1".toList]

/-- A script depending on plain `dask` (and `xarray`), for the
dependency-fixer claims. -/
def daskScript : Doc :=
  ["# /// script".toList,
   "# requires-python = \">=3.11\"".toList,
   "# dependencies = [".toList,
   "#   \"dask\",".toList,
   "#   \"xarray\"".toList,
   "# ]".toList,
   "# ///".toList,
   "import xarray".toList]

/-- `daskScript` after applying the fixes detected in the missing-dask error
output. -/
def daskFixedDoc : Doc :=
  apply_dependency_fixes daskScript (detect_missing_dependencies errChunkDask)

/-- The dependency-line block in exactly the format `apply_dependency_fixes`
itself writes (header, one quoted entry per line with a trailing comma on all
but the last, closing line). -/
def renderDepLines (ds : List Str) : Doc :=
  "# dependencies = [".toList ::
    ((ds.zip (List.range ds.length)).map
      (fun p => "#   \"".toList ++ p.1 ++ ['"'] ++ if p.2 < ds.length - 1 then [','] else [])) ++
    ["# ]".toList]

/-- A canonical fixer-format script: start marker, one free line (such as
`# requires-python = …`), the rendered dependency block, the end marker and
the body. -/
def mkFixerDoc (rpLine : Str) (ds : List Str) (body : Doc) : Doc :=
  ["# /// script".toList, rpLine] ++ renderDepLines ds ++ ("# ///".toList :: body)

/-! # Claim theorems -/

/-- Python `//` by two agrees with Lean's Euclidean `/` by two. -/
theorem fdiv_two_eq (x : Int) : Int.fdiv x 2 = x / 2 :=
  Int.fdiv_eq_ediv x (by norm_num)

/-- `lastBad` over a trace extended by one probe. -/
theorem lastBad_append_one (t : List (α × Verdict)) (c : α) (w : Verdict) :
    lastBad (t ++ [(c, w)]) = if w = Verdict.bad then some c else lastBad t := by
  simp [lastBad, List.foldl_append]

/-- A trace with no bad probes has no last bad commit. -/
theorem lastBad_eq_none (t : List (α × Verdict)) (h : ∀ p ∈ t, p.2 ≠ Verdict.bad) :
    lastBad t = none := by
  induction t using List.reverseRecOn with
  | nil => rfl
  | append_singleton t p ih =>
    rcases p with ⟨c, w⟩
    rw [lastBad_append_one]
    have hw : w ≠ Verdict.bad := h (c, w) (by simp)
    simp [hw]
    exact ih (fun q hq => h q (by simp [hq]))

/-- The main run lemma for the bisection loop: from a well-formed state
(`0 ≤ left`, `right < length`) and enough fuel, the loop reaches its exit
condition `left > right`, takes at most `right + 1 - left` further
iterations, and keeps `first_bad` equal to the most recent bad probe of the
trace. -/
theorem bisectLoop_run (v : Nat → α → Verdict) :
    ∀ (fuel : Nat) (st : BisectState α),
      0 ≤ st.left → st.right < st.commits.length →
      (st.right + 1 - st.left).toNat < fuel →
      ¬ (bisectLoop v fuel st).left ≤ (bisectLoop v fuel st).right ∧
      (bisectLoop v fuel st).steps ≤ st.steps + (st.right + 1 - st.left).toNat ∧
      (st.firstBad = lastBad st.trace →
        (bisectLoop v fuel st).firstBad = lastBad (bisectLoop v fuel st).trace) := by
  intro fuel
  induction fuel with
  | zero => intro st _ _ hf; omega
  | succ fuel ih =>
    intro st h0 hlen hf
    by_cases hg : st.left ≤ st.right
    · have hmid1 : st.left ≤ Int.fdiv (st.left + st.right) 2 := by
        rw [fdiv_two_eq]; omega
      have hmid2 : Int.fdiv (st.left + st.right) 2 ≤ st.right := by
        rw [fdiv_two_eq]; omega
      have hidx : (Int.fdiv (st.left + st.right) 2).toNat < st.commits.length := by omega
      have hsome : st.commits[(Int.fdiv (st.left + st.right) 2).toNat]? =
          some st.commits[(Int.fdiv (st.left + st.right) 2).toNat] :=
        List.getElem?_eq_getElem hidx
      rw [show bisectLoop v (fuel + 1) st = _ from rfl]
      simp only [bisectLoop, if_pos hg, hsome]
      set c := st.commits[(Int.fdiv (st.left + st.right) 2).toNat] with hc
      cases hv : v st.steps c with
      | untestable =>
        simp only [le_refl, if_pos]
        set st' : BisectState α := { st with
          commits := st.commits.eraseIdx (Int.fdiv (st.left + st.right) 2).toNat
          right := st.right - 1
          steps := st.steps + 1
          trace := st.trace ++ [(c, .untestable)] } with hst'
        have hlen' : st'.right < st'.commits.length := by
          have := List.length_eraseIdx_of_lt hidx
          simp only [hst', this]
          omega
        have := ih st' (by simp [hst']; omega) hlen' (by simp [hst']; omega)
        refine ⟨this.1, by have := this.2.1; simp only [hst'] at this ⊢; omega, ?_⟩
        intro hfb
        exact this.2.2 (by simp [hst', lastBad_append_one, hfb])
      | good =>
        set st' : BisectState α := { st with
          left := Int.fdiv (st.left + st.right) 2 + 1
          steps := st.steps + 1
          trace := st.trace ++ [(c, .good)] } with hst'
        have := ih st' (by simp [hst']; omega) (by simp [hst']; omega) (by simp [hst']; omega)
        refine ⟨this.1, by have := this.2.1; simp only [hst'] at this ⊢; omega, ?_⟩
        intro hfb
        exact this.2.2 (by simp [hst', lastBad_append_one, hfb])
      | bad =>
        set st' : BisectState α := { st with
          right := Int.fdiv (st.left + st.right) 2 - 1
          firstBad := some c
          steps := st.steps + 1
          trace := st.trace ++ [(c, .bad)] } with hst'
        have := ih st' (by simp [hst']; omega) (by simp [hst']; omega) (by simp [hst']; omega)
        refine ⟨this.1, by have := this.2.1; simp only [hst'] at this ⊢; omega, ?_⟩
        intro _
        exact this.2.2 (by simp [hst', lastBad_append_one])
    · simp only [bisectLoop, if_neg hg]
      exact ⟨hg, by omega, fun h => h⟩

/-- **C9** — The bisection search always terminates: on every finite commit
list and every sequence of per-probe verdicts, the loop reaches
`left > right` within at most `length` iterations, and
`_binary_search_commits` returns the commit of the most recent bad probe —
`none` when no probe came back bad. -/
theorem C9_search_terminates_returns_last_bad (v : Nat → α → Verdict) (commits : List α) :
    ¬ (binarySearchFull v commits).left ≤ (binarySearchFull v commits).right ∧
    (binarySearchFull v commits).steps ≤ commits.length ∧
    (binary_search_commits v commits).1 = lastBad (binarySearchFull v commits).trace ∧
    ((∀ p ∈ (binarySearchFull v commits).trace, p.2 ≠ Verdict.bad) →
      (binary_search_commits v commits).1 = none) := by
  have h := bisectLoop_run v (commits.length + 1) (initState commits)
    (by simp [initState]) (by simp [initState]) (by simp [initState])
  have hinit : (initState commits (α := α)).firstBad = lastBad (initState commits (α := α)).trace := by
    simp [initState, lastBad]
  refine ⟨h.1, ?_, ?_, ?_⟩
  · have := h.2.1
    simp only [binarySearchFull, initState] at *
    omega
  · exact h.2.2 hinit
  · intro hnone
    exact (h.2.2 hinit).trans (lastBad_eq_none _ hnone)

/-- Closed instance of the termination theorem: a five-commit list with a
probe sequence that is untestable, then good, then bad at successive steps. -/
theorem C9_search_terminates_returns_last_bad_witness :
    ¬ (binarySearchFull vMixed [0, 1, 2, 3, 4]).left ≤ (binarySearchFull vMixed [0, 1, 2, 3, 4]).right ∧
    (binarySearchFull vMixed [0, 1, 2, 3, 4]).steps ≤ 5 ∧
    (binary_search_commits vMixed [0, 1, 2, 3, 4]).1 = lastBad (binarySearchFull vMixed [0, 1, 2, 3, 4]).trace ∧
    ((∀ p ∈ (binarySearchFull vMixed [0, 1, 2, 3, 4]).trace, p.2 ≠ Verdict.bad) →
      (binary_search_commits vMixed [0, 1, 2, 3, 4]).1 = none) := by
  simpa using C9_search_terminates_returns_last_bad vMixed [0, 1, 2, 3, 4]

/-- The two bisection loops perform identical steps. -/
theorem bisectLoopBB_eq_bisectLoop (v : Nat → α → Verdict) :
    ∀ (fuel : Nat) (st : BisectState α), bisectLoopBB v fuel st = bisectLoop v fuel st := by
  intro fuel
  induction fuel with
  | zero => intro st; rfl
  | succ fuel ih => intro st; simp only [bisectLoop, bisectLoopBB, ih]

/-- **C10** — The two binary-search implementations in the repository are
equivalent: on every commit list and every probe oracle,
`BinaryBisector.binary_search_commits` and
`GitBisector._binary_search_commits` return the same first-bad commit and
step count (in particular they treat untestable probes identically: the
guard `mid <= (left + right) // 2` compares equal values, so an untestable
probe always removes the commit and decrements the upper bound). -/
theorem C10_two_implementations_equivalent (v : Nat → α → Verdict) (commits : List α) :
    binary_search_commitsBB v commits = binary_search_commits v commits ∧
    (∀ l r : Int,
      (if Int.fdiv (l + r) 2 ≤ Int.fdiv (l + r) 2 then r - 1 else r) = r - 1) := by
  constructor
  · rw [binary_search_commitsBB, binary_search_commits, binarySearchFull,
      bisectLoopBB_eq_bisectLoop]
  · intro l r; simp

/-- Halving step for the probe-count bound: one more probe on a range at most
half as large stays within the bound. -/
theorem logB_half {m m' : Nat} (hm : m ≠ 0) (h : 2 * m' ≤ m) : logB m' + 1 ≤ logB m := by
  rcases Nat.eq_zero_or_pos m' with h0 | h1
  · simp [logB, h0, hm]
  · have hm2 : 2 ≤ m := by omega
    have hhalf : m' ≤ m / 2 := by omega
    have hlog : Nat.log 2 m' ≤ Nat.log 2 (m / 2) := Nat.log_mono_right hhalf
    have hdiv : Nat.log 2 (m / 2) = Nat.log 2 m - 1 := Nat.log_div_base 2 m
    have hpos : 0 < Nat.log 2 m := Nat.log_pos (by norm_num) hm2
    unfold logB
    rw [if_neg hm, if_neg (by omega : ¬ m' = 0)]
    omega

/-- The bisection invariant under a monotone verdict assignment with the
transition at index `k`: the loop keeps `left ≤ k`, `k - 1 ≤ right`, and once
`right = k - 1` the recorded first bad commit is the one at index `k`; each
iteration at least halves the range, giving the `logB` probe bound. -/
theorem bisectLoop_monotone_run (v : Nat → α → Verdict) (commits : List α) (k : Nat)
    (hk : k < commits.length)
    (hv : ∀ (s : Nat) (i : Nat) (h : i < commits.length),
        v s commits[i] = if i < k then Verdict.good else Verdict.bad) :
    ∀ (fuel : Nat) (st : BisectState α),
      st.commits = commits → 0 ≤ st.left → st.left ≤ (k : Int) →
      (k : Int) - 1 ≤ st.right → st.right < commits.length →
      (st.right = (k : Int) - 1 → st.firstBad = some commits[k]) →
      (st.right + 1 - st.left).toNat < fuel →
      (bisectLoop v fuel st).firstBad = some commits[k] ∧
      (bisectLoop v fuel st).steps ≤ st.steps + logB (st.right + 1 - st.left).toNat := by
  intro fuel
  induction fuel with
  | zero => intro st _ _ _ _ _ _ hf; omega
  | succ fuel ih =>
    intro st hco h0 hlk hkr hrlen hfb hf
    by_cases hg : st.left ≤ st.right
    · have hmid1 : st.left ≤ Int.fdiv (st.left + st.right) 2 := by
        rw [fdiv_two_eq]; omega
      have hmid2 : Int.fdiv (st.left + st.right) 2 ≤ st.right := by
        rw [fdiv_two_eq]; omega
      have hidx : (Int.fdiv (st.left + st.right) 2).toNat < st.commits.length := by
        rw [hco]; omega
      have hsome : st.commits[(Int.fdiv (st.left + st.right) 2).toNat]? =
          some st.commits[(Int.fdiv (st.left + st.right) 2).toNat] :=
        List.getElem?_eq_getElem hidx
      have hidx' : (Int.fdiv (st.left + st.right) 2).toNat < commits.length := by
        rw [← hco]; exact hidx
      have hcval : st.commits[(Int.fdiv (st.left + st.right) 2).toNat] =
          commits[(Int.fdiv (st.left + st.right) 2).toNat] := by
        congr 1
      have hmeasure : (st.right + 1 - st.left).toNat ≠ 0 := by omega
      simp only [bisectLoop, if_pos hg, hsome]
      have hvc : v st.steps (st.commits[(Int.fdiv (st.left + st.right) 2).toNat]) =
          if (Int.fdiv (st.left + st.right) 2).toNat < k then Verdict.good else Verdict.bad := by
        rw [hcval]
        exact hv st.steps (Int.fdiv (st.left + st.right) 2).toNat hidx'
      rw [hvc]
      by_cases hmk : (Int.fdiv (st.left + st.right) 2).toNat < k
      · -- the probed commit is before the transition: Good
        simp only [if_pos hmk]
        set st' : BisectState α := { st with
          left := Int.fdiv (st.left + st.right) 2 + 1
          steps := st.steps + 1
          trace := st.trace ++ [(st.commits[(Int.fdiv (st.left + st.right) 2).toNat], .good)] }
          with hst'
        have hrec := ih st' (by simp [hst', hco]) (by simp [hst']; omega)
          (by simp only [hst']; omega) (by simp [hst']; omega) (by simp [hst']; omega)
          (by simp only [hst']; exact hfb) (by simp only [hst']; omega)
        refine ⟨hrec.1, ?_⟩
        have hb := hrec.2
        have hhalf : logB (st'.right + 1 - st'.left).toNat + 1 ≤ logB (st.right + 1 - st.left).toNat := by
          apply logB_half hmeasure
          have := fdiv_two_eq (st.left + st.right)
          simp only [hst']
          omega
        simp only [hst'] at hb hhalf ⊢
        omega
      · -- the probed commit is at or after the transition: Bad
        simp only [if_neg hmk]
        set st' : BisectState α := { st with
          right := Int.fdiv (st.left + st.right) 2 - 1
          firstBad := some (st.commits[(Int.fdiv (st.left + st.right) 2).toNat])
          steps := st.steps + 1
          trace := st.trace ++ [(st.commits[(Int.fdiv (st.left + st.right) 2).toNat], .bad)] }
          with hst'
        have hfb' : st'.right = (k : Int) - 1 → st'.firstBad = some commits[k] := by
          intro hr
          have hkeq : (Int.fdiv (st.left + st.right) 2).toNat = k := by
            simp only [hst'] at hr
            omega
          simp only [hst', hcval, hkeq, hco]
        have hrec := ih st' (by simp [hst', hco]) (by simp [hst']; omega)
          (by simp only [hst']; omega) (by simp [hst']; omega) (by simp [hst']; omega)
          hfb' (by simp only [hst']; omega)
        refine ⟨hrec.1, ?_⟩
        have hb := hrec.2
        have hhalf : logB (st'.right + 1 - st'.left).toNat + 1 ≤ logB (st.right + 1 - st.left).toNat := by
          apply logB_half hmeasure
          have := fdiv_two_eq (st.left + st.right)
          simp only [hst']
          omega
        simp only [hst'] at hb hhalf ⊢
        omega
    · simp only [bisectLoop, if_neg hg]
      have hreq : st.right = (k : Int) - 1 := by omega
      exact ⟨hfb hreq, by omega⟩

/-- **C1 (amended)** — For every commit sequence with a single monotonic
good→bad transition at index `k`, `_binary_search_commits` returns the
commit at index `k` and takes at most `⌊log₂ N⌋ + 1` probes (no untestable
probes occur under the monotonicity hypothesis).  The claimed bound
`⌈log₂ N⌉` is too small; see the counterexample. -/
theorem C1_monotone_finds_transition (v : Nat → Nat → Verdict) (commits : List Nat) (k : Nat)
    (hk : k < commits.length)
    (hv : ∀ (s : Nat) (i : Nat) (h : i < commits.length),
        v s commits[i] = if i < k then Verdict.good else Verdict.bad) :
    (binary_search_commits v commits).1 = some commits[k] ∧
    (binary_search_commits v commits).2 ≤ Nat.log 2 commits.length + 1 := by
  have h := bisectLoop_monotone_run v commits k hk hv (commits.length + 1) (initState commits)
    rfl (by simp only [initState]; omega) (by simp only [initState]; omega)
    (by simp only [initState]; omega) (by simp only [initState]; omega)
    (by simp only [initState]; intro hr; exfalso; omega)
    (by simp only [initState]; omega)
  refine ⟨h.1, ?_⟩
  have hb := h.2
  simp only [initState] at hb
  have hlogB : logB (((commits.length : Int) - 1 + 1 - 0).toNat) ≤ Nat.log 2 commits.length + 1 := by
    have harg : (((commits.length : Int) - 1 + 1 - 0).toNat) = commits.length := by omega
    rw [harg]
    unfold logB
    split
    · omega
    · omega
  simp only [binary_search_commits, binarySearchFull, initState] at hb ⊢
  omega

/-- Closed instance of the amended C1 theorem on five commits with the
transition at index 2. -/
theorem C1_monotone_finds_transition_witness :
    (binary_search_commits vTransAt30 [10, 20, 30, 40, 50]).1 = some 30 ∧
    (binary_search_commits vTransAt30 [10, 20, 30, 40, 50]).2 ≤ Nat.log 2 5 + 1 := by
  have h := C1_monotone_finds_transition vTransAt30 [10, 20, 30, 40, 50] 2 (by decide)
    (by intro s i hi
        have hi5 : i < 5 := by simpa using hi
        interval_cases i <;> simp [vTransAt30])
  simpa using h

/-- **C1 (counterexample)** — The claimed probe bound `⌈log₂ N⌉` fails: on
four commits with the good→bad transition at index 3 (all verdicts Good or
Bad, so no untestable commits are encountered), the engine probes 3 times,
but `⌈log₂ 4⌉ = 2`. -/
theorem C1_probe_bound_counterexample :
    binary_search_commits vTransAt3 [0, 1, 2, 3] = (some 3, 3) ∧
    Nat.clog 2 4 = 2 ∧
    ¬ ((binary_search_commits vTransAt3 [0, 1, 2, 3]).2 ≤ Nat.clog 2 4 + 0) := by
  have hclog : Nat.clog 2 4 = 2 := by
    have := Nat.clog_pow 2 2 (by norm_num)
    simpa using this
  refine ⟨by decide, hclog, ?_⟩
  rw [hclog]
  decide

/-- **C2 (amended)** — A probe whose test process times out makes `_run_test`
return `False` immediately — the engine then records the Bad verdict (Good in
inverse mode), not Untestable — with exactly one process invocation, so the
timeout consumes none of the dependency-fix retry budget. -/
theorem C2_timeout_returns_failure (proc : Nat → ProcOutcome) (tmps : Nat → PathId)
    (script_path : PathId) (fuel retries invIdx : Nat) (cur : PathId)
    (prev : Option PathId) (fs : FileMap) (tIdx : Nat)
    (hr : retries ≤ 3) (hto : proc invIdx = ProcOutcome.timedOut) :
    runTestLoop proc tmps script_path (fuel + 1) retries invIdx cur prev fs tIdx =
      ⟨Except.ok false, fs, 1, cur, prev, tIdx⟩ ∧
    test_commit_verdict false (Except.ok false) = some false ∧
    test_commit_verdict true (Except.ok false) = some true := by
  refine ⟨?_, rfl, rfl⟩
  simp only [runTestLoop, if_pos hr, hto]

/-- Closed instance of the amended C2 theorem: first invocation times out,
from the loop's entry state. -/
theorem C2_timeout_returns_failure_witness :
    runTestLoop procTimeout tmpsEx 100 4 0 0 100 none fsEx 1 =
      ⟨Except.ok false, fsEx, 1, 100, none, 1⟩ ∧
    test_commit_verdict false (Except.ok false) = some false ∧
    test_commit_verdict true (Except.ok false) = some true :=
  C2_timeout_returns_failure procTimeout tmpsEx 100 3 0 0 100 none fsEx 1
    (by decide) rfl

/-- **C2 (counterexample)** — The claim that a timeout yields the Untestable
verdict is false: on a concrete script whose probe times out, the oracle
returns `False` and `_test_commit` maps it to the Bad verdict `some false`,
not to Untestable (`none`). -/
theorem C2_timeout_counterexample :
    (test_commit procTimeout tmpsEx exScript "mypkg".toList
        "https://github.com/a/b".toList "abc123".toList fsEx).1 = Except.ok false ∧
    test_commit_verdict false
        (test_commit procTimeout tmpsEx exScript "mypkg".toList
          "https://github.com/a/b".toList "abc123".toList fsEx).1 = some false ∧
    ¬ test_commit_verdict false
        (test_commit procTimeout tmpsEx exScript "mypkg".toList
          "https://github.com/a/b".toList "abc123".toList fsEx).1 = none := by
  decide

/-- **C3 (amended)** — On a launch failure the runner raises `ExecutionError`
(an `Except.error` result), but `GitBisector._test_commit` catches every
exception and reports the probed commit as Untestable (`none`), so the
engine removes the commit and keeps bisecting instead of aborting: under
`testC3`, whose probe of commit 1 is exactly such an error, the engine
completes and returns commit 2. -/
theorem C3_launch_failure_becomes_untestable (proc : Nat → ProcOutcome)
    (tmps : Nat → PathId) (script_path : PathId) (fuel retries invIdx : Nat)
    (cur : PathId) (prev : Option PathId) (fs : FileMap) (tIdx : Nat) (msg : Str)
    (hr : retries ≤ 3) (hlf : proc invIdx = ProcOutcome.launchFailure msg) :
    (runTestLoop proc tmps script_path (fuel + 1) retries invIdx cur prev fs tIdx).result =
      Except.error (if occursSub "uv".toList msg then
          "uv not found. Please install uv (https://docs.astral.sh/uv/)".toList
        else "Command not found: ".toList ++ msg) ∧
    (∀ (inverse : Bool) (e : Str), test_commit_verdict inverse (Except.error e) = none) ∧
    run_binary_search testC3 true 0 2 [0, 1, 2] = (EngineOutcome.found 2, 3) := by
  refine ⟨?_, fun _ _ => rfl, by decide⟩
  simp only [runTestLoop, if_pos hr, hlf]

/-- Closed instance of the amended C3 theorem at the loop's entry state with
the `uv`-missing launch failure. -/
theorem C3_launch_failure_becomes_untestable_witness :
    (runTestLoop procLaunchFail tmpsEx 100 4 0 0 100 none fsEx 1).result =
      Except.error (if occursSub "uv".toList "[Errno 2] No such file or directory: 'uv'".toList then
          "uv not found. Please install uv (https://docs.astral.sh/uv/)".toList
        else "Command not found: ".toList ++ "[Errno 2] No such file or directory: 'uv'".toList) ∧
    (∀ (inverse : Bool) (e : Str), test_commit_verdict inverse (Except.error e) = none) ∧
    run_binary_search testC3 true 0 2 [0, 1, 2] = (EngineOutcome.found 2, 3) :=
  C3_launch_failure_becomes_untestable procLaunchFail tmpsEx 100 3 0 0 100 none fsEx 1
    "[Errno 2] No such file or directory: 'uv'".toList (by decide) rfl

/-- **C3 (counterexample)** — The claim that a launch failure aborts the
whole run and is never turned into a per-commit Untestable verdict is false:
on a concrete script, the runner raises `ExecutionError` (`uv` missing), the
engine's `_test_commit` converts it to Untestable, and the engine continues
past it, completing the bisection with a found commit after three probes. -/
theorem C3_engine_continues_counterexample :
    (test_commit procLaunchFail tmpsEx exScript "mypkg".toList
        "https://github.com/a/b".toList "abc123".toList fsEx).1 =
      Except.error
        "Failed to test commit: uv not found. Please install uv (https://docs.astral.sh/uv/)".toList ∧
    test_commit_verdict false
        (test_commit procLaunchFail tmpsEx exScript "mypkg".toList
          "https://github.com/a/b".toList "abc123".toList fsEx).1 = none ∧
    run_binary_search testC3 true 0 2 [0, 1, 2] = (EngineOutcome.found 2, 3) := by
  decide

/-- **C4 (amended)** — With endpoint verification enabled, a good ref that
probes Bad makes `_run_binary_search` print an error and return no result —
it does not raise any error — and zero binary-search probes are performed
over the commit sequence. -/
theorem C4_good_ref_bad_returns_no_result (test : α → Option Bool)
    (good_ref bad_ref : α) (commits : List α)
    (h : test good_ref = some false) :
    run_binary_search test false good_ref bad_ref commits = (EngineOutcome.noResult, 0) := by
  by_cases hemp : commits.isEmpty
  · simp [run_binary_search, hemp]
  · simp [run_binary_search, hemp, h]

/-- Closed instance of the amended C4 theorem. -/
theorem C4_good_ref_bad_returns_no_result_witness :
    run_binary_search testAllBad false 0 3 [1, 2] = (EngineOutcome.noResult, 0) :=
  C4_good_ref_bad_returns_no_result testAllBad 0 3 [1, 2] rfl

/-- **C4 (counterexample)** — The claim that the engine aborts with an
`InvariantViolation` error is false: when the good ref probes Bad, the
outcome is the ordinary no-result value (`None`), not an
`InvariantViolation` for either endpoint — though indeed no bisection probe
is performed. -/
theorem C4_no_invariant_violation_counterexample :
    run_binary_search testAllBad false 0 3 [1, 2] = (EngineOutcome.noResult, 0) ∧
    (run_binary_search testAllBad false 0 3 [1, 2]).1 ≠ EngineOutcome.invariantViolation true ∧
    (run_binary_search testAllBad false 0 3 [1, 2]).1 ≠ EngineOutcome.invariantViolation false := by
  decide

/-- **C5 (counterexample)** — `update_git_reference` is not idempotent for
every argument: when the repository URL contains a bracket segment, the
second update misreads that segment of the already-pinned specifier as an
extras annotation (the first regex match of `\[([^\]]+)\]`) and produces a
different specifier, so updating twice differs from updating once. -/
theorem C5_idempotence_counterexample :
    (update_git_reference exScript "mypkg".toList "https://e.com/r[x]".toList "abc".toList).isSome ∧
    (update_git_reference exScript "mypkg".toList "https://e.com/r[x]".toList "abc".toList).bind
        (fun d => update_git_reference d "mypkg".toList "https://e.com/r[x]".toList "abc".toList) ≠
      update_git_reference exScript "mypkg".toList "https://e.com/r[x]".toList "abc".toList := by
  decide

/-- **C6 (counterexample)** — `update_git_reference` does not preserve every
non-dependency line of the metadata block: the whole block is re-serialised
from the decoded TOML, so a comment line inside the block is present in the
input but absent from the returned text. -/
theorem C6_block_comment_lost_counterexample :
    (update_git_reference exCommentScript "mypkg".toList "https://g/h".toList "r1".toList).isSome ∧
    "# # pinned for reproduction".toList ∈ exCommentScript ∧
    "# # pinned for reproduction".toList ∉
      (update_git_reference exCommentScript "mypkg".toList "https://g/h".toList "r1".toList).getD [] := by
  decide

/-- **C7 (counterexample)** — Appending dependency fixes deduplicates by the
full specifier string, not by bare package name: with an entry for `dask`
already present (and all bare names unique), the detected `dask[array]` fix
is still appended, leaving two entries whose bare package name is `dask`. -/
theorem C7_bare_name_duplicate_counterexample :
    detect_missing_dependencies errChunkDask =
      [⟨"dask[array]".toList, "chunk manager 'dask' is not available".toList⟩] ∧
    (parseMetadataOf daskScript).bind depsOf = some ["dask".toList, "xarray".toList] ∧
    (parseMetadataOf daskFixedDoc).bind depsOf =
      some ["dask".toList, "xarray".toList, "dask[array]".toList] ∧
    extract_package_name "dask[array]".toList = extract_package_name "dask".toList := by
  decide

/-- Unlinking a temporary never touches a different path. -/
theorem cleanup_temp_script_frame (fs : FileMap) (q sp p : PathId) (hq : q ≠ p) :
    cleanup_temp_script fs q sp p = fs p := by
  unfold cleanup_temp_script
  split
  · simp [fsErase, Ne.symm hq]
  · rfl

/-- The dependency fixer writes only to fresh temporary paths, and any fixed
script it returns is such a path. -/
theorem fix_and_retry_fs_frame (fs : FileMap) (tmps : Nat → PathId) (tIdx : Nat)
    (cur : PathId) (err : Str) (p : PathId) (hp : ∀ i, tmps i ≠ p) :
    (fix_and_retry_fs fs tmps tIdx cur err).2.2.1 p = fs p ∧
    (∀ f, (fix_and_retry_fs fs tmps tIdx cur err).1 = some f → f ≠ p) := by
  unfold fix_and_retry_fs apply_dependency_fixes_fs
  by_cases hfe : detect_missing_dependencies err = []
  · simp [hfe]
  · simp only [if_neg hfe]
    rcases hscan : fixerScan ((fs cur).getD []) with ⟨ms, me, dl⟩
    have hw : fsWrite fs (tmps tIdx)
        (apply_dependency_fixes ((fs cur).getD []) (detect_missing_dependencies err)) p = fs p := by
      simp [fsWrite, Ne.symm (hp tIdx)]
    cases ms with
    | some msv =>
      cases me with
      | some mev =>
        by_cases ht : tmps tIdx ≠ cur
        · simp only [if_pos ht]
          refine ⟨hw, ?_⟩
          intro f hf
          have : tmps tIdx = f := by simpa using hf
          rw [← this]
          exact hp tIdx
        · simp only [if_neg ht]
          exact ⟨hw, by simp⟩
      | none =>
        simp
    | none =>
      cases me with
      | some mev => simp
      | none => simp

/-- Frame property of the retry loop: with every temporary name distinct
from `p`, and a current/previous script distinct from `p`, the loop neither
reads nor changes the file at `p`, and its final current/previous scripts
are still distinct from `p`. -/
theorem runTestLoop_frame (proc : Nat → ProcOutcome) (tmps : Nat → PathId)
    (sp p : PathId) (hp : ∀ i, tmps i ≠ p) :
    ∀ (fuel retries invIdx : Nat) (cur : PathId) (prev : Option PathId)
      (fs : FileMap) (tIdx : Nat),
      cur ≠ p → (∀ q, prev = some q → q ≠ p) →
      (runTestLoop proc tmps sp fuel retries invIdx cur prev fs tIdx).fs p = fs p ∧
      (runTestLoop proc tmps sp fuel retries invIdx cur prev fs tIdx).current ≠ p ∧
      (∀ q, (runTestLoop proc tmps sp fuel retries invIdx cur prev fs tIdx).prev = some q → q ≠ p) := by
  intro fuel
  induction fuel with
  | zero =>
    intro retries invIdx cur prev fs tIdx hc hpr
    exact ⟨rfl, hc, hpr⟩
  | succ fuel ih =>
    intro retries invIdx cur prev fs tIdx hc hpr
    simp only [runTestLoop]
    by_cases hr : retries ≤ 3
    · simp only [if_pos hr]
      cases hproc : proc invIdx with
      | completed rc out errout =>
        cases rc with
        | zero => exact ⟨rfl, hc, hpr⟩
        | succ rc' =>
          by_cases hr3 : retries < 3
          · simp only [if_pos hr3]
            have hfr := fix_and_retry_fs_frame fs tmps tIdx cur (out ++ '\n' :: errout) p hp
            rcases hfix : fix_and_retry_fs fs tmps tIdx cur (out ++ '\n' :: errout) with
              ⟨fOpt, sRetry, fs₁, tIdx₁⟩
            rw [hfix] at hfr
            cases fOpt with
            | none => cases sRetry <;> exact ⟨hfr.1, hc, hpr⟩
            | some f =>
              cases sRetry with
              | false => exact ⟨hfr.1, hc, hpr⟩
              | true =>
                have hfp : f ≠ p := hfr.2 f rfl
                cases prev with
                | none =>
                  have hprev' : ∀ q, (if cur ≠ sp then some cur else none) = some q → q ≠ p := by
                    intro q hq
                    by_cases hcsp : cur ≠ sp
                    · simp only [if_pos hcsp] at hq
                      rw [← Option.some_inj.mp hq]
                      exact hc
                    · simp only [if_neg hcsp] at hq
                      exact Option.noConfusion hq
                  have hrec := ih (retries + 1) (invIdx + 1) f
                    (if cur ≠ sp then some cur else none) fs₁ tIdx₁ hfp hprev'
                  exact ⟨hrec.1.trans hfr.1, hrec.2.1, hrec.2.2⟩
                | some pv =>
                  have hpv : pv ≠ p := hpr pv rfl
                  have hprev' : ∀ q, (if cur ≠ sp then some cur else some pv) = some q → q ≠ p := by
                    intro q hq
                    by_cases hcsp : cur ≠ sp
                    · simp only [if_pos hcsp] at hq
                      rw [← Option.some_inj.mp hq]
                      exact hc
                    · simp only [if_neg hcsp] at hq
                      rw [← Option.some_inj.mp hq]
                      exact hpv
                  have hfs₂ : (if pv ≠ sp then cleanup_temp_script fs₁ pv sp else fs₁) p = fs₁ p := by
                    by_cases hpvsp : pv ≠ sp
                    · simp only [if_pos hpvsp]
                      exact cleanup_temp_script_frame fs₁ pv sp p hpv
                    · simp only [if_neg hpvsp]
                  have hrec := ih (retries + 1) (invIdx + 1) f
                    (if cur ≠ sp then some cur else some pv)
                    (if pv ≠ sp then cleanup_temp_script fs₁ pv sp else fs₁) tIdx₁ hfp hprev'
                  exact ⟨hrec.1.trans (hfs₂.trans hfr.1), hrec.2.1, hrec.2.2⟩
          · simp only [if_neg hr3]
            exact ⟨trivial, hc, hpr⟩
      | timedOut => exact ⟨rfl, hc, hpr⟩
      | launchFailure msg => exact ⟨rfl, hc, hpr⟩
      | otherFailure => exact ⟨rfl, hc, hpr⟩
    · simp only [if_neg hr]
      exact ⟨trivial, hc, hpr⟩

/-- The `finally` cleanup only ever unlinks the current and previous
temporaries. -/
theorem runTestFinalize_frame (sp p : PathId) (st : RunState)
    (hcur : st.current ≠ p) (hprev : ∀ q, st.prev = some q → q ≠ p) :
    (runTestFinalize sp st).fs p = st.fs p := by
  unfold runTestFinalize
  have h1 : (match st.prev with
      | some pv => if pv ≠ sp then cleanup_temp_script st.fs pv sp else st.fs
      | none => st.fs) p = st.fs p := by
    rcases hpv : st.prev with _ | pv
    · rfl
    · have hq : pv ≠ p := hprev pv hpv
      by_cases hpvsp : pv ≠ sp
      · simp only [if_pos hpvsp]
        exact cleanup_temp_script_frame st.fs pv sp p hq
      · simp only [if_neg hpvsp]
  by_cases hcc : st.current ≠ sp ∧ some st.current ≠ st.prev
  · simp only [if_pos hcc]
    exact (cleanup_temp_script_frame _ st.current sp p hcur).trans h1
  · simp only [if_neg hcc]
    exact h1

/-- `_run_test` touches only the fresh temporaries: any path distinct from
the managed script and the temporary names keeps its contents. -/
theorem run_test_frame (proc : Nat → ProcOutcome) (tmps : Nat → PathId)
    (sp : PathId) (fs : FileMap) (tIdx₀ : Nat) (p : PathId)
    (hp : ∀ i, tmps i ≠ p) (hsp : sp ≠ p) :
    (run_test proc tmps sp fs tIdx₀).fs p = fs p := by
  have h := runTestLoop_frame proc tmps sp p hp 4 0 0 sp none fs tIdx₀ hsp
    (fun q hq => Option.noConfusion hq)
  unfold run_test
  exact (runTestFinalize_frame sp p _ h.2.1 h.2.2).trans h.1

/-- **C8** — No probe modifies the user's original script file: for every
process oracle, every stream of fresh temporary names, and every path `p`
distinct from all the temporaries — in particular the original script path,
which exists before the probe and so cannot be handed out as a fresh
temporary name — `TestRunner.test_commit` leaves the file at `p` with
exactly its previous contents, on the success, failure and exception paths
alike. -/
theorem C8_original_script_never_modified (proc : Nat → ProcOutcome)
    (tmps : Nat → PathId) (orig_content : Doc) (package repo_url commit_hash : Str)
    (fs : FileMap) (p : PathId) (hp : ∀ i, tmps i ≠ p) :
    (test_commit proc tmps orig_content package repo_url commit_hash fs).2.1 p = fs p := by
  unfold test_commit
  cases hu : update_git_reference orig_content package repo_url commit_hash with
  | none => rfl
  | some m =>
    have h0 : tmps 0 ≠ p := hp 0
    have hw : fsWrite fs (tmps 0) m p = fs p := by
      simp [fsWrite, Ne.symm h0]
    have hrt : (run_test proc tmps (tmps 0) (fsWrite fs (tmps 0) m) 1).fs p =
        fsWrite fs (tmps 0) m p :=
      run_test_frame proc tmps (tmps 0) (fsWrite fs (tmps 0) m) 1 p hp h0
    have he : fsErase (run_test proc tmps (tmps 0) (fsWrite fs (tmps 0) m) 1).fs (tmps 0) p =
        (run_test proc tmps (tmps 0) (fsWrite fs (tmps 0) m) 1).fs p := by
      simp [fsErase, Ne.symm h0]
    exact he.trans (hrt.trans hw)

/-- Closed instance of C8: a probe that exercises one dependency-fix retry
(writing and cleaning up two temporaries) leaves the original script file at
path 0 intact. -/
theorem C8_original_script_never_modified_witness :
    (test_commit procRetryEx tmpsEx exScript "mypkg".toList
        "https://github.com/a/b".toList "abc123".toList fsEx).2.1 0 = fsEx 0 ∧
    fsEx 0 = some exScript :=
  ⟨C8_original_script_never_modified procRetryEx tmpsEx exScript "mypkg".toList
      "https://github.com/a/b".toList "abc123".toList fsEx 0
      (fun i => by simp [tmpsEx]), rfl⟩

/-! ## Structural lemmas: locating and splicing the metadata block -/

/-- Scanning an interior of `#`-lines (none an end marker) followed by an
end marker with at least one line after it finds exactly the end marker. -/
theorem scanFrom_structural (inner : Doc) (e0 : Str) (post : Doc)
    (hinner : ∀ l ∈ inner, l.head? = some '#' ∧ isEndMarker l = false)
    (he0 : isEndMarker e0 = true) (hpost : post ≠ []) :
    ∀ k, scanFrom (inner ++ e0 :: post) k = some (k + inner.length) := by
  induction inner with
  | nil =>
    intro k
    cases post with
    | nil => exact absurd rfl hpost
    | cons q qs => simp [scanFrom, he0]
  | cons l inner' ih =>
    intro k
    have hl := hinner l (by simp)
    cases hi : inner' ++ e0 :: post with
    | nil => simp at hi
    | cons m ms =>
      rw [show (l :: inner') ++ e0 :: post = l :: m :: ms by simp [← hi]]
      simp only [scanFrom, hl.2, hl.1, Bool.false_eq_true, if_false, if_pos]
      rw [← hi, ih (fun x hx => hinner x (by simp [hx])) (k + 1)]
      simp only [List.length_cons]
      congr 1
      omega

/-- `findBlockFrom` passes over lines that are not start markers. -/
theorem findBlockFrom_append (pre : Doc) (hpre : ∀ l ∈ pre, isStartMarker l = false) :
    ∀ (r : Doc) (i : Nat), findBlockFrom (pre ++ r) i = findBlockFrom r (i + pre.length) := by
  induction pre with
  | nil => intro r i; simp
  | cons l pre' ih =>
    intro r i
    have hl := hpre l (by simp)
    rw [List.cons_append]
    show findBlockFrom (l :: (pre' ++ r)) i = _
    rw [findBlockFrom]
    simp only [hl, Bool.false_eq_true, false_and, if_false]
    rw [ih (fun x hx => hpre x (by simp [hx])) r (i + 1)]
    simp only [List.length_cons]
    congr 1
    omega

/-- The first match of the block pattern in a structurally decomposed
document is exactly the decomposition's block. -/
theorem findBlock_structural (pre inner post : Doc) (s0 e0 : Str)
    (hpre : ∀ l ∈ pre, isStartMarker l = false)
    (hs0 : isStartMarker s0 = true)
    (hinner : ∀ l ∈ inner, l.head? = some '#' ∧ isEndMarker l = false)
    (he0 : isEndMarker e0 = true) (hpost : post ≠ []) :
    findBlock (pre ++ s0 :: (inner ++ e0 :: post)) =
      some (pre.length, pre.length + inner.length + 1) := by
  unfold findBlock
  rw [findBlockFrom_append pre hpre _ 0]
  rw [findBlockFrom]
  have hne : inner ++ e0 :: post ≠ [] := by simp
  rw [if_pos ⟨hs0, hne⟩]
  rw [scanFrom_structural inner e0 post hinner he0 hpost (0 + pre.length + 1)]
  have h1 : 0 + pre.length + 1 + inner.length = pre.length + inner.length + 1 := by omega
  rw [h1, Nat.zero_add]

/-- Skipping exactly the length of a prefix resumes the scan after it. -/
theorem replaceSubGo_skip (pat repl : Doc) :
    ∀ (xs post : Doc), replaceSubGo pat repl xs.length (xs ++ post) =
      replaceSubGo pat repl 0 post := by
  intro xs
  induction xs with
  | nil => intro post; rfl
  | cons x xs' ih =>
    intro post
    rw [List.cons_append, List.length_cons]
    show replaceSubGo pat repl (xs'.length + 1) (x :: (xs' ++ post)) = _
    rw [replaceSubGo]
    exact ih post

/-- A document beginning with the pattern gets it replaced, and scanning
resumes after the occurrence. -/
theorem replaceSubGo_match (pat repl post : Doc) (hpat : pat ≠ []) :
    replaceSubGo pat repl 0 (pat ++ post) = repl ++ replaceSubGo pat repl 0 post := by
  cases pat with
  | nil => exact absurd rfl hpat
  | cons p ps =>
    rw [List.cons_append]
    show replaceSubGo (p :: ps) repl 0 (p :: (ps ++ post)) = _
    rw [replaceSubGo]
    have hpref : (p :: ps).isPrefixOf (p :: (ps ++ post)) = true := by
      rw [List.isPrefixOf_iff_prefix]
      exact ⟨post, by simp⟩
    rw [if_pos ⟨by simp, hpref⟩]
    congr 1
    have : (p :: ps).length - 1 = ps.length := by simp
    rw [this]
    exact replaceSubGo_skip (p :: ps) repl ps post

/-- Lines that differ from the pattern's first line are copied unchanged. -/
theorem replaceSubGo_no_head (p0 : Str) (pt repl : Doc) :
    ∀ (pre r : Doc), (∀ l ∈ pre, l ≠ p0) →
      replaceSubGo (p0 :: pt) repl 0 (pre ++ r) =
        pre ++ replaceSubGo (p0 :: pt) repl 0 r := by
  intro pre
  induction pre with
  | nil => intro r _; rfl
  | cons l pre' ih =>
    intro r hpre
    have hl : l ≠ p0 := hpre l (by simp)
    rw [List.cons_append]
    show replaceSubGo (p0 :: pt) repl 0 (l :: (pre' ++ r)) = _
    rw [replaceSubGo]
    have hnp : ¬ ((p0 :: pt) ≠ [] ∧ (p0 :: pt).isPrefixOf (l :: (pre' ++ r)) = true) := by
      rintro ⟨-, hpref⟩
      rw [List.isPrefixOf_iff_prefix] at hpref
      rcases hpref with ⟨t, ht⟩
      rw [List.cons_append] at ht
      exact hl (by injection ht with h1 _; exact h1.symm)
    rw [if_neg hnp]
    rw [ih r (fun x hx => hpre x (by simp [hx]))]
    rfl

/-- A document none of whose lines equals the pattern's first line is left
unchanged. -/
theorem replaceSubGo_no_occurrence (p0 : Str) (pt repl : Doc) (doc : Doc)
    (hdoc : ∀ l ∈ doc, l ≠ p0) :
    replaceSubGo (p0 :: pt) repl 0 doc = doc := by
  have := replaceSubGo_no_head p0 pt repl doc [] hdoc
  simpa [replaceSubGo] using this

/-- Replacing a pattern by itself is the identity. -/
theorem replaceSubGo_self (pat : Doc) (hpat : pat ≠ []) :
    ∀ (n : Nat) (doc : Doc), doc.length ≤ n → replaceSubGo pat pat 0 doc = doc := by
  intro n
  induction n with
  | zero =>
    intro doc h
    cases doc with
    | nil => rfl
    | cons l rest => simp at h
  | succ n ih =>
    intro doc h
    cases doc with
    | nil => rfl
    | cons l rest =>
      by_cases hm : pat ≠ [] ∧ pat.isPrefixOf (l :: rest) = true
      · have hpref := List.isPrefixOf_iff_prefix.mp hm.2
        rcases hpref with ⟨suffix, hs⟩
        cases pat with
        | nil => exact absurd rfl hpat
        | cons p ps =>
          rw [replaceSubGo, if_pos hm]
          have hrest : rest = ps ++ suffix := by
            rw [List.cons_append] at hs
            injection hs with _ h2
            exact h2.symm
          have hlen : (p :: ps).length - 1 = ps.length := by simp
          rw [hrest, hlen, replaceSubGo_skip (p :: ps) (p :: ps) ps suffix]
          rw [ih suffix (by
            have h1 : rest.length ≤ n := by simpa using h
            rw [hrest] at h1
            simp at h1
            omega)]
          have hl : l = p := by
            rw [List.cons_append] at hs
            injection hs with h1 _
            exact h1.symm
          simp [hl, hrest]
      · rw [replaceSubGo, if_neg hm]
        rw [ih rest (by simpa using h)]

/-- Characterisation of `update_git_reference` on a structurally decomposed
document: the first block is replaced by the regenerated one, and later
occurrences of the block text in the body are rewritten by the trailing
`replaceSubGo` (Python `str.replace` replaces every occurrence). -/
theorem update_git_reference_structural
    (pre inner post : Doc) (s0 e0 : Str) (package url ref : Str)
    (meta : TomlTable) (deps : List Str)
    (hpre : ∀ l ∈ pre, isStartMarker l = false)
    (hs0 : isStartMarker s0 = true)
    (hinner : ∀ l ∈ inner, l.head? = some '#' ∧ isEndMarker l = false)
    (he0 : isEndMarker e0 = true)
    (hpost : post ≠ [])
    (hparse : parseMetadataOf (pre ++ s0 :: (inner ++ e0 :: post)) = some meta)
    (hdeps : depsOf meta = some deps)
    (hfound : deps.any (fun d => extract_package_name d = package) = true) :
    update_git_reference (pre ++ s0 :: (inner ++ e0 :: post)) package url ref =
      some (pre ++ (s0 :: (updatedBlockInner meta deps package url ref ++ [e0])) ++
        replaceSubGo (s0 :: (inner ++ [e0]))
          (s0 :: (updatedBlockInner meta deps package url ref ++ [e0])) 0 post) := by
  have hfb := findBlock_structural pre inner post s0 e0 hpre hs0 hinner he0 hpost
  have hgi : (pre ++ s0 :: (inner ++ e0 :: post))[pre.length]? = some s0 := by
    rw [List.getElem?_append_right (le_refl _)]
    simp
  have hgj : (pre ++ s0 :: (inner ++ e0 :: post))[pre.length + inner.length + 1]? = some e0 := by
    rw [List.getElem?_append_right (by omega : pre.length ≤ pre.length + inner.length + 1)]
    have h1 : pre.length + inner.length + 1 - pre.length = inner.length + 1 := by omega
    rw [h1, List.getElem?_cons_succ, List.getElem?_append_right (le_refl _)]
    simp
  have hold : ((pre ++ s0 :: (inner ++ e0 :: post)).drop pre.length).take
      (pre.length + inner.length + 1 - pre.length + 1) = s0 :: (inner ++ [e0]) := by
    rw [List.drop_left]
    have h2 : pre.length + inner.length + 1 - pre.length + 1 = inner.length + 1 + 1 := by omega
    rw [h2, List.take_succ_cons]
    congr 1
    have h3 : inner.length + 1 = inner.length + 1 := rfl
    rw [show inner.length + 1 = inner.length + 1 from rfl, List.take_append 1]
    simp
  have hsplice : ∀ NB : Doc,
      replaceSubGo (s0 :: (inner ++ [e0])) NB 0 (pre ++ s0 :: (inner ++ e0 :: post)) =
        pre ++ NB ++ replaceSubGo (s0 :: (inner ++ [e0])) NB 0 post := by
    intro NB
    have hshape : pre ++ s0 :: (inner ++ e0 :: post) = pre ++ ((s0 :: (inner ++ [e0])) ++ post) := by
      simp
    rw [hshape, replaceSubGo_no_head s0 (inner ++ [e0]) NB pre _
      (fun l hl he => by rw [he] at hl; exact absurd hs0 (by simp [hpre s0 hl]))]
    rw [replaceSubGo_match _ _ _ (by simp)]
    simp
  simp only [update_git_reference, hparse, hdeps, Option.bind_eq_bind, Option.some_bind,
    if_pos hfound, hfb, hgi, hgj, replaceSub, hold]
  rw [hsplice]
  simp

/-- **C6 (amended)** — `update_git_reference` preserves, byte for byte,
every line outside the fenced metadata block (all of `pre` and all of
`post`, when the body contains no start-marker line that could be taken for
another copy of the block); the block's interior, however, is regenerated
wholesale from the decoded TOML — its every line reappears commented — so
original comment lines and formatting inside the block are not preserved
(see the counterexample). -/
theorem C6_update_preserves_outside_block
    (pre inner post : Doc) (s0 e0 : Str) (package url ref : Str)
    (meta : TomlTable) (deps : List Str)
    (hpre : ∀ l ∈ pre, isStartMarker l = false)
    (hs0 : isStartMarker s0 = true)
    (hinner : ∀ l ∈ inner, l.head? = some '#' ∧ isEndMarker l = false)
    (he0 : isEndMarker e0 = true)
    (hpost : post ≠ [])
    (hpostns : ∀ l ∈ post, isStartMarker l = false)
    (hparse : parseMetadataOf (pre ++ s0 :: (inner ++ e0 :: post)) = some meta)
    (hdeps : depsOf meta = some deps)
    (hfound : deps.any (fun d => extract_package_name d = package) = true) :
    ∃ innerNew,
      update_git_reference (pre ++ s0 :: (inner ++ e0 :: post)) package url ref =
        some (pre ++ s0 :: (innerNew ++ e0 :: post)) ∧
      (∀ l ∈ innerNew, l.head? = some '#') := by
  refine ⟨updatedBlockInner meta deps package url ref, ?_, ?_⟩
  · rw [update_git_reference_structural pre inner post s0 e0 package url ref meta deps
      hpre hs0 hinner he0 hpost hparse hdeps hfound]
    rw [replaceSubGo_no_occurrence s0 (inner ++ [e0]) _ post
      (fun l hl he => by rw [he] at hl; exact absurd hs0 (by simp [hpostns s0 hl]))]
    simp
  · intro l hl
    simp only [updatedBlockInner, List.mem_map] at hl
    rcases hl with ⟨dl, -, hdl⟩
    rw [← hdl]
    rfl

/-- Closed instance of the amended C6 theorem on a concrete script: the
body lines around the block survive the update byte-for-byte. -/
theorem C6_update_preserves_outside_block_witness :
    ∃ innerNew,
      update_git_reference exScript "mypkg".toList "https://github.com/a/b".toList
          "abc123".toList =
        some ("# /// script".toList :: (innerNew ++ "# ///".toList :: ["print(1)".toList, []])) ∧
      (∀ l ∈ innerNew, l.head? = some '#') := by
  have h := C6_update_preserves_outside_block []
    ["# requires-python = \">=3.11\"".toList, "# dependencies = [".toList,
     "#     \"mypkg>=1.0\",".toList, "# ]".toList]
    ["print(1)".toList, []]
    "# /// script".toList "# ///".toList
    "mypkg".toList "https://github.com/a/b".toList "abc123".toList
    [("requires-python".toList, TomlVal.str ">=3.11".toList),
     ("dependencies".toList, TomlVal.arr ["mypkg>=1.0".toList])]
    ["mypkg>=1.0".toList]
    (by decide) (by decide) (by decide) (by decide) (by decide) (by decide)
    (by decide) (by decide) (by decide)
  simpa [exScript] using h

/-! ## Character-level lemmas for the string primitives -/

theorem takeWhile_append_of_all {p : Char → Bool} {l r : Str} (h : ∀ c ∈ l, p c = true) :
    (l ++ r).takeWhile p = l ++ r.takeWhile p := by
  induction l with
  | nil => simp
  | cons c t ih =>
    simp [List.takeWhile_cons, h c (by simp), ih (fun x hx => h x (by simp [hx]))]

theorem dropWhile_append_of_all {p : Char → Bool} {l r : Str} (h : ∀ c ∈ l, p c = true) :
    (l ++ r).dropWhile p = r.dropWhile p := by
  induction l with
  | nil => simp
  | cons c t ih =>
    simp [List.dropWhile_cons, h c (by simp), ih (fun x hx => h x (by simp [hx]))]

theorem head?_dropWhile_false {p : Char → Bool} {l : Str} {c : Char}
    (h : (l.dropWhile p).head? = some c) : p c = false := by
  induction l with
  | nil => simp at h
  | cons x t ih =>
    rw [List.dropWhile_cons] at h
    by_cases hx : p x
    · exact ih (by simpa [hx] using h)
    · rw [if_neg hx, List.head?_cons, Option.some_inj] at h
      rw [← h]
      exact Bool.eq_false_iff.mpr hx

theorem dropWhile_eq_self_of_head {p : Char → Bool} {s : Str}
    (h : ∀ c, s.head? = some c → p c = false) : s.dropWhile p = s := by
  cases s with
  | nil => rfl
  | cons x t =>
    rw [List.dropWhile_cons]
    simp [h x rfl]

theorem pyStrip_eq_self {s : Str}
    (h1 : ∀ c, s.head? = some c → isPySpace c = false)
    (h2 : ∀ c, s.getLast? = some c → isPySpace c = false) : pyStrip s = s := by
  unfold pyStrip
  rw [dropWhile_eq_self_of_head h1]
  rw [dropWhile_eq_self_of_head (by
    intro c hc
    apply h2
    rwa [← List.head?_reverse])]
  exact List.reverse_reverse s

theorem pyStripRight_eq_self {s : Str}
    (h2 : ∀ c, s.getLast? = some c → isPySpace c = false) : pyStripRight s = s := by
  unfold pyStripRight
  rw [dropWhile_eq_self_of_head (by
    intro c hc
    apply h2
    rwa [← List.head?_reverse])]
  exact List.reverse_reverse s

theorem lstripSpaces_eq_self {s : Str}
    (h : ∀ c, s.head? = some c → (c == ' ') = false) : lstripSpaces s = s :=
  dropWhile_eq_self_of_head h

/-- The head of a stripped string is not whitespace. -/
theorem head?_pyStrip {s : Str} {c : Char} (h : (pyStrip s).head? = some c) :
    isPySpace c = false := by
  unfold pyStrip at h
  set d₁ := s.dropWhile isPySpace with hd₁
  set d₂ := d₁.reverse.dropWhile isPySpace with hd₂
  have hsuff : d₂ <:+ d₁.reverse := by rw [hd₂]; exact List.dropWhile_suffix _
  rcases hsuff with ⟨t, ht⟩
  have hne : d₂ ≠ [] := by
    intro he
    rw [he] at h
    simp at h
  have hlast : d₂.reverse.head? = d₁.reverse.getLast? := by
    rw [List.head?_reverse, ← ht]
    exact (List.getLast?_append_of_ne_nil t hne).symm
  rw [hlast] at h
  rw [List.getLast?_reverse] at h
  exact head?_dropWhile_false h

/-- The last character of a stripped string is not whitespace. -/
theorem getLast?_pyStrip {s : Str} {c : Char} (h : (pyStrip s).getLast? = some c) :
    isPySpace c = false := by
  unfold pyStrip at h
  rw [List.getLast?_reverse] at h
  exact head?_dropWhile_false h

theorem pyStrip_idem (s : Str) : pyStrip (pyStrip s) = pyStrip s :=
  pyStrip_eq_self (fun _ h => head?_pyStrip h) (fun _ h => getLast?_pyStrip h)

/-- `pyStrip` yields an infix. -/
theorem pyStrip_within (s : Str) : pyStrip s <:+: s := by
  unfold pyStrip
  have h1 : s.dropWhile isPySpace <:+ s := List.dropWhile_suffix _
  have h2 : (s.dropWhile isPySpace).reverse.dropWhile isPySpace <:+
      (s.dropWhile isPySpace).reverse := List.dropWhile_suffix _
  have h3 : ((s.dropWhile isPySpace).reverse.dropWhile isPySpace).reverse <+:
      s.dropWhile isPySpace := by
    rcases h2 with ⟨t, ht⟩
    refine ⟨t.reverse, ?_⟩
    rw [← List.reverse_append, ht, List.reverse_reverse]
  exact h3.isInfix.trans h1.isInfix

/-! ## Occurrence lemmas for `occursSub` and `takeUntilSub` -/

theorem occursSub_iff {pat s : Str} :
    occursSub pat s = true ↔ ∃ t₁ t₂, s = t₁ ++ (pat ++ t₂) := by
  induction s with
  | nil =>
    constructor
    · intro h
      cases pat with
      | nil => exact ⟨[], [], rfl⟩
      | cons p ps => simp [occursSub, List.isPrefixOf] at h
    · rintro ⟨t₁, t₂, ht⟩
      have : pat = [] := by
        cases t₁ <;> cases pat <;> simp_all
      subst this
      rfl
  | cons c t ih =>
    rw [occursSub, Bool.or_eq_true]
    constructor
    · rintro (h | h)
      · rcases List.isPrefixOf_iff_prefix.mp h with ⟨t₂, ht⟩
        exact ⟨[], t₂, by simp [ht]⟩
      · rcases ih.mp h with ⟨t₁, t₂, ht⟩
        exact ⟨c :: t₁, t₂, by simp [ht]⟩
    · rintro ⟨t₁, t₂, ht⟩
      cases t₁ with
      | nil =>
        left
        rw [List.isPrefixOf_iff_prefix]
        exact ⟨t₂, by simpa using ht.symm⟩
      | cons x t₁' =>
        right
        apply ih.mpr
        refine ⟨t₁', t₂, ?_⟩
        have h2 := ht
        simp only [List.cons_append, List.cons.injEq] at h2
        exact h2.2

theorem occursSub_singleton {c : Char} {s : Str} :
    occursSub [c] s = true ↔ c ∈ s := by
  rw [occursSub_iff]
  constructor
  · rintro ⟨t₁, t₂, ht⟩
    rw [ht]
    simp
  · intro h
    rcases List.append_of_mem h with ⟨t₁, t₂, ht⟩
    exact ⟨t₁, t₂, by simpa using ht⟩

theorem occursSub_of_within {pat s m : Str} (h : s <:+: m)
    (hocc : occursSub pat s = true) : occursSub pat m = true := by
  rcases occursSub_iff.mp hocc with ⟨t₁, t₂, ht⟩
  rcases h with ⟨a, b, hab⟩
  exact occursSub_iff.mpr ⟨a ++ t₁, t₂ ++ b, by rw [← hab, ht]; simp⟩

theorem not_occursSub_of_within {pat s m : Str} (h : s <:+: m)
    (hocc : occursSub pat m = false) : occursSub pat s = false := by
  by_contra hc
  rw [occursSub_of_within h (by simpa using hc)] at hocc
  exact Bool.true_eq_false.mp hocc

theorem takeUntilSub_prefix (pat : Str) : ∀ s : Str, takeUntilSub pat s <+: s := by
  intro s
  induction s with
  | nil => simp [takeUntilSub]
  | cons c t ih =>
    rw [takeUntilSub]
    by_cases h : pat.isPrefixOf (c :: t) = true
    · simp [h]
    · simp only [h, if_false]
      exact List.cons_prefix_cons.mpr ⟨rfl, ih⟩

theorem occursSub_nil {pat : Str} (hpat : pat ≠ []) : occursSub pat [] = false := by
  cases pat with
  | nil => exact absurd rfl hpat
  | cons p ps => rfl

/-- The part before the first occurrence of `pat` contains no occurrence. -/
theorem occursSub_takeUntilSub {pat : Str} (hpat : pat ≠ []) (s : Str) :
    occursSub pat (takeUntilSub pat s) = false := by
  induction s with
  | nil => exact occursSub_nil hpat
  | cons c t ih =>
    rw [takeUntilSub]
    by_cases h : pat.isPrefixOf (c :: t) = true
    · simp only [h, if_true]
      exact occursSub_nil hpat
    · simp only [h, Bool.false_eq_true, if_false]
      have hrw : occursSub pat (c :: takeUntilSub pat t)
          = (pat.isPrefixOf (c :: takeUntilSub pat t) || occursSub pat (takeUntilSub pat t)) :=
        rfl
      rw [hrw, ih, Bool.or_false]
      by_contra hcon
      apply h
      rw [List.isPrefixOf_iff_prefix]
      have h1 : pat <+: c :: takeUntilSub pat t :=
        List.isPrefixOf_iff_prefix.mp (by simpa using hcon)
      exact h1.trans (List.cons_prefix_cons.mpr ⟨rfl, takeUntilSub_prefix pat t⟩)

/-- Splitting at a single character not occurring in the prefix part. -/
theorem takeUntilSub_append_first {c : Char} {b : Str} :
    ∀ a : Str, c ∉ a → takeUntilSub [c] (a ++ c :: b) = a := by
  intro a
  induction a with
  | nil =>
    intro _
    simp [takeUntilSub, List.isPrefixOf]
  | cons x a' ih =>
    intro h
    rw [List.cons_append, takeUntilSub]
    have hcx : ¬ c = x := fun he => h (he ▸ List.mem_cons_self x a')
    have hx : ¬ ([c].isPrefixOf (x :: (a' ++ c :: b)) = true) := by
      simp [List.isPrefixOf, hcx]
    rw [if_neg hx, ih (fun hm => h (List.mem_cons_of_mem x hm))]

/-- `takeUntilSub` distributes over an append when no occurrence of the
pattern starts inside the first part. -/
theorem takeUntilSub_append {pat b : Str} :
    ∀ a : Str,
    (∀ a₁ a₂, a = a₁ ++ a₂ → a₂ ≠ [] → pat.isPrefixOf (a₂ ++ b) = false) →
    takeUntilSub pat (a ++ b) = a ++ takeUntilSub pat b := by
  intro a
  induction a with
  | nil => intro _; simp
  | cons x a' ih =>
    intro h
    rw [List.cons_append, takeUntilSub]
    have hx : pat.isPrefixOf (x :: (a' ++ b)) = false := by
      have := h [] (x :: a') rfl (by simp)
      simpa using this
    simp only [hx, Bool.false_eq_true, if_false]
    rw [ih (fun a₁ a₂ he hne => h (x :: a₁) a₂ (by rw [he, List.cons_append]) hne)]
    rfl

/-! ## The separator fold of `extract_package_name` -/

theorem foldl_step_front (seps : List Str) : ∀ n : Str,
    List.foldl (fun n sep => if occursSub sep n then takeUntilSub sep n else n) n seps <+: n := by
  induction seps with
  | nil => intro n; exact List.prefix_refl n
  | cons s rest ih =>
    intro n
    rw [List.foldl_cons]
    refine (ih _).trans ?_
    by_cases h : occursSub s n = true
    · simp only [h, if_true]
      exact takeUntilSub_prefix s n
    · simp only [h, if_false]
      exact List.prefix_refl n

theorem foldl_step_sep_free (seps : List Str) : ∀ n : Str, ∀ sep ∈ seps, sep ≠ [] →
    occursSub sep
      (List.foldl (fun n sep => if occursSub sep n then takeUntilSub sep n else n) n seps)
      = false := by
  induction seps with
  | nil => intro n sep hmem; exact absurd hmem (List.not_mem_nil sep)
  | cons s rest ih =>
    intro n sep hmem hne
    rw [List.foldl_cons]
    rcases List.mem_cons.mp hmem with he | hmem'
    · subst he
      have h1 : occursSub sep (if occursSub sep n = true then takeUntilSub sep n else n)
          = false := by
        by_cases h : occursSub sep n = true
        · simp only [h, if_true]
          exact occursSub_takeUntilSub hne n
        · simp only [h, if_false]
          exact Bool.eq_false_iff.mpr h
      exact not_occursSub_of_within (foldl_step_front rest _).isInfix h1
    · exact ih _ sep hmem' hne

theorem foldl_step_id (seps : List Str) : ∀ n : Str,
    (∀ sep ∈ seps, occursSub sep n = false) →
    List.foldl (fun n sep => if occursSub sep n then takeUntilSub sep n else n) n seps = n := by
  induction seps with
  | nil => intro n _; rfl
  | cons s rest ih =>
    intro n h
    rw [List.foldl_cons]
    have hs : occursSub s n = false := h s (List.mem_cons_self s rest)
    simp only [hs, Bool.false_eq_true, if_false]
    exact ih n (fun sep hm => h sep (List.mem_cons_of_mem s hm))

/-! ## Properties of `extract_package_name` outputs -/

theorem sep_of_packageSeps_ne_nil {sep : Str} (h : sep ∈ packageSeps) : sep ≠ [] := by
  simp only [packageSeps, List.mem_cons, List.not_mem_nil, or_false] at h
  rcases h with h|h|h|h|h|h|h|h|h <;> subst h <;> decide

theorem extract_sep_free (d : Str) :
    ∀ sep ∈ packageSeps, occursSub sep (extract_package_name d) = false := by
  intro sep hmem
  exact not_occursSub_of_within (pyStrip_within _)
    (foldl_step_sep_free packageSeps _ sep hmem (sep_of_packageSeps_ne_nil hmem))

theorem extract_subset (d : Str) : ∀ x ∈ extract_package_name d, x ∈ d := by
  intro x hx
  unfold extract_package_name at hx
  have h1 := (pyStrip_within _).subset hx
  have h2 := (foldl_step_front packageSeps _).subset h1
  by_cases hc : d.contains '@' = true
  · rw [if_pos hc] at h2
    exact (List.takeWhile_prefix _).subset h2
  · rw [if_neg hc] at h2
    exact h2

theorem extract_no_at (d : Str) : '@' ∉ extract_package_name d := by
  intro hx
  unfold extract_package_name at hx
  have h1 := (pyStrip_within _).subset hx
  have h2 := (foldl_step_front packageSeps _).subset h1
  by_cases hc : d.contains '@' = true
  · rw [if_pos hc] at h2
    have := List.mem_takeWhile_imp h2
    simp at this
  · rw [if_neg hc] at h2
    exact hc (by simpa using h2)

theorem extract_pyStrip (d : Str) : pyStrip (extract_package_name d) = extract_package_name d := by
  unfold extract_package_name
  exact pyStrip_idem _

/-! ## Properties of `extrasOf` -/

/-- Every extras group returned by `extrasOf` is a nonempty bracketed group
whose interior has no closing bracket. -/
theorem extrasOf_spec (d : Str) :
    extrasOf d = [] ∨ ∃ ie, ie ≠ [] ∧ ']' ∉ ie ∧ extrasOf d = '[' :: (ie ++ [']']) := by
  induction d with
  | nil => exact Or.inl rfl
  | cons c rest ih =>
    by_cases hc : c = '['
    · subst hc
      by_cases hg : rest.takeWhile (· ≠ ']') ≠ [] ∧
          rest.drop (rest.takeWhile (· ≠ ']')).length ≠ []
      · right
        refine ⟨rest.takeWhile (· ≠ ']'), hg.1, ?_, ?_⟩
        · intro hmem
          have := List.mem_takeWhile_imp hmem
          simp at this
        · rw [extrasOf]
          simp only [if_pos rfl, if_pos hg, if_true, List.cons_append]
      · rw [extrasOf]
        simp only [if_pos rfl, if_neg hg]
        exact ih
    · rw [extrasOf, if_neg hc]
      exact ih

theorem extrasOf_no_bracket : ∀ {s : Str}, '[' ∉ s → extrasOf s = [] := by
  intro s
  induction s with
  | nil => intro _; rfl
  | cons c rest ih =>
    intro h
    have hc : ¬ c = '[' := fun he => h (he ▸ List.mem_cons_self c rest)
    rw [extrasOf, if_neg hc]
    exact ih (fun hm => h (List.mem_cons_of_mem c hm))

theorem extrasOf_append_no_bracket (b : Str) :
    ∀ (a : Str), '[' ∉ a → extrasOf (a ++ b) = extrasOf b := by
  intro a
  induction a with
  | nil => intro _; rfl
  | cons c a' ih =>
    intro h
    have hc : ¬ c = '[' := fun he => h (he ▸ List.mem_cons_self c a')
    rw [List.cons_append, extrasOf, if_neg hc]
    exact ih (fun hm => h (List.mem_cons_of_mem c hm))

theorem extrasOf_subset : ∀ (d : Str), ∀ x ∈ extrasOf d, x ∈ d := by
  intro d
  induction d with
  | nil => intro x hx; exact absurd hx (List.not_mem_nil x)
  | cons c rest ih =>
    intro x hx
    by_cases hc : c = '['
    · subst hc
      by_cases hg : rest.takeWhile (· ≠ ']') ≠ [] ∧
          rest.drop (rest.takeWhile (· ≠ ']')).length ≠ []
      · rw [extrasOf] at hx
        simp only [if_pos rfl, if_pos hg, if_true, List.cons_append] at hx
        rcases List.mem_cons.mp hx with he | hx'
        · exact he ▸ List.mem_cons_self '[' rest
        · rcases List.mem_append.mp hx' with hin | hlast
          · exact List.mem_cons_of_mem _ ((List.takeWhile_prefix _).subset hin)
          · have hy : x = ']' := by simpa using hlast
            subst hy
            have hsplit : rest.takeWhile (· ≠ ']') ++ rest.dropWhile (· ≠ ']') = rest :=
              List.takeWhile_append_dropWhile _ _
            have hdrop : rest.drop (rest.takeWhile (· ≠ ']')).length
                = rest.dropWhile (· ≠ ']') := by
              nth_rewrite 2 [← hsplit]
              exact List.drop_left _ _
            rcases hD : rest.dropWhile (fun c => decide (c ≠ ']')) with _ | ⟨y, ys⟩
            · rw [hdrop, hD] at hg
              exact absurd rfl hg.2
            · have hy' : (fun c => decide (c ≠ ']')) y = false :=
                head?_dropWhile_false (by rw [hD]; rfl)
              have hyy : y = ']' := by simpa using hy'
              have hmem : y ∈ rest := (List.dropWhile_suffix _).subset (by rw [hD]; simp)
              exact List.mem_cons_of_mem _ (hyy ▸ hmem)
      · rw [extrasOf] at hx
        simp only [if_pos rfl, if_neg hg] at hx
        exact List.mem_cons_of_mem _ (ih x hx)
    · rw [extrasOf, if_neg hc] at hx
      exact List.mem_cons_of_mem _ (ih x hx)

/-- Re-pinning does not change the extras group: the pinned specifier built
from a dependency keeps exactly that dependency's extras, provided neither the
package name, the URL nor the ref contains an opening bracket. -/
theorem extrasOf_pinned {p u r d : Str} (hp : '[' ∉ p) (hu : '[' ∉ u) (hr : '[' ∉ r) :
    extrasOf (pinnedSpec p u r d) = extrasOf d := by
  unfold pinnedSpec
  rcases extrasOf_spec d with h0 | ⟨ie, hne, hnb, hE⟩
  · rw [h0]
    apply extrasOf_no_bracket
    intro hmem
    have h2 : '[' ∈ p ∨ '[' ∈ u ∨ '[' ∈ r := by simpa using hmem
    rcases h2 with h | h | h
    · exact hp h
    · exact hu h
    · exact hr h
  · rw [hE]
    simp only [List.append_assoc]
    rw [extrasOf_append_no_bracket _ _ hp]
    have hassoc : ('[' :: (ie ++ [']'])) ++ ('@' :: u ++ '@' :: r)
        = '[' :: (ie ++ (']' :: ('@' :: u ++ '@' :: r))) := by simp
    rw [hassoc, extrasOf]
    rw [if_pos rfl]
    have htw : (ie ++ (']' :: ('@' :: u ++ '@' :: r))).takeWhile (· ≠ ']') = ie := by
      rw [takeWhile_append_of_all (fun c hc => by
        simp only [decide_eq_true_eq]
        exact fun he => hnb (he ▸ hc))]
      simp [List.takeWhile_cons]
    have hdr : (ie ++ (']' :: ('@' :: u ++ '@' :: r))).drop
        ((ie ++ (']' :: ('@' :: u ++ '@' :: r))).takeWhile (· ≠ ']')).length
        = ']' :: ('@' :: u ++ '@' :: r) := by
      rw [htw]
      exact List.drop_left _ _
    rw [if_pos ⟨by rw [htw]; exact hne, by rw [hdr]; simp⟩, htw]
    simp

/-! ## `extract_package_name` on a pinned specifier -/

theorem takeUntilSub_two_append {c₁ c₂ : Char} (hc₂ : ¬ c₂ = '[') :
    ∀ (p z : Str), occursSub [c₁, c₂] p = false →
    takeUntilSub [c₁, c₂] (p ++ '[' :: z) = p ++ takeUntilSub [c₁, c₂] ('[' :: z) := by
  intro p
  induction p with
  | nil => intro z _; rfl
  | cons a p' ih =>
    intro z hocc
    rw [occursSub] at hocc
    rw [Bool.or_eq_false_iff] at hocc
    rw [List.cons_append, takeUntilSub]
    have hg : List.isPrefixOf [c₁, c₂] (a :: (p' ++ '[' :: z)) = false := by
      by_contra hcon
      have hcon' : List.isPrefixOf [c₁, c₂] (a :: (p' ++ '[' :: z)) = true := by
        simpa using hcon
      simp only [List.isPrefixOf, Bool.and_eq_true, beq_iff_eq] at hcon'
      obtain ⟨he₁, hrest⟩ := hcon'
      cases p' with
      | nil =>
        simp only [List.nil_append, List.isPrefixOf, Bool.and_eq_true, beq_iff_eq] at hrest
        exact hc₂ hrest.1
      | cons b p'' =>
        simp only [List.cons_append, List.isPrefixOf, Bool.and_eq_true, beq_iff_eq] at hrest
        have hT : List.isPrefixOf [c₁, c₂] (a :: b :: p'') = true := by
          simp [List.isPrefixOf, he₁, hrest.1]
        rw [hocc.1] at hT
        exact Bool.false_ne_true hT
    rw [if_neg (by simp [hg])]
    rw [ih z hocc.2]
    rfl

theorem takeUntilSub_one_append {c₁ : Char} :
    ∀ (p z : Str), c₁ ∉ p →
    takeUntilSub [c₁] (p ++ '[' :: z) = p ++ takeUntilSub [c₁] ('[' :: z) := by
  intro p
  induction p with
  | nil => intro z _; rfl
  | cons a p' ih =>
    intro z hmem
    rw [List.cons_append, takeUntilSub]
    have ha : ¬ c₁ = a := fun he => hmem (he ▸ List.mem_cons_self a p')
    have hg : List.isPrefixOf [c₁] (a :: (p' ++ '[' :: z)) = false := by
      simp [List.isPrefixOf, ha]
    rw [if_neg (by simp [hg])]
    rw [ih z (fun hm => hmem (List.mem_cons_of_mem a hm))]
    rfl

theorem step_two {c₁ c₂ : Char} (p z : Str) (hc₁ : ¬ c₁ = '[') (hc₂ : ¬ c₂ = '[')
    (hocc : occursSub [c₁, c₂] p = false) :
    ∃ z', (if occursSub [c₁, c₂] (p ++ '[' :: z) then takeUntilSub [c₁, c₂] (p ++ '[' :: z)
           else p ++ '[' :: z) = p ++ '[' :: z' := by
  have hred : takeUntilSub [c₁, c₂] ('[' :: z) = '[' :: takeUntilSub [c₁, c₂] z := by
    rw [takeUntilSub]
    rw [if_neg (by simp [List.isPrefixOf, hc₁])]
  by_cases hg : occursSub [c₁, c₂] (p ++ '[' :: z) = true
  · refine ⟨takeUntilSub [c₁, c₂] z, ?_⟩
    rw [if_pos hg, takeUntilSub_two_append hc₂ p z hocc, hred]
  · exact ⟨z, by rw [if_neg hg]⟩

theorem step_one {c₁ : Char} (p z : Str) (hc₁ : ¬ c₁ = '[') (hocc : c₁ ∉ p) :
    ∃ z', (if occursSub [c₁] (p ++ '[' :: z) then takeUntilSub [c₁] (p ++ '[' :: z)
           else p ++ '[' :: z) = p ++ '[' :: z' := by
  have hred : takeUntilSub [c₁] ('[' :: z) = '[' :: takeUntilSub [c₁] z := by
    rw [takeUntilSub]
    rw [if_neg (by simp [List.isPrefixOf, hc₁])]
  by_cases hg : occursSub [c₁] (p ++ '[' :: z) = true
  · refine ⟨takeUntilSub [c₁] z, ?_⟩
    rw [if_pos hg, takeUntilSub_one_append p z hocc, hred]
  · exact ⟨z, by rw [if_neg hg]⟩

/-- `extract_package_name` recovers exactly `p` from any string of the form
`p ++ '[' :: w` when `p` is itself a separator-free stripped package name:
the version-separator splits keep the `p ++ '[' :: _` shape, the `[` split
then cuts exactly at the bracket. -/
theorem extract_bracket (p w : Str)
    (hat : '@' ∉ p)
    (hsep : ∀ sep ∈ packageSeps, occursSub sep p = false)
    (hstrip : pyStrip p = p) :
    extract_package_name (p ++ '[' :: w) = p := by
  have hbr : '[' ∉ p := by
    intro hm
    have h : occursSub ['\x5b'] p = false := hsep "[".toList (by decide)
    rw [occursSub_singleton.mpr hm] at h
    exact Bool.true_eq_false.mp h
  have hgoal : extract_package_name (p ++ '[' :: w)
      = pyStrip (List.foldl (fun n sep => if occursSub sep n then takeUntilSub sep n else n)
          (if (p ++ '[' :: w).contains '@' then (p ++ '[' :: w).takeWhile (· ≠ '@')
           else p ++ '[' :: w) packageSeps) := rfl
  rw [hgoal]
  obtain ⟨z₀, hz₀⟩ : ∃ z₀,
      (if (p ++ '[' :: w).contains '@' then (p ++ '[' :: w).takeWhile (· ≠ '@')
       else p ++ '[' :: w) = p ++ '[' :: z₀ := by
    by_cases hcc : (p ++ '[' :: w).contains '@' = true
    · refine ⟨w.takeWhile (· ≠ '@'), ?_⟩
      rw [if_pos hcc]
      rw [takeWhile_append_of_all (fun c hc => by
        simp only [decide_eq_true_eq]
        exact fun he => hat (he ▸ hc))]
      simp [List.takeWhile_cons]
    · exact ⟨w, by rw [if_neg hcc]⟩
  rw [hz₀]
  simp only [packageSeps, List.foldl_cons, List.foldl_nil]
  simp only [show (">=".toList : Str) = ['>', '='] from rfl,
    show ("<=".toList : Str) = ['<', '='] from rfl,
    show ("==".toList : Str) = ['=', '='] from rfl,
    show ("!=".toList : Str) = ['!', '='] from rfl,
    show (">".toList : Str) = ['>'] from rfl,
    show ("<".toList : Str) = ['<'] from rfl,
    show ("~=".toList : Str) = ['~', '='] from rfl,
    show ("[".toList : Str) = ['['] from rfl,
    show (";".toList : Str) = [';'] from rfl]
  obtain ⟨z₁, h₁⟩ := step_two p z₀ (by decide) (by decide) (hsep ">=".toList (by decide))
  rw [h₁]
  obtain ⟨z₂, h₂⟩ := step_two p z₁ (by decide) (by decide) (hsep "<=".toList (by decide))
  rw [h₂]
  obtain ⟨z₃, h₃⟩ := step_two p z₂ (by decide) (by decide) (hsep "==".toList (by decide))
  rw [h₃]
  obtain ⟨z₄, h₄⟩ := step_two p z₃ (by decide) (by decide) (hsep "!=".toList (by decide))
  rw [h₄]
  have hgt : '>' ∉ p := by
    intro hm
    have h : occursSub ['>'] p = false := hsep ">".toList (by decide)
    rw [occursSub_singleton.mpr hm] at h
    exact Bool.true_eq_false.mp h
  obtain ⟨z₅, h₅⟩ := step_one p z₄ (by decide) hgt
  rw [h₅]
  have hlt : '<' ∉ p := by
    intro hm
    have h : occursSub ['<'] p = false := hsep "<".toList (by decide)
    rw [occursSub_singleton.mpr hm] at h
    exact Bool.true_eq_false.mp h
  obtain ⟨z₆, h₆⟩ := step_one p z₅ (by decide) hlt
  rw [h₆]
  obtain ⟨z₇, h₇⟩ := step_two p z₆ (by decide) (by decide) (hsep "~=".toList (by decide))
  rw [h₇]
  have h₈ : (if occursSub ['['] (p ++ '[' :: z₇) then takeUntilSub ['['] (p ++ '[' :: z₇)
      else p ++ '[' :: z₇) = p := by
    rw [if_pos (occursSub_singleton.mpr (by simp))]
    exact takeUntilSub_append_first p hbr
  rw [h₈]
  have hsc : occursSub [';'] p = false := hsep ";".toList (by decide)
  have h₉ : (if occursSub [';'] p then takeUntilSub [';'] p else p) = p := by
    rw [if_neg (by simp [hsc])]
  rw [h₉]
  exact hstrip

/-- `extract_package_name` recovers `p` from the pinned specifier
`p ++ extras ++ '@' :: url ++ '@' :: ref` built by `update_git_reference`. -/
theorem extract_pinned {p u r : Str} (d : Str)
    (hat : '@' ∉ p)
    (hsep : ∀ sep ∈ packageSeps, occursSub sep p = false)
    (hstrip : pyStrip p = p) :
    extract_package_name (pinnedSpec p u r d) = p := by
  unfold pinnedSpec
  rcases extrasOf_spec d with h0 | ⟨ie, hne, hnb, hE⟩
  · rw [h0]
    have hgoal : extract_package_name (p ++ [] ++ '@' :: u ++ '@' :: r)
        = pyStrip (List.foldl (fun n sep => if occursSub sep n then takeUntilSub sep n else n)
            (if (p ++ [] ++ '@' :: u ++ '@' :: r).contains '@'
             then (p ++ [] ++ '@' :: u ++ '@' :: r).takeWhile (· ≠ '@')
             else p ++ [] ++ '@' :: u ++ '@' :: r) packageSeps) := rfl
    rw [hgoal]
    have hcc : (p ++ [] ++ '@' :: u ++ '@' :: r).contains '@' = true := by simp
    rw [if_pos hcc]
    have htw : (p ++ [] ++ '@' :: u ++ '@' :: r).takeWhile (· ≠ '@') = p := by
      rw [List.append_nil, List.append_assoc]
      rw [takeWhile_append_of_all (fun c hc => by
        simp only [decide_eq_true_eq]
        exact fun he => hat (he ▸ hc))]
      simp [List.takeWhile_cons]
    rw [htw, foldl_step_id packageSeps p hsep]
    exact hstrip
  · rw [hE]
    have hshape : p ++ ('[' :: (ie ++ [']'])) ++ '@' :: u ++ '@' :: r
        = p ++ '[' :: (ie ++ [']'] ++ '@' :: u ++ '@' :: r) := by simp
    rw [hshape]
    exact extract_bracket p _ hat hsep hstrip

/-! ## Round-trip of the TOML dump through the TOML reader -/

theorem bare_not_space {c : Char} (h : isBareKeyChar c = true) : isPySpace c = false := by
  by_contra hc
  have hc' : isPySpace c = true := by simpa using hc
  unfold isPySpace at hc'
  simp only [Bool.or_eq_true, beq_iff_eq] at hc'
  rcases hc' with ((((h1 | h1) | h1) | h1) | h1) | h1 <;> subst h1 <;> exact absurd h (by decide)

theorem bare_ne {c x : Char} (h : isBareKeyChar c = true) (hx : isBareKeyChar x = false) :
    ¬ c = x := fun he => absurd (he ▸ h) (by simp [hx])

/-- Whitespace padding around a whitespace-free-ended core strips to the core. -/
theorem pyStrip_pad {w₁ k w₂ : Str}
    (hw₁ : ∀ c ∈ w₁, isPySpace c = true) (hw₂ : ∀ c ∈ w₂, isPySpace c = true)
    (hh : ∀ c, k.head? = some c → isPySpace c = false)
    (hl : ∀ c, k.getLast? = some c → isPySpace c = false) :
    pyStrip (w₁ ++ (k ++ w₂)) = k := by
  unfold pyStrip
  rw [dropWhile_append_of_all hw₁]
  cases k with
  | nil =>
    rw [List.nil_append, List.dropWhile_eq_nil_iff.mpr hw₂]
    rfl
  | cons c kt =>
    have hinner : List.dropWhile isPySpace ((c :: kt) ++ w₂) = (c :: kt) ++ w₂ :=
      dropWhile_eq_self_of_head (by
        intro c' hc'
        rw [List.cons_append, List.head?_cons, Option.some_inj] at hc'
        exact hh c' (by rw [← hc']; rfl))
    rw [hinner, List.reverse_append]
    rw [dropWhile_append_of_all (fun c' hc' => hw₂ c' (List.mem_reverse.mp hc'))]
    rw [dropWhile_eq_self_of_head (by
      intro c' hc'
      rw [List.head?_reverse] at hc'
      exact hl c' hc')]
    exact List.reverse_reverse _

/-- `str.strip()` of the interior keeps every line when the last line has no
trailing whitespace. -/
theorem stripSplitInterior_eq_self {inner : Doc} (hne : inner ≠ [])
    (hlast : ∀ l, inner.getLast? = some l → pyStripRight l = l) :
    stripSplitInterior inner = inner := by
  unfold stripSplitInterior
  cases hrev : inner.reverse with
  | nil => exact absurd (List.reverse_eq_nil_iff.mp hrev) hne
  | cons last revInit =>
    have hdec : inner = revInit.reverse ++ [last] := by
      have h := congrArg List.reverse hrev
      simpa using h
    show revInit.reverse ++ [pyStripRight last] = inner
    rw [hlast last (by rw [hdec]; exact List.getLast?_concat _)]
    exact hdec.symm

theorem mapMOpt_map {α β γ : Type} (f : α → Option β) (g : γ → α) :
    ∀ l : List γ, mapMOpt f (l.map g) = mapMOpt (fun x => f (g x)) l := by
  intro l
  induction l with
  | nil => rfl
  | cons x t ih => rw [List.map_cons, mapMOpt, mapMOpt, ih]

theorem mapMOpt_congr_some {α β : Type} {f : α → Option β} {g : α → β} :
    ∀ l : List α, (∀ x ∈ l, f x = some (g x)) → mapMOpt f l = some (l.map g) := by
  intro l
  induction l with
  | nil => intro _; rfl
  | cons x t ih =>
    intro h
    rw [mapMOpt, h x (List.mem_cons_self x t), ih (fun y hy => h y (List.mem_cons_of_mem x hy))]
    rfl

/-- A commented line whose payload does not start with `/` is never the end
marker. -/
theorem isEndMarker_comment_false {l : Str} (h : ∀ c, l.head? = some c → ¬ c = '/') :
    isEndMarker ("# ".toList ++ l) = false := by
  unfold isEndMarker
  cases l with
  | nil => decide
  | cons c t =>
    have hc := h c rfl
    rw [show ("# ///".toList : Str) = ['#', ' ', '/', '/', '/'] from rfl,
      show ("# ".toList : Str) = ['#', ' '] from rfl]
    simp [List.isPrefixOf, hc]
    intro he
    exact absurd he.symm hc

/-- One step of the TOML reader on a dumped `key = value` line: the key and
the value text are recovered exactly, leaving the value dispatch. -/
theorem parseTomlGo_keyline (fuel : Nat) (k V : Str) (rest : Doc) (acc : TomlTable)
    (hk : k ≠ []) (hbare : k.all isBareKeyChar = true)
    (hfresh : acc.all (fun p => p.1 ≠ k) = true)
    (hVne : V ≠ [])
    (hVh : ∀ c, V.head? = some c → isPySpace c = false)
    (hVl : ∀ c, V.getLast? = some c → isPySpace c = false) :
    parseTomlGo (fuel + 1) ((k ++ ([' ', '=', ' '] ++ V)) :: rest) acc
      = (if V.head? = some '[' then
           (if pyStrip V.tail = [] then
              match parseArrayBlock rest with
              | some (xs, rem) => parseTomlGo fuel rem (acc ++ [(k, TomlVal.arr xs)])
              | none => none
            else
              if V.tail.reverse.head? = some ']' then
                match parseInlineArr (V.tail.reverse.tail.reverse) with
                | some xs => parseTomlGo fuel rest (acc ++ [(k, TomlVal.arr xs)])
                | none => none
              else none)
         else
           match parseStrLit V with
           | some s => parseTomlGo fuel rest (acc ++ [(k, TomlVal.str s)])
           | none => none) := by
  obtain ⟨kh, kt, hkk⟩ : ∃ kh kt, k = kh :: kt := by
    cases k with
    | nil => exact absurd rfl hk
    | cons a b => exact ⟨a, b, rfl⟩
  have hbare' : ∀ c ∈ k, isBareKeyChar c = true := fun c hc => List.all_eq_true.mp hbare c hc
  have hkh : isBareKeyChar kh = true := hbare' kh (by rw [hkk]; exact List.mem_cons_self _ _)
  have hheadL : (k ++ ([' ', '=', ' '] ++ V)).head? = some kh := by rw [hkk]; rfl
  have hstripL : pyStrip (k ++ ([' ', '=', ' '] ++ V)) = k ++ ([' ', '=', ' '] ++ V) := by
    apply pyStrip_eq_self
    · intro c hc
      rw [hheadL, Option.some_inj] at hc
      exact bare_not_space (hc ▸ hkh)
    · intro c hc
      rw [List.getLast?_append_of_ne_nil k (by simp [hVne])] at hc
      rw [List.getLast?_append_of_ne_nil [' ', '=', ' '] hVne] at hc
      exact hVl c hc
  have htake : (k ++ ([' ', '=', ' '] ++ V)).takeWhile (· ≠ '=') = k ++ [' '] := by
    rw [takeWhile_append_of_all (fun c hc => by
      simp only [decide_eq_true_eq]
      exact bare_ne (hbare' c hc) (by decide))]
    simp [List.takeWhile_cons]
  have hkey : pyStrip (k ++ [' ']) = k := by
    have hh : ∀ c, k.head? = some c → isPySpace c = false := by
      intro c hc
      rw [hkk, List.head?_cons, Option.some_inj] at hc
      exact bare_not_space (hc ▸ hkh)
    have hl : ∀ c, k.getLast? = some c → isPySpace c = false := by
      intro c hc
      exact bare_not_space (hbare' c (List.mem_of_mem_getLast? hc))
    have h := pyStrip_pad (show ∀ c ∈ ([] : Str), isPySpace c = true by simp)
      (show ∀ c ∈ [' '], isPySpace c = true by decide) hh hl
    simpa using h
  have hlen2 : (k ++ [' ']).length + 1 = k.length + 2 := by simp
  have hdrop2 : ([' ', '=', ' '] ++ V).drop 2 = ' ' :: V := rfl
  have hval : pyStrip (' ' :: V) = V := by
    have h := pyStrip_pad (show ∀ c ∈ [' '], isPySpace c = true by decide)
      (show ∀ c ∈ ([] : Str), isPySpace c = true by simp)
      hVh (by simpa using hVl)
    simpa using h
  rw [parseTomlGo]
  simp only [hstripL]
  rw [if_neg (by simp [hkk])]
  rw [if_neg (by
    rw [hheadL, Option.some_inj]
    exact bare_ne hkh (by decide))]
  rw [htake, hkey, hlen2, List.drop_append 2, hdrop2, hval]
  rw [if_pos ⟨by simp, hk, hbare, hfresh⟩]

/-- A dumped basic string literal reads back as itself. -/
theorem parseStrLit_round (s : Str) (hs : noQuoteBackslash s) :
    parseStrLit ('"' :: (s ++ ['"'])) = some s := by
  unfold parseStrLit
  rw [if_pos (show ('\x22' :: (s ++ ['\x22'])).head? = some '\x22' from rfl)]
  have hbody : (s ++ ['"']).takeWhile (fun c => decide (c ≠ '"' ∧ c ≠ '\\')) = s := by
    rw [takeWhile_append_of_all (fun c hc => by
      simp only [decide_eq_true_eq]
      exact ⟨fun he => hs.1 (he ▸ hc), fun he => hs.2 (he ▸ hc)⟩)]
    simp [List.takeWhile_cons]
  simp only [List.tail_cons]
  rw [hbody, if_pos (List.drop_left s ['"'])]

/-- One reader step on a dumped string entry line. -/
theorem parseTomlGo_str_step (fuel : Nat) (k s : Str) (rest : Doc) (acc : TomlTable)
    (hk : k ≠ []) (hbare : k.all isBareKeyChar = true) (hs : noQuoteBackslash s)
    (hfresh : acc.all (fun p => p.1 ≠ k) = true) :
    parseTomlGo (fuel + 1) ((k ++ " = \"".toList ++ s ++ ['"']) :: rest) acc
      = parseTomlGo fuel rest (acc ++ [(k, TomlVal.str s)]) := by
  have hL : k ++ " = \"".toList ++ s ++ ['"']
      = k ++ ([' ', '=', ' '] ++ ('"' :: (s ++ ['"']))) := by
    simp [show (" = \"".toList : Str) = [' ', '=', ' ', '"'] from rfl]
  have hlast : ('"' :: (s ++ ['"'])).getLast? = some '"' := by
    have hsh : '"' :: (s ++ ['"']) = ('"' :: s) ++ ['"'] := by simp
    rw [hsh]
    exact List.getLast?_concat _
  rw [hL, parseTomlGo_keyline fuel k ('"' :: (s ++ ['"'])) rest acc hk hbare hfresh (by simp)
    (by
      intro c hc
      rw [List.head?_cons, Option.some_inj] at hc
      rw [← hc]
      decide)
    (by
      intro c hc
      rw [hlast, Option.some_inj] at hc
      rw [← hc]
      decide)]
  rw [if_neg (by simp)]
  rw [parseStrLit_round s hs]

/-- One reader step on a dumped empty-array entry line. -/
theorem parseTomlGo_arrnil_step (fuel : Nat) (k : Str) (rest : Doc) (acc : TomlTable)
    (hk : k ≠ []) (hbare : k.all isBareKeyChar = true)
    (hfresh : acc.all (fun p => p.1 ≠ k) = true) :
    parseTomlGo (fuel + 1) ((k ++ " = []".toList) :: rest) acc
      = parseTomlGo fuel rest (acc ++ [(k, TomlVal.arr [])]) := by
  have hL : k ++ " = []".toList = k ++ ([' ', '=', ' '] ++ ['[', ']']) := rfl
  rw [hL, parseTomlGo_keyline fuel k ['[', ']'] rest acc hk hbare hfresh (by decide)
    (by
      intro c hc
      rw [show (['[', ']'] : Str).head? = some '[' from rfl, Option.some_inj] at hc
      rw [← hc]
      decide)
    (by
      intro c hc
      rw [show (['[', ']'] : Str).getLast? = some ']' from by decide, Option.some_inj] at hc
      rw [← hc]
      decide)]
  rw [if_pos (show (['\x5b', ']'] : Str).head? = some '\x5b' from rfl),
    if_neg (by decide), if_pos (by decide)]
  rw [show parseInlineArr ((['[', ']'] : Str).tail.reverse.tail.reverse) = some [] from by decide]

/-- The multiline-array item lines followed by the closing bracket line read
back as exactly the dumped items. -/
theorem parseArrayBlock_items : ∀ (ys : List Str) (rest : Doc),
    (∀ y ∈ ys, noQuoteBackslash y) →
    parseArrayBlock (ys.map (fun y => '"' :: (y ++ ['"', ','])) ++ ([']'] :: rest))
      = some (ys, rest) := by
  intro ys
  induction ys with
  | nil =>
    intro rest _
    simp only [List.map_nil, List.nil_append]
    rw [parseArrayBlock, if_pos (by decide)]
  | cons y ys ih =>
    intro rest hwf
    have hy : noQuoteBackslash y := hwf y (List.mem_cons_self y ys)
    simp only [List.map_cons, List.cons_append]
    rw [parseArrayBlock]
    have hlast : ('"' :: (y ++ ['"', ','])).getLast? = some ',' := by
      have hsh : '"' :: (y ++ ['"', ',']) = ('"' :: (y ++ ['"'])) ++ [','] := by simp
      rw [hsh]
      exact List.getLast?_concat _
    have hstrip : pyStrip ('"' :: (y ++ ['"', ','])) = '"' :: (y ++ ['"', ',']) := by
      apply pyStrip_eq_self
      · intro c hc
        rw [List.head?_cons, Option.some_inj] at hc
        rw [← hc]
        decide
      · intro c hc
        rw [hlast, Option.some_inj] at hc
        rw [← hc]
        decide
    rw [if_neg (by rw [hstrip]; simp)]
    have hitem : parseArrayItem ('"' :: (y ++ ['"', ','])) = some y := by
      unfold parseArrayItem
      simp only [hstrip]
      have hrev : ('"' :: (y ++ ['"', ','])).reverse = ',' :: ('"' :: (y.reverse ++ ['"'])) := by
        simp
      rw [hrev, if_pos (show (',' :: ('\x22' :: (y.reverse ++ ['\x22']))).head? = some ','
        from rfl)]
      have hrev2 : (('"' :: (y.reverse ++ ['"'])) : Str).reverse = '"' :: (y ++ ['"']) := by
        simp
      rw [List.tail_cons, hrev2]
      exact parseStrLit_round y hy
    rw [hitem, ih rest (fun z hz => hwf z (List.mem_cons_of_mem y hz))]

/-- One reader step on a dumped nonempty-array entry: the header line, the
item lines and the closing line are consumed in one fuel step. -/
theorem parseTomlGo_arrcons_step (fuel : Nat) (k x : Str) (xs : List Str) (rest : Doc)
    (acc : TomlTable)
    (hk : k ≠ []) (hbare : k.all isBareKeyChar = true)
    (hxs : ∀ y ∈ x :: xs, noQuoteBackslash y)
    (hfresh : acc.all (fun p => p.1 ≠ k) = true) :
    parseTomlGo (fuel + 1) ((k ++ " = [".toList) ::
        ((x :: xs).map (fun y => '"' :: (y ++ ['"', ','])) ++ ([']'] :: rest))) acc
      = parseTomlGo fuel rest (acc ++ [(k, TomlVal.arr (x :: xs))]) := by
  have hL : k ++ " = [".toList = k ++ ([' ', '=', ' '] ++ ['[']) := rfl
  rw [hL, parseTomlGo_keyline fuel k ['['] _ acc hk hbare hfresh (by decide)
    (by
      intro c hc
      rw [show (['['] : Str).head? = some '[' from rfl, Option.some_inj] at hc
      rw [← hc]
      decide)
    (by
      intro c hc
      rw [show (['['] : Str).getLast? = some '[' from by decide, Option.some_inj] at hc
      rw [← hc]
      decide)]
  rw [if_pos (show (['\x5b'] : Str).head? = some '\x5b' from rfl), if_pos (by decide)]
  rw [parseArrayBlock_items (x :: xs) rest hxs]

theorem head?_append_left {l r : Str} {c : Char} (h : l.head? = some c) :
    (l ++ r).head? = some c := by
  cases l with
  | nil => simp at h
  | cons a t => simpa using h

theorem lstripSpaces_eq_self_of_bare {L : Str} {kh : Char} (hh : L.head? = some kh)
    (hb : isBareKeyChar kh = true) : lstripSpaces L = L := by
  cases L with
  | nil => rfl
  | cons c t =>
    rw [List.head?_cons, Option.some_inj] at hh
    subst hh
    unfold lstripSpaces
    have hcond : ¬ ((c == ' ') = true) := by
      intro hcon
      exact bare_ne hb (show isBareKeyChar ' ' = false by decide) (by simpa using hcon)
    rw [List.dropWhile_cons, if_neg hcond]

theorem lstrip_item (y : Str) :
    lstripSpaces ("    \"".toList ++ y ++ "\",".toList) = '"' :: (y ++ ['"', ',']) := by
  have hsh : "    \"".toList ++ y ++ "\",".toList
      = [' ', ' ', ' ', ' '] ++ ('"' :: (y ++ ['"', ','])) := by
    simp [show ("    \"".toList : Str) = [' ', ' ', ' ', ' ', '"'] from rfl,
      show ("\",".toList : Str) = ['"', ','] from rfl]
  rw [hsh]
  unfold lstripSpaces
  rw [dropWhile_append_of_all (by decide)]
  simp [List.dropWhile_cons]

/-- The cleaned dump of a string entry is its single key line followed by the
cleaned dump of the remaining table. -/
theorem cleanedDump_str (k s : Str) (t : TomlTable) {kh : Char} (hhead : k.head? = some kh)
    (hkh : isBareKeyChar kh = true) :
    cleanedDump ((k, TomlVal.str s) :: t)
      = (k ++ " = \"".toList ++ s ++ ['"']) :: cleanedDump t := by
  show (dumpToml ((k, TomlVal.str s) :: t)).map lstripSpaces = _
  rw [show dumpToml ((k, TomlVal.str s) :: t)
    = (k ++ " = \"".toList ++ s ++ ['"']) :: dumpToml t from rfl]
  rw [List.map_cons]
  rw [lstripSpaces_eq_self_of_bare
    (head?_append_left (head?_append_left (head?_append_left hhead))) hkh]
  rfl

theorem cleanedDump_arrnil (k : Str) (t : TomlTable) {kh : Char} (hhead : k.head? = some kh)
    (hkh : isBareKeyChar kh = true) :
    cleanedDump ((k, TomlVal.arr []) :: t) = (k ++ " = []".toList) :: cleanedDump t := by
  show (dumpToml ((k, TomlVal.arr []) :: t)).map lstripSpaces = _
  rw [show dumpToml ((k, TomlVal.arr []) :: t) = (k ++ " = []".toList) :: dumpToml t from rfl]
  rw [List.map_cons]
  rw [lstripSpaces_eq_self_of_bare (head?_append_left hhead) hkh]
  rfl

theorem cleanedDump_arrcons (k x : Str) (xs : List Str) (t : TomlTable) {kh : Char}
    (hhead : k.head? = some kh) (hkh : isBareKeyChar kh = true) :
    cleanedDump ((k, TomlVal.arr (x :: xs)) :: t)
      = (k ++ " = [".toList) :: ((x :: xs).map (fun y => '"' :: (y ++ ['"', ',']))
          ++ ([']'] :: cleanedDump t)) := by
  show (dumpToml ((k, TomlVal.arr (x :: xs)) :: t)).map lstripSpaces = _
  have h1 : dumpToml ((k, TomlVal.arr (x :: xs)) :: t)
      = (k ++ " = [".toList) :: ((x :: xs).map (fun y => "    \"".toList ++ y ++ "\",".toList)
          ++ ("]".toList :: dumpToml t)) := by
    show ([k ++ " = [".toList] ++ (x :: xs).map (fun y => "    \"".toList ++ y ++ "\",".toList)
        ++ ["]".toList]) ++ dumpToml t = _
    simp
  have hmap : List.map (lstripSpaces ∘ (fun y => "    \"".toList ++ y ++ "\",".toList)) (x :: xs)
      = List.map (fun y => '"' :: (y ++ ['"', ','])) (x :: xs) :=
    List.map_congr_left (fun y _ => lstrip_item y)
  rw [h1, List.map_cons, List.map_append, List.map_map]
  rw [lstripSpaces_eq_self_of_bare (head?_append_left hhead) hkh]
  rw [hmap]
  rw [show List.map lstripSpaces ("]".toList :: dumpToml t) = ([']'] : Str) :: cleanedDump t
    from by
      rw [List.map_cons, show lstripSpaces "]".toList = ([']'] : Str) from by decide]
      rfl]

/-- The cleaned dump of a well-formed table with fresh keys reads back as
exactly that table appended to the accumulator. -/
theorem parseTomlGo_cleanedDump : ∀ (t acc : TomlTable) (fuel : Nat),
    (∀ p ∈ t, wfEntry p) →
    ((acc ++ t).map Prod.fst).Nodup →
    (cleanedDump t).length < fuel →
    parseTomlGo fuel (cleanedDump t) acc = some (acc ++ t) := by
  intro t
  induction t with
  | nil =>
    intro acc fuel _ _ hfuel
    rw [show cleanedDump [] = ([] : Doc) from rfl] at hfuel ⊢
    cases fuel with
    | zero => exact absurd hfuel (by omega)
    | succ f =>
      rw [parseTomlGo]
      simp
  | cons e t' ih =>
    obtain ⟨k, v⟩ := e
    intro acc fuel hwf hnodup hfuel
    have hwfe : wfEntry (k, v) := hwf _ (List.mem_cons_self _ _)
    obtain ⟨hk, hbare, hv⟩ := hwfe
    obtain ⟨kh, kt, hkk⟩ : ∃ kh kt, k = kh :: kt := by
      cases k with
      | nil => exact absurd rfl hk
      | cons a b => exact ⟨a, b, rfl⟩
    have hhead : k.head? = some kh := by rw [hkk]; rfl
    have hkh : isBareKeyChar kh = true :=
      List.all_eq_true.mp hbare kh (by rw [hkk]; exact List.mem_cons_self _ _)
    have hfresh : acc.all (fun p => p.1 ≠ k) = true := by
      rw [List.all_eq_true]
      intro p hp
      simp only [decide_eq_true_eq]
      intro he
      have hmem₁ : k ∈ acc.map Prod.fst := List.mem_map.mpr ⟨p, hp, he⟩
      have hmem₂ : k ∈ ((k, v) :: t').map Prod.fst :=
        List.mem_map.mpr ⟨(k, v), List.mem_cons_self _ _, rfl⟩
      rw [List.map_append, List.nodup_append] at hnodup
      exact hnodup.2.2 hmem₁ hmem₂
    have hnodup' : ∀ w : TomlVal, (((acc ++ [(k, w)]) ++ t').map Prod.fst).Nodup := by
      intro w
      have hsh : ((acc ++ [(k, w)]) ++ t').map Prod.fst = (acc ++ ((k, v) :: t')).map Prod.fst := by
        simp
      rw [hsh]
      exact hnodup
    have hwf' : ∀ p ∈ t', wfEntry p := fun p hp => hwf p (List.mem_cons_of_mem _ hp)
    cases fuel with
    | zero => exact absurd hfuel (by omega)
    | succ f =>
      cases v with
      | str s =>
        rw [cleanedDump_str k s t' hhead hkh] at hfuel ⊢
        rw [parseTomlGo_str_step f k s (cleanedDump t') acc hk hbare hv hfresh]
        rw [ih (acc ++ [(k, TomlVal.str s)]) f hwf' (hnodup' _) (by simpa using Nat.lt_of_succ_lt_succ (by simpa using hfuel))]
        simp
      | arr xs =>
        cases xs with
        | nil =>
          rw [cleanedDump_arrnil k t' hhead hkh] at hfuel ⊢
          rw [parseTomlGo_arrnil_step f k (cleanedDump t') acc hk hbare hfresh]
          rw [ih (acc ++ [(k, TomlVal.arr [])]) f hwf' (hnodup' _) (by simpa using Nat.lt_of_succ_lt_succ (by simpa using hfuel))]
          simp
        | cons x xs' =>
          rw [cleanedDump_arrcons k x xs' t' hhead hkh] at hfuel ⊢
          rw [parseTomlGo_arrcons_step f k x xs' (cleanedDump t') acc hk hbare hv hfresh]
          rw [ih (acc ++ [(k, TomlVal.arr (x :: xs'))]) f hwf' (hnodup' _) (by
            simp only [List.length_cons, List.length_append, List.length_map] at hfuel
            omega)]
          simp

theorem parseToml_cleanedDump (t : TomlTable) (hwf : ∀ p ∈ t, wfEntry p)
    (hnodup : (t.map Prod.fst).Nodup) : parseToml (cleanedDump t) = some t := by
  unfold parseToml
  have h := parseTomlGo_cleanedDump t [] ((cleanedDump t).length + 1) hwf
    (by simpa using hnodup) (by omega)
  simpa using h

theorem dumpToml_ne_nil {t : TomlTable} (hne : t ≠ []) : dumpToml t ≠ [] := by
  cases t with
  | nil => exact absurd rfl hne
  | cons e t' =>
    obtain ⟨k, v⟩ := e
    cases v with
    | str s =>
      intro h
      rw [show dumpToml ((k, TomlVal.str s) :: t')
        = (k ++ " = \"".toList ++ s ++ ['"']) :: dumpToml t' from rfl] at h
      exact List.cons_ne_nil _ _ h
    | arr xs =>
      cases xs with
      | nil =>
        intro h
        rw [show dumpToml ((k, TomlVal.arr []) :: t')
          = (k ++ " = []".toList) :: dumpToml t' from rfl] at h
        exact List.cons_ne_nil _ _ h
      | cons x xs' =>
        intro h
        rw [show dumpToml ((k, TomlVal.arr (x :: xs')) :: t')
          = (k ++ " = [".toList) :: (((x :: xs').map
              (fun y => "    \"".toList ++ y ++ "\",".toList) ++ ["]".toList]) ++ dumpToml t')
          from rfl] at h
        exact List.cons_ne_nil _ _ h

/-- Every dumped line ends in a non-whitespace character. -/
theorem dumpToml_line_last (t : TomlTable) :
    ∀ l ∈ dumpToml t, ∃ c, l.getLast? = some c ∧ isPySpace c = false := by
  intro l hl
  unfold dumpToml at hl
  obtain ⟨p, hp, hlp⟩ := List.mem_flatMap.mp hl
  obtain ⟨k, v⟩ := p
  cases v with
  | str s =>
    have hEq : l = k ++ " = \"".toList ++ s ++ ['"'] := by simpa using hlp
    refine ⟨'"', ?_, by decide⟩
    rw [hEq]
    exact List.getLast?_concat _
  | arr xs =>
    cases xs with
    | nil =>
      have hEq : l = k ++ " = []".toList := by simpa using hlp
      refine ⟨']', ?_, by decide⟩
      rw [hEq, List.getLast?_append_of_ne_nil k (by decide)]
      decide
    | cons x xs' =>
      rcases List.mem_append.mp hlp with h12 | h3
      · rcases List.mem_append.mp h12 with h1 | h2
        · have hEq : l = k ++ " = [".toList := by simpa using h1
          refine ⟨'[', ?_, by decide⟩
          rw [hEq, List.getLast?_append_of_ne_nil k (by decide)]
          decide
        · obtain ⟨y, _, hEq⟩ := List.mem_map.mp h2
          refine ⟨',', ?_, by decide⟩
          rw [← hEq, List.getLast?_append_of_ne_nil _ (by decide)]
          decide
      · have hEq : l = "]".toList := by simpa using h3
        refine ⟨']', ?_, by decide⟩
        rw [hEq]
        decide

/-- No dumped line starts with a slash (so the commented lines can never form
an end marker). -/
theorem dumpToml_line_head (t : TomlTable) (hwf : ∀ p ∈ t, wfEntry p) :
    ∀ l ∈ dumpToml t, ∀ c, l.head? = some c → ¬ c = '/' := by
  intro l hl
  unfold dumpToml at hl
  obtain ⟨p, hp, hlp⟩ := List.mem_flatMap.mp hl
  obtain ⟨k, v⟩ := p
  obtain ⟨hk, hbare, -⟩ := hwf _ hp
  obtain ⟨kh, kt, hkk⟩ : ∃ kh kt, k = kh :: kt := by
    cases k with
    | nil => exact absurd rfl hk
    | cons a b => exact ⟨a, b, rfl⟩
  have hhead : k.head? = some kh := by rw [hkk]; rfl
  have hkh : isBareKeyChar kh = true :=
    List.all_eq_true.mp hbare kh (by rw [hkk]; exact List.mem_cons_self _ _)
  have hbarecase : ∀ (w : Str), l = k ++ w → ∀ c, l.head? = some c → ¬ c = '/' := by
    intro w hEq c hc
    rw [hEq, head?_append_left hhead, Option.some_inj] at hc
    rw [← hc]
    exact bare_ne hkh (by decide)
  cases v with
  | str s =>
    have hEq : l = k ++ (" = \"".toList ++ s ++ ['"']) := by
      have h := (by simpa using hlp : l = k ++ " = \"".toList ++ s ++ ['"'])
      rw [h]
      simp
    exact hbarecase _ hEq
  | arr xs =>
    cases xs with
    | nil =>
      have hEq : l = k ++ " = []".toList := by simpa using hlp
      exact hbarecase _ hEq
    | cons x xs' =>
      rcases List.mem_append.mp hlp with h12 | h3
      · rcases List.mem_append.mp h12 with h1 | h2
        · have hEq : l = k ++ " = [".toList := by simpa using h1
          exact hbarecase _ hEq
        · obtain ⟨y, _, hEq⟩ := List.mem_map.mp h2
          intro c hc
          rw [← hEq, head?_append_left (head?_append_left
            (show ("    \"".toList : Str).head? = some ' ' from rfl)), Option.some_inj] at hc
          rw [← hc]
          decide
      · have hEq : l = "]".toList := by simpa using h3
        intro c hc
        rw [hEq] at hc
        rw [show ("]".toList : Str).head? = some ']' from rfl, Option.some_inj] at hc
        rw [← hc]
        decide

/-- Removing the `# ` comment prefixes of a dumped block recovers exactly the
cleaned dump lines. -/
theorem cleanMetadataLines_commented (t : TomlTable) (hne : t ≠ []) :
    cleanMetadataLines ((dumpToml t).map (fun l => "# ".toList ++ l))
      = some (cleanedDump t) := by
  unfold cleanMetadataLines
  have hdne : dumpToml t ≠ [] := dumpToml_ne_nil hne
  have hstrip : stripSplitInterior ((dumpToml t).map (fun l => "# ".toList ++ l))
      = (dumpToml t).map (fun l => "# ".toList ++ l) := by
    apply stripSplitInterior_eq_self
    · simp [hdne]
    · intro l hl
      rw [List.getLast?_map] at hl
      cases hgl : (dumpToml t).getLast? with
      | none => rw [hgl] at hl; simp at hl
      | some l₀ =>
        rw [hgl] at hl
        have hl' : l = "# ".toList ++ l₀ := by
          simpa using hl.symm
        obtain ⟨c, hc, hcws⟩ := dumpToml_line_last t l₀ (List.mem_of_mem_getLast? hgl)
        apply pyStripRight_eq_self
        intro c' hc'
        have hl₀ne : l₀ ≠ [] := by
          intro h0
          rw [h0] at hc
          simp at hc
        rw [hl', List.getLast?_append_of_ne_nil _ hl₀ne, hc, Option.some_inj] at hc'
        rw [← hc']
        exact hcws
  rw [hstrip, mapMOpt_map]
  have hline : ∀ l ∈ dumpToml t, cleanMetadataLine ("# ".toList ++ l) = some (lstripSpaces l) := by
    intro l _
    unfold cleanMetadataLine
    rw [if_pos (show ("# ".toList ++ l).head? = some '#' from rfl)]
    have hdrop : ("# ".toList ++ l).drop 1 = ' ' :: l := rfl
    rw [hdrop]
    have hsp : lstripSpaces (' ' :: l) = lstripSpaces l := by
      unfold lstripSpaces
      rw [List.dropWhile_cons, if_pos (by decide)]
    rw [hsp]
  exact mapMOpt_congr_some _ hline

/-- Parsing a document whose block interior is a freshly commented dump
recovers exactly the dumped table. -/
theorem parseMetadataOf_commented (pre post : Doc) (s0 e0 : Str) (T : TomlTable)
    (hpre : ∀ l ∈ pre, isStartMarker l = false)
    (hs0 : isStartMarker s0 = true)
    (he0 : isEndMarker e0 = true)
    (hpost : post ≠ [])
    (hne : T ≠ [])
    (hwf : ∀ p ∈ T, wfEntry p)
    (hnodup : (T.map Prod.fst).Nodup) :
    parseMetadataOf
        (pre ++ s0 :: ((dumpToml T).map (fun l => "# ".toList ++ l) ++ e0 :: post))
      = some T := by
  have hinner : ∀ l ∈ (dumpToml T).map (fun l => "# ".toList ++ l),
      l.head? = some '#' ∧ isEndMarker l = false := by
    intro l hl
    obtain ⟨l₀, hl₀, hEq⟩ := List.mem_map.mp hl
    constructor
    · rw [← hEq]
      rfl
    · rw [← hEq]
      exact isEndMarker_comment_false (dumpToml_line_head T hwf l₀ hl₀)
  have hfb := findBlock_structural pre ((dumpToml T).map (fun l => "# ".toList ++ l)) post s0 e0
    hpre hs0 hinner he0 hpost
  have hbi : blockInterior
      (pre ++ s0 :: ((dumpToml T).map (fun l => "# ".toList ++ l) ++ e0 :: post))
      pre.length (pre.length + ((dumpToml T).map (fun l => "# ".toList ++ l)).length + 1)
      = (dumpToml T).map (fun l => "# ".toList ++ l) := by
    unfold blockInterior
    have hdoc : pre ++ s0 :: ((dumpToml T).map (fun l => "# ".toList ++ l) ++ e0 :: post)
        = (pre ++ [s0]) ++ ((dumpToml T).map (fun l => "# ".toList ++ l) ++ e0 :: post) := by
      simp
    have hlen : pre.length + 1 = (pre ++ [s0]).length := by simp
    rw [hdoc, hlen, List.drop_left]
    have harith : pre.length + ((dumpToml T).map (fun l => "# ".toList ++ l)).length + 1
        - (pre ++ [s0]).length = ((dumpToml T).map (fun l => "# ".toList ++ l)).length := by
      simp
    rw [harith]
    exact List.take_left _ _
  unfold parseMetadataOf
  simp only [hfb, Option.bind_eq_bind, Option.some_bind, hbi,
    cleanMetadataLines_commented T hne, parseToml_cleanedDump T hwf hnodup]

/-! ## `setDeps`, `depsOf` and the stability of the rebuilt dependency list -/

theorem find_setDeps (xs : List Str) : ∀ (t : TomlTable) (e : Str × TomlVal),
    t.find? (fun p => p.1 = "dependencies".toList) = some e →
    (setDeps t xs).find? (fun p => p.1 = "dependencies".toList)
      = some (e.1, TomlVal.arr xs) := by
  intro t
  induction t with
  | nil => intro e h; simp [List.find?] at h
  | cons q t' ih =>
    intro e h
    by_cases hq : q.1 = "dependencies".toList
    · rw [List.find?_cons_of_pos _ (by simpa using hq)] at h
      have he : q = e := by simpa using h
      show List.find? _ ((if q.1 = "dependencies".toList then (q.1, TomlVal.arr xs) else q)
          :: setDeps t' xs) = _
      rw [if_pos hq]
      rw [List.find?_cons_of_pos _ (by simpa using hq)]
      rw [he]
    · rw [List.find?_cons_of_neg _ (by simpa using hq)] at h
      show List.find? _ ((if q.1 = "dependencies".toList then (q.1, TomlVal.arr xs) else q)
          :: setDeps t' xs) = _
      rw [if_neg hq]
      rw [List.find?_cons_of_neg _ (by simpa using hq)]
      exact ih e h

theorem depsOf_eq_arr {meta : TomlTable} {deps : List Str} (h : depsOf meta = some deps)
    (hne : deps ≠ []) :
    ∃ k₀, meta.find? (fun p => p.1 = "dependencies".toList) = some (k₀, TomlVal.arr deps) := by
  unfold depsOf at h
  cases hf : meta.find? (fun p => p.1 = "dependencies".toList) with
  | none =>
    rw [hf] at h
    simp only [Option.some_inj] at h
    exact absurd h.symm hne
  | some e =>
    obtain ⟨k₀, v⟩ := e
    cases v with
    | str s => rw [hf] at h; simp at h
    | arr ys =>
      rw [hf] at h
      simp only [Option.some_inj] at h
      subst h
      exact ⟨k₀, rfl⟩

theorem depsOf_setDeps {meta : TomlTable} {e : Str × TomlVal}
    (hf : meta.find? (fun p => p.1 = "dependencies".toList) = some e) (xs : List Str) :
    depsOf (setDeps meta xs) = some xs := by
  unfold depsOf
  rw [find_setDeps xs meta e hf]

theorem setDeps_setDeps (t : TomlTable) (xs ys : List Str) :
    setDeps (setDeps t xs) ys = setDeps t ys := by
  unfold setDeps
  rw [List.map_map]
  apply List.map_congr_left
  intro p _
  simp only [Function.comp]
  by_cases hp : p.1 = "dependencies".toList
  · simp only [if_pos hp]
  · simp only [if_neg hp]

theorem setDeps_keys (t : TomlTable) (xs : List Str) :
    (setDeps t xs).map Prod.fst = t.map Prod.fst := by
  unfold setDeps
  rw [List.map_map]
  apply List.map_congr_left
  intro p _
  simp only [Function.comp]
  by_cases hp : p.1 = "dependencies".toList
  · rw [if_pos hp]
  · rw [if_neg hp]

theorem setDeps_wf {t : TomlTable} (hwf : ∀ p ∈ t, wfEntry p) {xs : List Str}
    (hxs : ∀ x ∈ xs, noQuoteBackslash x) :
    ∀ p ∈ setDeps t xs, wfEntry p := by
  intro p hp
  unfold setDeps at hp
  obtain ⟨q, hq, hEq⟩ := List.mem_map.mp hp
  by_cases hqk : q.1 = "dependencies".toList
  · rw [if_pos hqk] at hEq
    rw [← hEq]
    exact ⟨(hwf q hq).1, (hwf q hq).2.1, hxs⟩
  · rw [if_neg hqk] at hEq
    exact hEq ▸ hwf q hq

theorem bracket_not_mem_of_sep_free {package : Str}
    (hsep : ∀ sep ∈ packageSeps, occursSub sep package = false) : '[' ∉ package := by
  intro hm
  have h : occursSub ['['] package = false := hsep "[".toList (by decide)
  rw [occursSub_singleton.mpr hm] at h
  exact Bool.true_eq_false.mp h

theorem noQB_pinned {p u r d : Str} (hp : noQuoteBackslash p) (hu : noQuoteBackslash u)
    (hr : noQuoteBackslash r) (hd : noQuoteBackslash d) :
    noQuoteBackslash (pinnedSpec p u r d) := by
  have hmem : ∀ c, c ∈ pinnedSpec p u r d → c = '@' ∨ c ∈ p ∨ c ∈ d ∨ c ∈ u ∨ c ∈ r := by
    intro c hc
    unfold pinnedSpec at hc
    rcases List.mem_append.mp hc with h1 | h1
    · rcases List.mem_append.mp h1 with h2 | h2
      · rcases List.mem_append.mp h2 with h3 | h3
        · exact Or.inr (Or.inl h3)
        · exact Or.inr (Or.inr (Or.inl (extrasOf_subset d c h3)))
      · rcases List.mem_cons.mp h2 with h3 | h3
        · exact Or.inl h3
        · exact Or.inr (Or.inr (Or.inr (Or.inl h3)))
    · rcases List.mem_cons.mp h1 with h3 | h3
      · exact Or.inl h3
      · exact Or.inr (Or.inr (Or.inr (Or.inr h3)))
  constructor
  · intro hm
    rcases hmem _ hm with h | h | h | h | h
    · exact absurd h (by decide)
    · exact hp.1 h
    · exact hd.1 h
    · exact hu.1 h
    · exact hr.1 h
  · intro hm
    rcases hmem _ hm with h | h | h | h | h
    · exact absurd h (by decide)
    · exact hp.2 h
    · exact hd.2 h
    · exact hu.2 h
    · exact hr.2 h

theorem noQB_normalizeUrl {u : Str} (hu : noQuoteBackslash u) :
    noQuoteBackslash (normalizeUrl u) := by
  unfold normalizeUrl
  by_cases hg : "git+".toList.isPrefixOf u = true
  · rw [if_pos hg]
    exact hu
  · rw [if_neg hg]
    constructor
    · intro hm
      rcases List.mem_append.mp hm with h | h
      · exact absurd h (by decide)
      · exact hu.1 h
    · intro hm
      rcases List.mem_append.mp hm with h | h
      · exact absurd h (by decide)
      · exact hu.2 h

theorem bracket_not_mem_normalizeUrl {u : Str} (hu : '[' ∉ u) : '[' ∉ normalizeUrl u := by
  unfold normalizeUrl
  by_cases hg : "git+".toList.isPrefixOf u = true
  · rw [if_pos hg]
    exact hu
  · rw [if_neg hg]
    intro hm
    rcases List.mem_append.mp hm with h | h
    · exact absurd h (by decide)
    · exact hu h

/-- The package-name properties extracted from the found dependency. -/
theorem package_props {deps : List Str} {package : Str}
    (hfound : deps.any (fun d => extract_package_name d = package) = true)
    (hdw : ∀ x ∈ deps, noQuoteBackslash x) :
    '@' ∉ package ∧ (∀ sep ∈ packageSeps, occursSub sep package = false) ∧
    pyStrip package = package ∧ noQuoteBackslash package := by
  rw [List.any_eq_true] at hfound
  obtain ⟨d, hd, hdx⟩ := hfound
  have hdx' : extract_package_name d = package := by simpa using hdx
  subst hdx'
  exact ⟨extract_no_at d, extract_sep_free d, extract_pyStrip d,
    fun hm => (hdw d hd).1 (extract_subset d _ hm),
    fun hm => (hdw d hd).2 (extract_subset d _ hm)⟩

/-- The rebuilt dependency list is a fixed point of the rebuild. -/
theorem depsUpdate_stable {deps : List Str} {package url ref : Str}
    (hat : '@' ∉ package) (hsep : ∀ sep ∈ packageSeps, occursSub sep package = false)
    (hstrip : pyStrip package = package)
    (hbu : '[' ∉ url) (hbr : '[' ∉ ref) :
    depsUpdate (depsUpdate deps package url ref) package url ref
      = depsUpdate deps package url ref := by
  unfold depsUpdate
  rw [List.map_map]
  apply List.map_congr_left
  intro d _
  simp only [Function.comp]
  by_cases hd : extract_package_name d = package
  · rw [if_pos hd, if_pos (extract_pinned d hat hsep hstrip)]
    rw [show pinnedSpec package url ref (pinnedSpec package url ref d)
      = package ++ extrasOf (pinnedSpec package url ref d) ++ '@' :: url ++ '@' :: ref from rfl]
    rw [extrasOf_pinned (bracket_not_mem_of_sep_free hsep) hbu hbr]
    rfl
  · rw [if_neg hd, if_neg hd]

/-- The rebuilt list still contains an entry whose bare name matches. -/
theorem depsUpdate_found {deps : List Str} {package url ref : Str}
    (hat : '@' ∉ package) (hsep : ∀ sep ∈ packageSeps, occursSub sep package = false)
    (hstrip : pyStrip package = package)
    (hfound : deps.any (fun d => extract_package_name d = package) = true) :
    (depsUpdate deps package url ref).any
      (fun d => extract_package_name d = package) = true := by
  rw [List.any_eq_true] at hfound ⊢
  obtain ⟨d, hd, hdx⟩ := hfound
  have hdx' : extract_package_name d = package := by simpa using hdx
  refine ⟨pinnedSpec package url ref d, ?_, ?_⟩
  · unfold depsUpdate
    exact List.mem_map.mpr ⟨d, hd, by rw [if_pos hdx']⟩
  · simpa using extract_pinned d hat hsep hstrip

/-- Every entry of the rebuilt dependency list has clean characters. -/
theorem depsUpdate_wf {deps : List Str} {package url ref : Str}
    (hdw : ∀ x ∈ deps, noQuoteBackslash x)
    (hp : noQuoteBackslash package) (hu : noQuoteBackslash url)
    (hr : noQuoteBackslash ref) :
    ∀ x ∈ depsUpdate deps package url ref, noQuoteBackslash x := by
  intro x hx
  unfold depsUpdate at hx
  obtain ⟨d, hd, hEq⟩ := List.mem_map.mp hx
  by_cases hdx : extract_package_name d = package
  · rw [if_pos hdx] at hEq
    exact hEq ▸ noQB_pinned hp hu hr (hdw d hd)
  · rw [if_neg hdx] at hEq
    exact hEq ▸ hdw d hd

theorem replaceSubGo_cons_ne_nil {pat repl : Doc} (hrepl : repl ≠ []) :
    ∀ post : Doc, post ≠ [] → replaceSubGo pat repl 0 post ≠ [] := by
  intro post hpost
  cases post with
  | nil => exact absurd rfl hpost
  | cons l rest =>
    rw [replaceSubGo]
    by_cases hm : pat ≠ [] ∧ pat.isPrefixOf (l :: rest) = true
    · rw [if_pos hm]
      simp [hrepl]
    · rw [if_neg hm]
      simp

/-- **C5 (amended)** — on the modelled TOML subset (well-formed metadata with
distinct keys) and for URLs and refs containing no `[`, `"` or `\`,
`update_git_reference` is idempotent: it succeeds and running it again on its
own output returns that output unchanged.  (Without the bracket condition the
claim is false: extras-bracket re-extraction from the pinned specifier makes a
second run change the text again, see the counterexample.) -/
theorem C5_update_idempotent
    (pre inner post : Doc) (s0 e0 : Str) (package url ref : Str)
    (meta : TomlTable) (deps : List Str)
    (hpre : ∀ l ∈ pre, isStartMarker l = false)
    (hs0 : isStartMarker s0 = true)
    (hinner : ∀ l ∈ inner, l.head? = some '#' ∧ isEndMarker l = false)
    (he0 : isEndMarker e0 = true)
    (hpost : post ≠ [])
    (hparse : parseMetadataOf (pre ++ s0 :: (inner ++ e0 :: post)) = some meta)
    (hdeps : depsOf meta = some deps)
    (hfound : deps.any (fun d => extract_package_name d = package) = true)
    (hwf : ∀ p ∈ meta, wfEntry p)
    (hnodup : (meta.map Prod.fst).Nodup)
    (hurlc : noQuoteBackslash url ∧ '[' ∉ url)
    (hrefc : noQuoteBackslash ref ∧ '[' ∉ ref) :
    ∃ out,
      update_git_reference (pre ++ s0 :: (inner ++ e0 :: post)) package url ref = some out ∧
      update_git_reference out package url ref = some out := by
  have h1 := update_git_reference_structural pre inner post s0 e0 package url ref meta deps
    hpre hs0 hinner he0 hpost hparse hdeps hfound
  refine ⟨pre ++ s0 :: (updatedBlockInner meta deps package url ref ++ e0 ::
    replaceSubGo (s0 :: (inner ++ [e0]))
      (s0 :: (updatedBlockInner meta deps package url ref ++ [e0])) 0 post), ?_, ?_⟩
  · rw [h1]
    simp
  · -- abbreviations (spelled out): D = rebuilt deps, T' = updated table
    have hdne : deps ≠ [] := by
      rw [List.any_eq_true] at hfound
      obtain ⟨d, hd, -⟩ := hfound
      exact List.ne_nil_of_mem hd
    obtain ⟨k₀, hf⟩ := depsOf_eq_arr hdeps hdne
    have hdw : ∀ x ∈ deps, noQuoteBackslash x :=
      (hwf (k₀, TomlVal.arr deps) (List.mem_of_find?_eq_some hf)).2.2
    obtain ⟨hat, hsep, hstrip, hpq⟩ := package_props hfound hdw
    have hu'q : noQuoteBackslash (normalizeUrl url) := noQB_normalizeUrl hurlc.1
    have hu'b : '[' ∉ normalizeUrl url := bracket_not_mem_normalizeUrl hurlc.2
    have hdeps'wf : ∀ x ∈ depsUpdate deps package (normalizeUrl url) ref, noQuoteBackslash x :=
      depsUpdate_wf hdw hpq hu'q hrefc.1
    have hT'wf : ∀ p ∈ setDeps meta (depsUpdate deps package (normalizeUrl url) ref), wfEntry p :=
      setDeps_wf hwf hdeps'wf
    have hT'nodup : ((setDeps meta (depsUpdate deps package (normalizeUrl url) ref)).map
        Prod.fst).Nodup := by
      rw [setDeps_keys]
      exact hnodup
    have hT'ne : setDeps meta (depsUpdate deps package (normalizeUrl url) ref) ≠ [] := by
      intro h0
      have hm := List.mem_of_find?_eq_some hf
      have hmeta : meta = [] := List.map_eq_nil_iff.mp (by
        rw [show (List.map (fun p => if p.1 = "dependencies".toList
          then (p.1, TomlVal.arr (depsUpdate deps package (normalizeUrl url) ref)) else p) meta)
          = setDeps meta (depsUpdate deps package (normalizeUrl url) ref) from rfl, h0])
      rw [hmeta] at hm
      exact List.not_mem_nil _ hm
    have hpost₂ : replaceSubGo (s0 :: (inner ++ [e0]))
        (s0 :: (updatedBlockInner meta deps package url ref ++ [e0])) 0 post ≠ [] :=
      replaceSubGo_cons_ne_nil (by simp) post hpost
    have hinner₂ : ∀ l ∈ updatedBlockInner meta deps package url ref,
        l.head? = some '#' ∧ isEndMarker l = false := by
      intro l hl
      have hl' : l ∈ (dumpToml (setDeps meta
          (depsUpdate deps package (normalizeUrl url) ref))).map
          (fun l => "# ".toList ++ l) := hl
      obtain ⟨l₀, hl₀, hEq⟩ := List.mem_map.mp hl'
      exact ⟨by rw [← hEq]; rfl,
        by rw [← hEq]; exact isEndMarker_comment_false (dumpToml_line_head _ hT'wf l₀ hl₀)⟩
    have hparse₂ : parseMetadataOf (pre ++ s0 ::
        (updatedBlockInner meta deps package url ref ++ e0 ::
          replaceSubGo (s0 :: (inner ++ [e0]))
            (s0 :: (updatedBlockInner meta deps package url ref ++ [e0])) 0 post))
        = some (setDeps meta (depsUpdate deps package (normalizeUrl url) ref)) :=
      parseMetadataOf_commented pre _ s0 e0 _ hpre hs0 he0 hpost₂ hT'ne hT'wf hT'nodup
    have hdeps₂ : depsOf (setDeps meta (depsUpdate deps package (normalizeUrl url) ref))
        = some (depsUpdate deps package (normalizeUrl url) ref) :=
      depsOf_setDeps hf _
    have hfound₂ : (depsUpdate deps package (normalizeUrl url) ref).any
        (fun d => extract_package_name d = package) = true :=
      depsUpdate_found hat hsep hstrip hfound
    have h2 := update_git_reference_structural pre
      (updatedBlockInner meta deps package url ref)
      (replaceSubGo (s0 :: (inner ++ [e0]))
        (s0 :: (updatedBlockInner meta deps package url ref ++ [e0])) 0 post)
      s0 e0 package url ref
      (setDeps meta (depsUpdate deps package (normalizeUrl url) ref))
      (depsUpdate deps package (normalizeUrl url) ref)
      hpre hs0 hinner₂ he0 hpost₂ hparse₂ hdeps₂ hfound₂
    have hsame : updatedBlockInner (setDeps meta (depsUpdate deps package (normalizeUrl url) ref))
        (depsUpdate deps package (normalizeUrl url) ref) package url ref
        = updatedBlockInner meta deps package url ref := by
      unfold updatedBlockInner
      rw [depsUpdate_stable hat hsep hstrip hu'b hrefc.2]
      rw [setDeps_setDeps]
    rw [h2, hsame]
    rw [replaceSubGo_self (s0 :: (updatedBlockInner meta deps package url ref ++ [e0]))
      (by simp) _ _ (le_refl _)]
    simp

/-- Closed instance of the amended C5 theorem: on the canonical script the
update succeeds and a second update of its own output is the identity. -/
theorem C5_update_idempotent_witness :
    ∃ out,
      update_git_reference exScript "mypkg".toList "https://github.com/a/b".toList
          "abc123".toList = some out ∧
      update_git_reference out "mypkg".toList "https://github.com/a/b".toList
          "abc123".toList = some out := by
  have h := C5_update_idempotent []
    ["# requires-python = \">=3.11\"".toList, "# dependencies = [".toList,
     "#     \"mypkg>=1.0\",".toList, "# ]".toList]
    ["print(1)".toList, []]
    "# /// script".toList "# ///".toList
    "mypkg".toList "https://github.com/a/b".toList "abc123".toList
    [("requires-python".toList, TomlVal.str ">=3.11".toList),
     ("dependencies".toList, TomlVal.arr ["mypkg>=1.0".toList])]
    ["mypkg>=1.0".toList]
    (by decide) (by decide) (by decide) (by decide) (by decide) (by decide)
    (by decide) (by decide) (by decide) (by decide) (by decide) (by decide)
  simpa [exScript] using h

/-! ## The dependency fixer on canonical blocks -/

theorem extractQuotedGo_no_quote {s : Str} (h : '"' ∉ s) : extractQuotedGo none s = [] := by
  induction s with
  | nil => rfl
  | cons c t ih =>
    rw [extractQuotedGo]
    rw [if_neg (fun he => h (by rw [← he]; exact List.mem_cons_self c t))]
    exact ih (fun hm => h (List.mem_cons_of_mem c hm))

theorem extractQuotedGo_skip {j : Str} (h : '"' ∉ j) :
    ∀ s : Str, extractQuotedGo none (j ++ s) = extractQuotedGo none s := by
  induction j with
  | nil => intro s; rfl
  | cons c t ih =>
    intro s
    rw [List.cons_append, extractQuotedGo]
    rw [if_neg (fun he => h (by rw [← he]; exact List.mem_cons_self c t))]
    exact ih (fun hm => h (List.mem_cons_of_mem c hm)) s

theorem extractQuotedGo_item {d : Str} (h : '"' ∉ d) :
    ∀ s : Str, extractQuotedGo none ('"' :: (d ++ '"' :: s)) = d :: extractQuotedGo none s := by
  have hacc : ∀ (d' : Str), '"' ∉ d' → ∀ (acc s : Str),
      extractQuotedGo (some acc) (d' ++ '"' :: s)
        = (acc.reverse ++ d') :: extractQuotedGo none s := by
    intro d'
    induction d' with
    | nil =>
      intro _ acc s
      rw [List.nil_append, extractQuotedGo, if_pos rfl]
      simp
    | cons c t ih =>
      intro h' acc s
      rw [List.cons_append, extractQuotedGo]
      rw [if_neg (fun he => h' (by rw [← he]; exact List.mem_cons_self c t))]
      rw [ih (fun hm => h' (List.mem_cons_of_mem c hm)) (c :: acc) s]
      simp
  intro s
  rw [extractQuotedGo, if_pos rfl, hacc d h [] s]
  simp

/-- Extraction of the quoted entries from the rendered, space-joined item
lines: exactly the entries come back. -/
theorem extractQuoted_rendered :
    ∀ (ps : List (Str × Str)) (tail : Str),
    (∀ p ∈ ps, '"' ∉ p.1 ∧ '"' ∉ p.2) → '"' ∉ tail →
    extractQuotedGo none
      (List.intercalate [' ']
        (ps.map (fun p => ['#', ' ', ' ', ' '] ++ ('"' :: (p.1 ++ '"' :: p.2)))) ++ tail)
      = ps.map Prod.fst := by
  intro ps
  induction ps with
  | nil =>
    intro tail _ htail
    rw [show List.intercalate [' '] (List.map _ ([] : List (Str × Str))) = ([] : Str) from by
      simp [List.intercalate]]
    rw [List.nil_append]
    exact extractQuotedGo_no_quote htail
  | cons p ps' ih =>
    intro tail hps htail
    have hp := hps p (List.mem_cons_self p ps')
    cases ps' with
    | nil =>
      rw [show List.intercalate [' ']
        (List.map (fun p => ['#', ' ', ' ', ' '] ++ ('"' :: (p.1 ++ '"' :: p.2))) [p])
        = ['#', ' ', ' ', ' '] ++ ('"' :: (p.1 ++ '"' :: p.2)) from by simp [List.intercalate]]
      rw [List.append_assoc,
        extractQuotedGo_skip (show ('\x22' : Char) ∉ ['#', ' ', ' ', ' '] from by decide)]
      rw [show ('"' :: (p.1 ++ '"' :: p.2)) ++ tail = '"' :: (p.1 ++ '"' :: (p.2 ++ tail)) from by
        simp]
      rw [extractQuotedGo_item hp.1]
      rw [extractQuotedGo_no_quote (by
        intro hm
        rcases List.mem_append.mp hm with hm | hm
        · exact hp.2 hm
        · exact htail hm)]
      rfl
    | cons q ps'' =>
      have hI : List.intercalate [' ']
          (List.map (fun p => ['#', ' ', ' ', ' '] ++ ('"' :: (p.1 ++ '"' :: p.2)))
            (p :: q :: ps''))
          = (['#', ' ', ' ', ' '] ++ ('"' :: (p.1 ++ '"' :: p.2))) ++ [' '] ++
            List.intercalate [' ']
              (List.map (fun p => ['#', ' ', ' ', ' '] ++ ('"' :: (p.1 ++ '"' :: p.2)))
                (q :: ps'')) := by
        rw [List.map_cons, List.map_cons]
        simp [List.intercalate, List.intersperse]
      rw [hI]
      rw [show ((['#', ' ', ' ', ' '] ++ ('"' :: (p.1 ++ '"' :: p.2))) ++ [' '] ++
          List.intercalate [' ']
            (List.map (fun p => ['#', ' ', ' ', ' '] ++ ('"' :: (p.1 ++ '"' :: p.2)))
              (q :: ps''))) ++ tail
        = ['#', ' ', ' ', ' '] ++ ('"' :: (p.1 ++ '"' :: ((p.2 ++ [' ']) ++
            (List.intercalate [' ']
              (List.map (fun p => ['#', ' ', ' ', ' '] ++ ('"' :: (p.1 ++ '"' :: p.2)))
                (q :: ps''))
              ++ tail)))) from by simp]
      rw [extractQuotedGo_skip (show ('\x22' : Char) ∉ ['#', ' ', ' ', ' '] from by decide)]
      rw [extractQuotedGo_item hp.1]
      rw [extractQuotedGo_skip (show ('\x22' : Char) ∉ p.2 ++ [' '] from by
        intro hm
        rcases List.mem_append.mp hm with hm | hm
        · exact hp.2 hm
        · exact absurd hm (by decide))]
      rw [ih tail (fun r hr => hps r (List.mem_cons_of_mem p hr)) htail]
      rfl

theorem itemLine_shape (d J : Str) :
    "#   \"".toList ++ d ++ ['"'] ++ J = ['#', ' ', ' ', ' '] ++ ('"' :: (d ++ '"' :: J)) := by
  rw [show ("#   \"".toList : Str) = ['#', ' ', ' ', ' ', '"'] from rfl]
  simp

theorem itemLine_strip (d J : Str) (hJ : J = [','] ∨ J = []) :
    pyStrip (['#', ' ', ' ', ' '] ++ ('"' :: (d ++ '"' :: J)))
      = ['#', ' ', ' ', ' '] ++ ('"' :: (d ++ '"' :: J)) := by
  apply pyStrip_eq_self
  · intro c hc
    rw [show ((['#', ' ', ' ', ' '] ++ ('"' :: (d ++ '"' :: J))) : Str).head? = some '#'
      from rfl, Option.some_inj] at hc
    rw [← hc]
    decide
  · intro c hc
    rcases hJ with hJ | hJ <;> subst hJ
    · rw [show (['#', ' ', ' ', ' '] ++ ('"' :: (d ++ '"' :: [','])) : Str)
        = (['#', ' ', ' ', ' '] ++ ('"' :: (d ++ ['"']))) ++ [','] from by simp] at hc
      rw [List.getLast?_concat, Option.some_inj] at hc
      rw [← hc]
      decide
    · rw [show (['#', ' ', ' ', ' '] ++ ('"' :: (d ++ '"' :: [])) : Str)
        = (['#', ' ', ' ', ' '] ++ ('"' :: d)) ++ ['"'] from by simp] at hc
      rw [List.getLast?_concat, Option.some_inj] at hc
      rw [← hc]
      decide

theorem itemLine_ne_start (d J : Str) :
    ['#', ' ', ' ', ' '] ++ ('"' :: (d ++ '"' :: J)) ≠ "# /// script".toList := by
  intro h
  rw [show ("# /// script".toList : Str)
    = ['#', ' ', '/', '/', '/', ' ', 's', 'c', 'r', 'i', 'p', 't'] from rfl] at h
  simp at h

theorem itemLine_ne_end (d J : Str) :
    ['#', ' ', ' ', ' '] ++ ('"' :: (d ++ '"' :: J)) ≠ "# ///".toList := by
  intro h
  rw [show ("# ///".toList : Str) = ['#', ' ', '/', '/', '/'] from rfl] at h
  simp at h

theorem itemLine_not_depprefix (d J : Str) :
    "# dependencies = [".toList.isPrefixOf (['#', ' ', ' ', ' '] ++ ('"' :: (d ++ '"' :: J)))
      = false := by
  rw [show ("# dependencies = [".toList : Str)
    = ['#', ' ', 'd', 'e', 'p', 'e', 'n', 'd', 'e', 'n', 'c', 'i', 'e', 's', ' ', '=', ' ', '[']
    from rfl]
  simp [List.isPrefixOf]

theorem itemLine_no_close (d J : Str) (hd : ']' ∉ d) (hJ : J = [','] ∨ J = []) :
    (['#', ' ', ' ', ' '] ++ ('"' :: (d ++ '"' :: J))).contains ']' = false := by
  have hm : ']' ∉ ['#', ' ', ' ', ' '] ++ ('"' :: (d ++ '"' :: J)) := by
    intro hm
    rcases List.mem_append.mp hm with h | h
    · exact absurd h (by decide)
    · rcases List.mem_cons.mp h with h | h
      · exact absurd h (by decide)
      · rcases List.mem_append.mp h with h | h
        · exact hd h
        · rcases List.mem_cons.mp h with h | h
          · exact absurd h (by decide)
          · rcases hJ with hJ | hJ <;> subst hJ
            · exact absurd h (by decide)
            · exact absurd h (List.not_mem_nil _)
  simpa using hm

/-- The marker scan walks past any block of lines that are neither markers
nor dependency headers. -/
theorem fixerScanGo_skip : ∀ (ls : Doc),
    (∀ l ∈ ls, pyStrip l ≠ "# /// script".toList ∧ pyStrip l ≠ "# ///".toList ∧
      "# dependencies = [".toList.isPrefixOf (pyStrip l) = false) →
    ∀ (rest : Doc) (i : Nat) (ms dl : Option Nat),
    fixerScanGo (ls ++ rest) i ms dl = fixerScanGo rest (i + ls.length) ms dl := by
  intro ls
  induction ls with
  | nil => intro _ rest i ms dl; simp
  | cons l ls' ih =>
    intro h rest i ms dl
    obtain ⟨h1, h2, h3⟩ := h l (List.mem_cons_self _ _)
    rw [List.cons_append]
    show (let t := pyStrip l;
      if t = "# /// script".toList then fixerScanGo (ls' ++ rest) (i + 1) (some i) dl
      else if t = "# ///".toList then (ms, some i, dl)
      else if ms.isSome ∧ "# dependencies = [".toList.isPrefixOf t
        then fixerScanGo (ls' ++ rest) (i + 1) ms (some i)
      else fixerScanGo (ls' ++ rest) (i + 1) ms dl) = _
    simp only []
    rw [if_neg h1, if_neg h2]
    rw [if_neg (fun hcon => by rw [h3] at hcon; exact Bool.false_ne_true hcon.2)]
    rw [ih (fun l' hl' => h l' (List.mem_cons_of_mem l hl')) rest (i + 1) ms dl]
    have harith : i + 1 + ls'.length = i + (ls'.length + 1) := by omega
    rw [harith]
    rfl

/-- The dependency-line collection walks past lines without a closing
bracket. -/
theorem collectDepsGo_skip : ∀ (ls : Doc),
    (∀ l ∈ ls, l.contains ']' = false) →
    ∀ (rest : Doc) (a : Nat),
    collectDepsGo (a + ls.length) (ls ++ rest) = ls ++ collectDepsGo a rest := by
  intro ls
  induction ls with
  | nil => intro _ rest a; simp
  | cons l ls' ih =>
    intro h rest a
    rw [List.cons_append]
    rw [show a + (l :: ls').length = (a + ls'.length) + 1 from by
      rw [List.length_cons]; omega]
    rw [collectDepsGo]
    rw [if_neg (by rw [h l (List.mem_cons_self _ _)]; exact Bool.false_ne_true)]
    rw [ih (fun l' hl' => h l' (List.mem_cons_of_mem l hl')) rest a]
    rfl

/-- The close-bracket search walks past lines without a closing bracket. -/
theorem findCloseGo_skip : ∀ (ls : Doc),
    (∀ l ∈ ls, l.contains ']' = false) →
    ∀ (rest : Doc) (a i : Nat),
    findCloseGo (a + ls.length) i (ls ++ rest) = findCloseGo a (i + ls.length) rest := by
  intro ls
  induction ls with
  | nil => intro _ rest a i; simp
  | cons l ls' ih =>
    intro h rest a i
    rw [List.cons_append]
    rw [show a + (l :: ls').length = (a + ls'.length) + 1 from by
      rw [List.length_cons]; omega]
    rw [findCloseGo]
    rw [if_neg (by rw [h l (List.mem_cons_self _ _)]; exact Bool.false_ne_true)]
    rw [ih (fun l' hl' => h l' (List.mem_cons_of_mem l hl')) rest a (i + 1)]
    have harith : i + 1 + ls'.length = i + (ls'.length + 1) := by omega
    rw [harith]
    rfl

theorem fixerScanGo_cons (l : Str) (rest : Doc) (i : Nat) (ms dl : Option Nat) :
    fixerScanGo (l :: rest) i ms dl
      = (if pyStrip l = "# /// script".toList then fixerScanGo rest (i + 1) (some i) dl
         else if pyStrip l = "# ///".toList then (ms, some i, dl)
         else if ms.isSome ∧ "# dependencies = [".toList.isPrefixOf (pyStrip l)
           then fixerScanGo rest (i + 1) ms (some i)
         else fixerScanGo rest (i + 1) ms dl) := rfl

theorem collectDepsGo_cons (a : Nat) (l : Str) (rest : Doc) :
    collectDepsGo (a + 1) (l :: rest)
      = if l.contains ']' then [l] else l :: collectDepsGo a rest := rfl

theorem findCloseGo_cons (a i : Nat) (l : Str) (rest : Doc) :
    findCloseGo (a + 1) i (l :: rest)
      = if l.contains ']' then some i else findCloseGo a (i + 1) rest := rfl

theorem intercalate_cons_cons (s a : Str) : ∀ (b : Str) (l : List Str),
    List.intercalate s (a :: b :: l) = a ++ s ++ List.intercalate s (b :: l) := by
  intro b l
  simp [List.intercalate, List.intersperse]

theorem not_mem_intercalate {c : Char} {s : Str} (hs : c ∉ s) :
    ∀ (l : List Str), (∀ a ∈ l, c ∉ a) → c ∉ List.intercalate s l := by
  intro l
  induction l with
  | nil => intro _; simp [List.intercalate]
  | cons a l' ih =>
    intro h
    cases l' with
    | nil =>
      rw [show List.intercalate s [a] = a from by simp [List.intercalate]]
      exact h a (List.mem_cons_self _ _)
    | cons b l'' =>
      rw [intercalate_cons_cons]
      intro hm
      rcases List.mem_append.mp hm with h1 | h1
      · rcases List.mem_append.mp h1 with h2 | h2
        · exact h a (List.mem_cons_self _ _) h2
        · exact hs h2
      · exact ih (fun x hx => h x (List.mem_cons_of_mem a hx)) h1

theorem dedupFirst_nodup : ∀ (l seen : List Str),
    (dedupFirst seen l).Nodup ∧ ∀ x ∈ dedupFirst seen l, seen.contains x = false := by
  intro l
  induction l with
  | nil => intro seen; exact ⟨List.nodup_nil, fun x hx => absurd hx (List.not_mem_nil x)⟩
  | cons y t ih =>
    intro seen
    rw [dedupFirst]
    by_cases hy : seen.contains y = true
    · rw [if_pos hy]
      exact ih seen
    · rw [if_neg hy]
      obtain ⟨hnd, hns⟩ := ih (y :: seen)
      refine ⟨List.nodup_cons.mpr ⟨?_, hnd⟩, ?_⟩
      · intro hm
        have h := hns y hm
        simp at h
      · intro x hx
        rcases List.mem_cons.mp hx with hx | hx
        · exact hx ▸ Bool.eq_false_iff.mpr hy
        · have h := hns x hx
          rw [Bool.eq_false_iff] at h ⊢
          intro hc
          exact h (by rw [List.contains_cons, hc]; simp)

/-- `apply_dependency_fixes` in the successful-scan case, with the recorded
marker and dependency-line indices. -/
theorem apply_dependency_fixes_found (lines : Doc) (fixes : List DependencyFix)
    (ms me dl : Nat) (hfix : fixes ≠ [])
    (hscan : fixerScan lines = (some ms, some me, some dl)) :
    apply_dependency_fixes lines fixes =
      lines.take (ms + 2) ++
      renderDepLines
        ((match firstBracketInner (List.intercalate [' '] (collectDepsLines lines me dl)) with
          | some inner => extractQuoted inner
          | none => []) ++
          (dedupFirst [] (fixes.map (·.package_name))).filter
            (fun d => ¬ (match firstBracketInner
                (List.intercalate [' '] (collectDepsLines lines me dl)) with
              | some inner => extractQuoted inner
              | none => []).contains d)) ++
      lines.drop (match findCloseFrom lines me dl with
        | some idx => idx + 1
        | none => ms + 2) := by
  unfold apply_dependency_fixes
  rw [if_neg hfix, hscan]
  rfl

theorem intercalate_concat (s c : Str) : ∀ (l : List Str), l ≠ [] →
    List.intercalate s (l ++ [c]) = List.intercalate s l ++ s ++ c := by
  intro l
  induction l with
  | nil => intro h; exact absurd rfl h
  | cons a l' ih =>
    intro _
    cases l' with
    | nil =>
      rw [show ([a] : List Str) ++ [c] = [a, c] from rfl]
      rw [intercalate_cons_cons]
      rw [show List.intercalate s [c] = c from by simp [List.intercalate]]
      rw [show List.intercalate s [a] = a from by simp [List.intercalate]]
    | cons b l'' =>
      have hbc : ((b :: l'') : List Str) ++ [c] = b :: (l'' ++ [c]) := rfl
      rw [show ((a :: b :: l'') : List Str) ++ [c] = a :: ((b :: l'') ++ [c]) from rfl]
      rw [hbc, intercalate_cons_cons, ← hbc, ih (List.cons_ne_nil _ _)]
      rw [intercalate_cons_cons]
      simp

/-- **C7 (amended)** — `apply_dependency_fixes` deduplicates by the exact
specifier string, not by bare package name: on a canonical fixer-format
block it keeps every existing entry verbatim and in order, appends exactly
the fix package names not already present as identical strings, and (when
the existing entries are distinct) the resulting entry list has no exact
duplicates.  Dedup by bare package name is false: `dask[array]` is appended
next to an existing `dask` (see the counterexample). -/
theorem C7_fixer_dedup_by_exact_string
    (rpLine : Str) (ds : List Str) (body : Doc) (fixes : List DependencyFix)
    (hfix : fixes ≠ [])
    (hrp1 : pyStrip rpLine ≠ "# /// script".toList)
    (hrp2 : pyStrip rpLine ≠ "# ///".toList)
    (hrp3 : "# dependencies = [".toList.isPrefixOf (pyStrip rpLine) = false)
    (hds : ∀ d ∈ ds, '"' ∉ d ∧ ']' ∉ d) :
    apply_dependency_fixes (mkFixerDoc rpLine ds body) fixes
      = mkFixerDoc rpLine
          (ds ++ (dedupFirst [] (fixes.map (fun f => f.package_name))).filter
          (fun d => ¬ ds.contains d)) body
    ∧ (ds.Nodup →
        (ds ++ (dedupFirst [] (fixes.map (fun f => f.package_name))).filter
          (fun d => ¬ ds.contains d)).Nodup) := by
  have hn : (((ds.zip (List.range ds.length)).map
      (fun p => "#   \"".toList ++ p.1 ++ ['"'] ++ if p.2 < ds.length - 1 then [','] else []))).length = ds.length := by simp
  have hitem : ∀ l ∈ ((ds.zip (List.range ds.length)).map
      (fun p => "#   \"".toList ++ p.1 ++ ['"'] ++ if p.2 < ds.length - 1 then [','] else [])),
      ∃ d J, d ∈ ds ∧ (J = [','] ∨ J = []) ∧
        l = ['#', ' ', ' ', ' '] ++ ('"' :: (d ++ '"' :: J)) := by
    intro l hl
    obtain ⟨p, hp, hEq⟩ := List.mem_map.mp hl
    refine ⟨p.1, (if p.2 < ds.length - 1 then [','] else []), (List.of_mem_zip hp).1, ?_, ?_⟩
    · by_cases h2 : p.2 < ds.length - 1
      · rw [if_pos h2]
        exact Or.inl rfl
      · rw [if_neg h2]
        exact Or.inr rfl
    · rw [← hEq]
      exact itemLine_shape p.1 _
  have hscanskip : ∀ l ∈ ((ds.zip (List.range ds.length)).map
      (fun p => "#   \"".toList ++ p.1 ++ ['"'] ++ if p.2 < ds.length - 1 then [','] else [])),
      pyStrip l ≠ "# /// script".toList ∧ pyStrip l ≠ "# ///".toList ∧
      "# dependencies = [".toList.isPrefixOf (pyStrip l) = false := by
    intro l hl
    obtain ⟨d, J, hdmem, hJ, hEq⟩ := hitem l hl
    subst hEq
    rw [itemLine_strip d J hJ]
    exact ⟨itemLine_ne_start d J, itemLine_ne_end d J, itemLine_not_depprefix d J⟩
  have hnoclose : ∀ l ∈ ((ds.zip (List.range ds.length)).map
      (fun p => "#   \"".toList ++ p.1 ++ ['"'] ++ if p.2 < ds.length - 1 then [','] else [])), l.contains ']' = false := by
    intro l hl
    obtain ⟨d, J, hdmem, hJ, hEq⟩ := hitem l hl
    subst hEq
    exact itemLine_no_close d J (hds d hdmem).2 hJ
  have hnomem : ∀ l ∈ ((ds.zip (List.range ds.length)).map
      (fun p => "#   \"".toList ++ p.1 ++ ['"'] ++ if p.2 < ds.length - 1 then [','] else [])), ']' ∉ l := by
    intro l hl
    have h := hnoclose l hl
    intro hm
    rw [(by simpa using hm : l.contains ']' = true)] at h
    exact Bool.true_eq_false.mp h
  have hdoc : mkFixerDoc rpLine ds body
      = "# /// script".toList :: rpLine :: "# dependencies = [".toList ::
          (((ds.zip (List.range ds.length)).map
      (fun p => "#   \"".toList ++ p.1 ++ ['"'] ++ if p.2 < ds.length - 1 then [','] else [])) ++ "# ]".toList :: "# ///".toList :: body) := by
    unfold mkFixerDoc renderDepLines
    simp
  have hscan : fixerScan (mkFixerDoc rpLine ds body)
      = (some 0, some (ds.length + 4), some 2) := by
    unfold fixerScan
    rw [hdoc]
    rw [fixerScanGo_cons, if_pos (by decide)]
    rw [fixerScanGo_cons, if_neg hrp1, if_neg hrp2,
      if_neg (fun hcon => by rw [hrp3] at hcon; exact Bool.false_ne_true hcon.2)]
    rw [fixerScanGo_cons, if_neg (by decide), if_neg (by decide), if_pos (by decide)]
    rw [fixerScanGo_skip _ hscanskip]
    rw [fixerScanGo_cons, if_neg (by decide), if_neg (by decide), if_neg (by decide)]
    rw [fixerScanGo_cons, if_neg (by decide), if_pos (by decide)]
    simp only [hn, Prod.mk.injEq, Option.some_inj]
    exact ⟨trivial, by omega, trivial⟩
  have hcoll : collectDepsLines (mkFixerDoc rpLine ds body) (ds.length + 4) 2
      = "# dependencies = [".toList :: (((ds.zip (List.range ds.length)).map
      (fun p => "#   \"".toList ++ p.1 ++ ['"'] ++ if p.2 < ds.length - 1 then [','] else [])) ++ ["# ]".toList]) := by
    unfold collectDepsLines
    rw [hdoc]
    rw [show (("# /// script".toList :: rpLine :: "# dependencies = [".toList ::
        (((ds.zip (List.range ds.length)).map
      (fun p => "#   \"".toList ++ p.1 ++ ['"'] ++ if p.2 < ds.length - 1 then [','] else [])) ++ "# ]".toList :: "# ///".toList :: body)).drop 2)
      = "# dependencies = [".toList ::
          (((ds.zip (List.range ds.length)).map
      (fun p => "#   \"".toList ++ p.1 ++ ['"'] ++ if p.2 < ds.length - 1 then [','] else [])) ++ "# ]".toList :: "# ///".toList :: body) from rfl]
    rw [show ds.length + 4 + 1 - 2 = (2 + ds.length) + 1 from by omega]
    rw [collectDepsGo_cons, if_neg (by decide)]
    rw [show 2 + ds.length = 2 + (((ds.zip (List.range ds.length)).map
      (fun p => "#   \"".toList ++ p.1 ++ ['"'] ++ if p.2 < ds.length - 1 then [','] else []))).length from by rw [hn]]
    rw [collectDepsGo_skip _ hnoclose]
    rw [show (2 : Nat) = 1 + 1 from rfl, collectDepsGo_cons, if_pos (by decide)]
  have hexist : (match firstBracketInner (List.intercalate [' ']
      (collectDepsLines (mkFixerDoc rpLine ds body) (ds.length + 4) 2)) with
      | some inner => extractQuoted inner
      | none => []) = ds := by
    rw [hcoll]
    by_cases hds0 : ds = []
    · subst hds0
      decide
    · have hine : ((ds.zip (List.range ds.length)).map
      (fun p => "#   \"".toList ++ p.1 ++ ['"'] ++ if p.2 < ds.length - 1 then [','] else [])) ≠ [] := by
        intro h0
        rw [h0] at hn
        simp only [List.length_nil] at hn
        exact hds0 (List.length_eq_zero.mp hn.symm)
      obtain ⟨it, its, hit⟩ : ∃ it its, ((ds.zip (List.range ds.length)).map
      (fun p => "#   \"".toList ++ p.1 ++ ['"'] ++ if p.2 < ds.length - 1 then [','] else [])) = it :: its := by
        cases hcc : ((ds.zip (List.range ds.length)).map
      (fun p => "#   \"".toList ++ p.1 ++ ['"'] ++ if p.2 < ds.length - 1 then [','] else [])) with
        | nil => exact absurd hcc hine
        | cons a b => exact ⟨a, b, rfl⟩
      have hS : List.intercalate [' ']
          ("# dependencies = [".toList :: (((ds.zip (List.range ds.length)).map
      (fun p => "#   \"".toList ++ p.1 ++ ['"'] ++ if p.2 < ds.length - 1 then [','] else [])) ++ ["# ]".toList]))
          = "# dependencies = ".toList ++
            ('[' :: (([' '] ++ List.intercalate [' '] ((ds.zip (List.range ds.length)).map
      (fun p => "#   \"".toList ++ p.1 ++ ['"'] ++ if p.2 < ds.length - 1 then [','] else [])) ++ [' ', '#', ' ']) ++ [']'])) := by
        rw [show ("# dependencies = [".toList :: (((ds.zip (List.range ds.length)).map
      (fun p => "#   \"".toList ++ p.1 ++ ['"'] ++ if p.2 < ds.length - 1 then [','] else [])) ++ ["# ]".toList]) : Doc)
          = ("# dependencies = [".toList :: ((ds.zip (List.range ds.length)).map
      (fun p => "#   \"".toList ++ p.1 ++ ['"'] ++ if p.2 < ds.length - 1 then [','] else []))) ++ ["# ]".toList] from by simp]
        rw [intercalate_concat [' '] "# ]".toList _ (List.cons_ne_nil _ _)]
        rw [hit, intercalate_cons_cons, ← hit]
        rw [show ("# dependencies = [".toList : Str)
          = "# dependencies = ".toList ++ ['['] from rfl]
        rw [show ("# ]".toList : Str) = ['#', ' ', ']'] from rfl]
        simp
    -- firstBracketInner on the assembled string
      rw [hS]
      unfold firstBracketInner
      rw [show (("# dependencies = ".toList ++
          ('[' :: (([' '] ++ List.intercalate [' '] ((ds.zip (List.range ds.length)).map
      (fun p => "#   \"".toList ++ p.1 ++ ['"'] ++ if p.2 < ds.length - 1 then [','] else [])) ++ [' ', '#', ' ']) ++ [']'])) :
          Str).dropWhile (· ≠ '['))
        = '[' :: (([' '] ++ List.intercalate [' '] ((ds.zip (List.range ds.length)).map
      (fun p => "#   \"".toList ++ p.1 ++ ['"'] ++ if p.2 < ds.length - 1 then [','] else [])) ++ [' ', '#', ' ']) ++ [']'])
        from by
          rw [dropWhile_append_of_all (by decide)]
          simp [List.dropWhile_cons]]
      rw [if_pos (show (('[' :: (([' '] ++ List.intercalate [' '] ((ds.zip (List.range ds.length)).map
      (fun p => "#   \"".toList ++ p.1 ++ ['"'] ++ if p.2 < ds.length - 1 then [','] else [])) ++ [' ', '#', ' ']) ++
        [']'])) : Str).head? = some '[' from rfl)]
      simp only [List.tail_cons]
      have hW : ∀ c ∈ [' '] ++ List.intercalate [' '] ((ds.zip (List.range ds.length)).map
      (fun p => "#   \"".toList ++ p.1 ++ ['"'] ++ if p.2 < ds.length - 1 then [','] else [])) ++ [' ', '#', ' '],
          (decide (c ≠ ']')) = true := by
        intro c hc
        simp only [decide_eq_true_eq]
        intro he
        subst he
        rcases List.mem_append.mp hc with h1 | h1
        · rcases List.mem_append.mp h1 with h2 | h2
          · exact absurd h2 (by decide)
          · exact not_mem_intercalate (by decide) _ hnomem h2
        · exact absurd h1 (by decide)
      rw [takeWhile_append_of_all hW]
      rw [show ([']'] : Str).takeWhile (· ≠ ']') = [] from by decide, List.append_nil]
      rw [if_pos (by
        rw [List.drop_left]
        simp)]
      -- extraction
      show extractQuoted ([' '] ++ List.intercalate [' '] ((ds.zip (List.range ds.length)).map
      (fun p => "#   \"".toList ++ p.1 ++ ['"'] ++ if p.2 < ds.length - 1 then [','] else [])) ++ [' ', '#', ' ']) = ds
      have hitems_ren : ((ds.zip (List.range ds.length)).map
      (fun p => "#   \"".toList ++ p.1 ++ ['"'] ++ if p.2 < ds.length - 1 then [','] else [])) = (((ds.zip (List.range ds.length)).map
          (fun p => (p.1, if p.2 < ds.length - 1 then [','] else []))).map
          (fun q => ['#', ' ', ' ', ' '] ++ ('"' :: (q.1 ++ '"' :: q.2)))) := by
        rw [List.map_map]
        apply List.map_congr_left
        intro p _
        simp only [Function.comp]
        exact itemLine_shape p.1 _
      unfold extractQuoted
      rw [show ([' '] ++ List.intercalate [' '] ((ds.zip (List.range ds.length)).map
      (fun p => "#   \"".toList ++ p.1 ++ ['"'] ++ if p.2 < ds.length - 1 then [','] else [])) ++ [' ', '#', ' '] : Str)
        = [' '] ++ (List.intercalate [' '] ((ds.zip (List.range ds.length)).map
      (fun p => "#   \"".toList ++ p.1 ++ ['"'] ++ if p.2 < ds.length - 1 then [','] else [])) ++ [' ', '#', ' ']) from by simp]
      rw [extractQuotedGo_skip (show ('\x22' : Char) ∉ [' '] from by decide)]
      rw [hitems_ren]
      rw [extractQuoted_rendered _ [' ', '#', ' ']
        (by
          intro p hp
          obtain ⟨q, hq, hEq⟩ := List.mem_map.mp hp
          constructor
          · rw [← hEq]
            exact (hds q.1 (List.of_mem_zip hq).1).1
          · rw [← hEq]
            by_cases h2 : q.2 < ds.length - 1
            · rw [if_pos h2]
              exact show ('\x22' : Char) ∉ ([','] : Str) from by decide
            · rw [if_neg h2]
              exact show ('\x22' : Char) ∉ ([] : Str) from by decide)
        (by decide)]
      rw [List.map_map]
      exact List.map_fst_zip ds _ (by simp)
  have hfind : findCloseFrom (mkFixerDoc rpLine ds body) (ds.length + 4) 2
      = some (2 + 1 + (((ds.zip (List.range ds.length)).map
      (fun p => "#   \"".toList ++ p.1 ++ ['"'] ++ if p.2 < ds.length - 1 then [','] else []))).length) := by
    unfold findCloseFrom
    rw [hdoc]
    rw [show (("# /// script".toList :: rpLine :: "# dependencies = [".toList ::
        (((ds.zip (List.range ds.length)).map
      (fun p => "#   \"".toList ++ p.1 ++ ['"'] ++ if p.2 < ds.length - 1 then [','] else [])) ++ "# ]".toList :: "# ///".toList :: body)).drop 2)
      = "# dependencies = [".toList ::
          (((ds.zip (List.range ds.length)).map
      (fun p => "#   \"".toList ++ p.1 ++ ['"'] ++ if p.2 < ds.length - 1 then [','] else [])) ++ "# ]".toList :: "# ///".toList :: body) from rfl]
    rw [show ds.length + 4 + 1 - 2 = (2 + ds.length) + 1 from by omega]
    rw [findCloseGo_cons, if_neg (by decide)]
    rw [show 2 + ds.length = 2 + (((ds.zip (List.range ds.length)).map
      (fun p => "#   \"".toList ++ p.1 ++ ['"'] ++ if p.2 < ds.length - 1 then [','] else []))).length from by rw [hn]]
    rw [findCloseGo_skip _ hnoclose]
    rw [show (2 : Nat) = 1 + 1 from rfl, findCloseGo_cons, if_pos (by decide)]
  constructor
  · rw [apply_dependency_fixes_found (mkFixerDoc rpLine ds body) fixes 0 (ds.length + 4) 2
      hfix hscan]
    rw [hexist]
    rw [show (match findCloseFrom (mkFixerDoc rpLine ds body) (ds.length + 4) 2 with
      | some idx => idx + 1
      | none => 0 + 2) = 2 + 1 + (((ds.zip (List.range ds.length)).map
      (fun p => "#   \"".toList ++ p.1 ++ ['"'] ++ if p.2 < ds.length - 1 then [','] else []))).length + 1 from by rw [hfind]]
    rw [show (mkFixerDoc rpLine ds body).take (0 + 2) = ["# /// script".toList, rpLine] from by
      rw [hdoc]
      rfl]
    rw [show (mkFixerDoc rpLine ds body).drop (2 + 1 + (((ds.zip (List.range ds.length)).map
      (fun p => "#   \"".toList ++ p.1 ++ ['"'] ++ if p.2 < ds.length - 1 then [','] else []))).length + 1)
      = "# ///".toList :: body from by
        rw [hdoc]
        rw [show 2 + 1 + (((ds.zip (List.range ds.length)).map
      (fun p => "#   \"".toList ++ p.1 ++ ['"'] ++ if p.2 < ds.length - 1 then [','] else []))).length + 1 = ((((ds.zip (List.range ds.length)).map
      (fun p => "#   \"".toList ++ p.1 ++ ['"'] ++ if p.2 < ds.length - 1 then [','] else []))).length + 1) + 1 + 1 + 1 from by omega]
        rw [List.drop_succ_cons, List.drop_succ_cons, List.drop_succ_cons]
        rw [List.drop_append 1]
        rfl]
    rfl
  · intro hnd
    have hdna := dedupFirst_nodup (fixes.map (fun f => f.package_name)) []
    refine List.nodup_append.mpr ⟨hnd, hdna.1.filter _, ?_⟩
    intro x hx hx'
    have hmem := List.of_mem_filter hx'
    simp only [decide_eq_true_eq] at hmem
    exact hmem (by simpa using hx)

/-- Witness for C7: on a block already containing `dask`, applying fixes for
`dask[array]` (not an exact duplicate) and `dask` (an exact duplicate) appends
only `dask[array]`, and the resulting entry list is duplicate-free. -/
theorem C7_fixer_dedup_by_exact_string_witness :
    (apply_dependency_fixes
        (mkFixerDoc "# requires-python = \">=3.11\"".toList ["dask".toList] [[]])
        [⟨"dask[array]".toList, "chunk manager 'dask' is not available".toList⟩,
         ⟨"dask".toList, "No module named 'dask'".toList⟩]
      = mkFixerDoc "# requires-python = \">=3.11\"".toList
          (["dask".toList] ++
            (dedupFirst [] (([⟨"dask[array]".toList, "chunk manager 'dask' is not available".toList⟩,
              ⟨"dask".toList, "No module named 'dask'".toList⟩] : List DependencyFix).map
                (fun f => f.package_name))).filter
            (fun d => ¬ ["dask".toList].contains d)) [[]])
    ∧ (["dask".toList].Nodup →
        (["dask".toList] ++
          (dedupFirst [] (([⟨"dask[array]".toList, "chunk manager 'dask' is not available".toList⟩,
            ⟨"dask".toList, "No module named 'dask'".toList⟩] : List DependencyFix).map
              (fun f => f.package_name))).filter
          (fun d => ¬ ["dask".toList].contains d)).Nodup) :=
  C7_fixer_dedup_by_exact_string
    "# requires-python = \">=3.11\"".toList ["dask".toList] [[]]
    [⟨"dask[array]".toList, "chunk manager 'dask' is not available".toList⟩,
     ⟨"dask".toList, "No module named 'dask'".toList⟩]
    (by decide) (by decide) (by decide) (by decide) (by decide)

end ScriptBisect
